import Mathlib

/-!
Verification development for the Thought repository: a shallow embedding of
the tag parsers (`thought_wrapper/core.py`), the thought memory store, the
thought graph and the reflection engine (`thought_wrapper/tms/`), with
theorems settling the frozen claims about them.

Modelling conventions:
* Python strings are `List Char` (identifiers use `String`).
* Real/float arithmetic is modelled over `ℚ`.  The `numpy.float32`
  narrowing performed by `_vector_to_blob` is modelled exactly by `toF32`
  (IEEE-754 binary32, round to nearest, ties to even).
* `_normalize` divides a vector by its L2 norm, a square root with no exact
  value in `ℚ`; it is kept as an explicit function parameter `nrm` of the
  vector-index operations, and theorems hold for every such function.
  Concrete evaluations instantiate `nrm := id` and use unit vectors, on
  which the source's normalisation is the identity as well.
* Wall-clock reads (`_utc_now`) become an explicit `now` argument;
  timestamps are rationals (seconds since an arbitrary epoch; the ISO-8601
  strings of the source compare consistently with this order).
* SQLite I/O failure is injected through an explicit `io : ℕ → Bool`
  oracle: the k-th row insert of a transaction fails when `io k = true`.
  `io := fun _ => false` is failure-free operation.
* Recursions that are not structural in the source use an explicit fuel
  argument always instantiated with more fuel than the scan can consume;
  unfolding equations proved below recover the natural recurrences.
-/

namespace TW

/-- Horizontal whitespace: the `[ \t]` class of the cleaners' regexes. -/
def isHWS (c : Char) : Bool := c = ' ' || c = '\t'

/-- Python whitespace (`str.strip` / regex `\s`, ASCII range). -/
def isPyWS (c : Char) : Bool :=
  c = ' ' || c = '\t' || c = '\n' || c = '\r' || c = '\x0b' || c = '\x0c'

/-- Python `str.strip()` on a character list. -/
def stripWS (l : List Char) : List Char :=
  ((l.dropWhile isPyWS).reverse.dropWhile isPyWS).reverse

/-- Python `str.strip()` on a `String` identifier. -/
def pyStrip (s : String) : String := String.mk (stripWS s.data)

/-! ### Tag parsers (`thought_wrapper/core.py`)

`tg` is the configurable `tag_name` (default `"thought"`); the marker is
the literal `/<tag_name>[` that both parsers scan for. -/

/-- The opening marker `/<tag_name>[`. -/
def marker (tg : List Char) : List Char := '/' :: tg ++ ['[']

/-- Split a string at its first `]`: `some (u, rest)` with the input
`= u ++ rest` and `u` ending in that `]`.  This is the regex parser's
non-greedy `(.*?)\]`. -/
def splitRB : List Char → Option (List Char × List Char)
  | [] => none
  | c :: r =>
    if c = ']' then some ([']'], r)
    else (splitRB r).map fun p => (c :: p.1, p.2)

/-- First match of the regex `/<tag>\[(.*?)\]` (DOTALL): `some (content,
rest)` for the leftmost marker that has a later `]`; scanning past a marker
with no later `]` finds nothing, as no later start can close either. -/
def findR (tg : List Char) : List Char → Option (List Char × List Char)
  | [] => none
  | c :: r =>
    if (marker tg).isPrefixOf (c :: r) then
      match splitRB ((c :: r).drop (marker tg).length) with
      | some (u, rest) => some (u.dropLast, rest)
      | none => none
    else findR tg r

/-- All regex-match contents in input order (`re.findall`). -/
def contentsRGo (tg : List Char) : ℕ → List Char → List (List Char)
  | 0, _ => []
  | f + 1, l =>
    match findR tg l with
    | none => []
    | some (c, rest) => c :: contentsRGo tg f rest

/-- Contents extracted by `parse_thought_tags`' regex, in input order. -/
def contentsR (tg l : List Char) : List (List Char) :=
  contentsRGo tg (l.length + 1) l

/-- The linear parser's bracket scan from depth `d`: consume until the
depth returns to 0; `some (u, rest)` with the input `= u ++ rest` and `u`
ending in the closing `]`; `none` when the tag never closes. -/
def scanSplit : List Char → ℕ → Option (List Char × List Char)
  | [], _ => none
  | c :: r, d =>
    if c = '[' then (scanSplit r (d + 1)).map fun p => ('[' :: p.1, p.2)
    else if c = ']' then
      if d = 1 then some ([']'], r)
      else (scanSplit r (d - 1)).map fun p => (']' :: p.1, p.2)
    else (scanSplit r d).map fun p => (c :: p.1, p.2)

/-- First match of `_iter_tag_matches_linear`: `some (pre, mid, rest)`
decomposes the input as `pre ++ mid ++ rest` where `mid` is the matched
span `marker ++ balanced-content ++ ']'`.  An unclosed marker is skipped by
advancing one character, exactly as the source's `scan_idx = start + 1`. -/
def findLin (tg : List Char) : List Char → Option (List Char × List Char × List Char)
  | [] => none
  | c :: r =>
    if (marker tg).isPrefixOf (c :: r) then
      match scanSplit ((c :: r).drop (marker tg).length) 1 with
      | some (u, rest) => some ([], marker tg ++ u, rest)
      | none => (findLin tg r).map fun p => (c :: p.1, p.2)
    else (findLin tg r).map fun p => (c :: p.1, p.2)

/-- All linear-match contents (text between the opening `[` and its
matching `]`) in input order. -/
def contentsLGo (tg : List Char) : ℕ → List Char → List (List Char)
  | 0, _ => []
  | f + 1, l =>
    match findLin tg l with
    | none => []
    | some (_, mid, rest) =>
      ((mid.drop (marker tg).length).dropLast) :: contentsLGo tg f rest

/-- Contents extracted by `parse_thought_tags_linear`, in input order. -/
def contentsL (tg l : List Char) : List (List Char) :=
  contentsLGo tg (l.length + 1) l

/-- Whether the linear scan ever abandons a marker (reaches the end of the
text with positive depth): the input "has an unclosed tag". -/
def hasUnclosedGo (tg : List Char) : ℕ → List Char → Bool
  | 0, _ => false
  | f + 1, l =>
    match l with
    | [] => false
    | c :: r =>
      if (marker tg).isPrefixOf (c :: r) then
        match scanSplit ((c :: r).drop (marker tg).length) 1 with
        | some (_, rest) => hasUnclosedGo tg f rest
        | none => true
      else hasUnclosedGo tg f r

/-- `true` when the input contains an unclosed `/<tag>[` marker. -/
def hasUnclosed (tg l : List Char) : Bool := hasUnclosedGo tg (l.length + 1) l

/-- The dictionary key `f"{tag_name}_{idx}"`. -/
def pyKey (tg : List Char) (i : ℕ) : String := String.mk tg ++ "_" ++ toString i

/-- `parse_thought_tags`: ordered mapping `tag_i ↦ content.strip()` from
the regex matches. -/
def parse_thought_tags (tg l : List Char) : List (String × String) :=
  (contentsR tg l).enum.map fun p => (pyKey tg p.1, String.mk (stripWS p.2))

/-- `parse_thought_tags_linear`: ordered mapping from the bracket-balanced
matches. -/
def parse_thought_tags_linear (tg l : List Char) : List (String × String) :=
  (contentsL tg l).enum.map fun p => (pyKey tg p.1, String.mk (stripWS p.2))

/-! ### Cleaners -/

/-- One attempt of the cleaner regex `\s*/<tag>\[.*?\]\s*` anchored at the
current position: greedy leading whitespace, the marker, content to the
first `]`, greedy trailing whitespace.  `some (mid, rest)` decomposes the
input as `mid ++ rest` with `mid` the whole match. -/
def tryMatch (tg : List Char) (l : List Char) : Option (List Char × List Char) :=
  let l1 := l.dropWhile isPyWS
  if (marker tg).isPrefixOf l1 then
    match splitRB (l1.drop (marker tg).length) with
    | some (u, v) =>
      some (l.takeWhile isPyWS ++ marker tg ++ u ++ v.takeWhile isPyWS,
            v.dropWhile isPyWS)
    | none => none
  else none

/-- Leftmost match of the cleaner regex: `some (pre, mid, rest)` with the
input `= pre ++ mid ++ rest`. -/
def findSub (tg : List Char) : List Char → Option (List Char × List Char × List Char)
  | [] => none
  | c :: r =>
    match tryMatch tg (c :: r) with
    | some (mid, rest) => some ([], mid, rest)
    | none => (findSub tg r).map fun p => (c :: p.1, p.2)

/-- `re.sub(r"\s*/<tag>\[.*?\]\s*", "\n", text)`: replace every match by a
single newline, scanning left to right. -/
def subTagsGo (tg : List Char) : ℕ → List Char → List Char
  | 0, l => l
  | f + 1, l =>
    match findSub tg l with
    | none => l
    | some (pre, _, rest) => pre ++ '\n' :: subTagsGo tg f rest

/-- The cleaner's tag-removal pass (regex variant). -/
def subTags (tg l : List Char) : List Char := subTagsGo tg (l.length + 1) l

/-- The linear cleaner's span replacement: each balanced match replaced by
a single newline (`out_parts` of `clean_thought_tags_linear`). -/
def replaceSpansGo (tg : List Char) : ℕ → List Char → List Char
  | 0, l => l
  | f + 1, l =>
    match findLin tg l with
    | none => l
    | some (pre, _, rest) => pre ++ '\n' :: replaceSpansGo tg f rest

/-- The linear cleaner's span-removal pass. -/
def replaceSpans (tg l : List Char) : List Char :=
  replaceSpansGo tg (l.length + 1) l

/-- `re.sub(r"[ \t]+\n", "\n", ·)`: delete horizontal whitespace that sits
immediately before a newline. -/
def dropBGo : ℕ → List Char → List Char
  | 0, l => l
  | f + 1, [] => []
  | f + 1, c :: r =>
    if isHWS c then
      let rest := (c :: r).dropWhile isHWS
      if rest.head? = some '\n' then dropBGo f rest
      else (c :: r).takeWhile isHWS ++ dropBGo f rest
    else c :: dropBGo f r

/-- Horizontal-whitespace-before-newline removal. -/
def dropB (l : List Char) : List Char := dropBGo (l.length + 1) l

/-- `re.sub(r"\n[ \t]+", "\n", ·)`: delete horizontal whitespace that sits
immediately after a newline. -/
def dropAGo : ℕ → List Char → List Char
  | 0, l => l
  | f + 1, [] => []
  | f + 1, c :: r =>
    if c = '\n' then '\n' :: dropAGo f (r.dropWhile isHWS)
    else c :: dropAGo f r

/-- Horizontal-whitespace-after-newline removal. -/
def dropA (l : List Char) : List Char := dropAGo (l.length + 1) l

/-- `re.sub(r"\n{3,}", "\n\n", ·)`: collapse every run of three or more
newlines to exactly two. -/
def c3Go : ℕ → List Char → List Char
  | 0, l => l
  | f + 1, [] => []
  | f + 1, c :: r =>
    if c = '\n' then
      let run := r.takeWhile (· = '\n')
      List.replicate (min (run.length + 1) 2) '\n' ++ c3Go f (r.dropWhile (· = '\n'))
    else c :: c3Go f r

/-- Newline-run collapse. -/
def c3 (l : List Char) : List Char := c3Go (l.length + 1) l

/-- `clean_thought_tags` (regex variant): remove matches, collapse
whitespace, strip. -/
def clean_thought_tags (tg l : List Char) : List Char :=
  stripWS (c3 (dropA (dropB (subTags tg l))))

/-- `clean_thought_tags_linear`: when there is no linear match only the
newline collapse and strip run; otherwise the span replacement is followed
by the same whitespace passes. -/
def clean_thought_tags_linear (tg l : List Char) : List Char :=
  match findLin tg l with
  | none => stripWS (c3 l)
  | some _ => stripWS (c3 (dropA (dropB (replaceSpans tg l))))

/-! ### Bracket-sequence tools for the cleaner proofs -/

/-- A square bracket. -/
def isBr (c : Char) : Bool := c = '[' || c = ']'

/-- The bracket subsequence of a string. -/
def filterBr (l : List Char) : List Char := l.filter isBr

/-- Running bracket depth after a string, starting from `d`. -/
def runD : List Char → ℤ → ℤ
  | [], d => d
  | c :: r, d =>
    if c = '[' then runD r (d + 1)
    else if c = ']' then runD r (d - 1)
    else runD r d

/-- `true` when, scanning from depth `d`, the depth never returns to zero
(the abstract content of `scanSplit · d = none`). -/
def noCloseZ : List Char → ℤ → Bool
  | [], _ => true
  | c :: r, d =>
    if c = '[' then noCloseZ r (d + 1)
    else if c = ']' then (if d = 1 then false else noCloseZ r (d - 1))
    else noCloseZ r d

/-- `Er v v'`: `v'` is `v` with some depth-neutral factors erased (the
bracket shadow of replacing balanced tag spans by newlines). -/
inductive Er : List Char → List Char → Prop
  | nil : Er [] []
  | cons (c : Char) {v v' : List Char} : Er v v' → Er (c :: v) (c :: v')
  | skip {w v v' : List Char} : runD w 0 = 0 → Er v v' → Er (w ++ v) v'

/-- Every decomposition of `l` around the marker satisfies `P` on the
suffix after the marker. -/
def MarkerInv (tg : List Char) (P : List Char → Prop) (l : List Char) : Prop :=
  ∀ a b, l = a ++ marker tg ++ b → P b

/-- Suffix property for the regex cleaner: no `]` ever follows a marker. -/
def noRBAfter (b : List Char) : Prop := ']' ∉ b

/-- Suffix property for the linear cleaner: every marker is unclosed. -/
def neverCloses (b : List Char) : Prop := noCloseZ b 1 = true

/-- No horizontal whitespace immediately before a newline (the normal form
established by the `[ \t]+\n → \n` pass). -/
def noHB (l : List Char) : Prop := l.Chain' fun a b => ¬(isHWS a = true ∧ b = '\n')

/-- No horizontal whitespace immediately after a newline. -/
def noHA (l : List Char) : Prop := l.Chain' fun a b => ¬(a = '\n' ∧ isHWS b = true)

/-- No run of three or more newlines. -/
def noTriple (l : List Char) : Prop := ¬ ['\n', '\n', '\n'] <:+: l

/-- Both ends free of whitespace (`str.strip` normal form). -/
def strippedP (l : List Char) : Prop :=
  (∀ c ∈ l.head?, isPyWS c = false) ∧ (∀ c ∈ l.getLast?, isPyWS c = false)

/-! ### IEEE-754 binary32 narrowing (`_vector_to_blob`'s `np.float32`)

`toF32` is the exact value of converting a real (here rational) number to
single precision with the default round-to-nearest-ties-to-even, for
results in the finite range (overflow to infinity is outside the modelled
domain: stored scores and unit-vector components are tiny). -/

/-- Fuel-driven `⌊log₂ n⌋` (0 for `n = 0`). -/
def log2go : ℕ → ℕ → ℕ
  | 0, _ => 0
  | f + 1, n => if n < 2 then 0 else log2go f (n / 2) + 1

/-- `⌊log₂ n⌋` for `n ≥ 1`. -/
def natLog2 (n : ℕ) : ℕ := log2go n n

/-- `⌈log₂ n⌉` for `n ≥ 1`. -/
def natClog2 (n : ℕ) : ℕ := if n ≤ 1 then 0 else natLog2 (n - 1) + 1

/-- `⌊log₂ q⌋` for positive rationals. -/
def qFloorLog2 (q : ℚ) : ℤ :=
  if 1 ≤ q then (natLog2 ⌊q⌋.toNat : ℤ) else -(natClog2 ⌈1 / q⌉.toNat : ℤ)

/-- `x · 2^k` with integer `k`. -/
def qScale (x : ℚ) (k : ℤ) : ℚ :=
  if 0 ≤ k then x * ((2 ^ k.toNat : ℕ) : ℚ) else x / ((2 ^ (-k).toNat : ℕ) : ℚ)

/-- Round to the nearest integer, ties to even. -/
def rhe (x : ℚ) : ℤ :=
  let n := ⌊x⌋
  if x - n < 1 / 2 then n
  else if 1 / 2 < x - n then n + 1
  else if Even n then n else n + 1

/-- The binary32 value nearest to `q` (ties to even; subnormals rounded on
the `2 ^ (-149)` grid; overflow not modelled). -/
def toF32 (q : ℚ) : ℚ :=
  if q = 0 then 0
  else
    let a := |q|
    let sgn : ℚ := if q < 0 then -1 else 1
    let e := max (qFloorLog2 a) (-126)
    sgn * qScale ((rhe (qScale a (23 - e)) : ℤ) : ℚ) (e - 23)

/-- `_vector_to_blob ∘ _blob_to_vector`: the float32 values a stored
embedding round-trips through. -/
def vecToBlob (v : List ℚ) : List ℚ := v.map toF32

/-! ### The TMS data model (`thought_wrapper/tms/models.py`) -/

/-- The canonical thought record (`models.Thought`).  `payload_json` is
persisted by the store but never read back, so it is not modelled. -/
structure Thought where
  id : String
  timestamp_utc : ℚ
  session_id : String
  category : String
  confidence : ℚ
  tags : List String
  raw_text : String
  cleaned_text : String
  embedding_vector : List ℚ
  embedding_dim : ℕ
deriving DecidableEq

/-- `models.ThoughtFilters`. -/
structure ThoughtFilters where
  session_id : Option String := none
  category : Option String := none
  min_confidence : Option ℚ := none
  start_time_utc : Option ℚ := none
  end_time_utc : Option ℚ := none
  tags_any : Option (List String) := none
deriving DecidableEq

/-- `models.ScoredThought`. -/
structure ScoredThought where
  thought : Thought
  semantic_score : ℚ
  recency_score : ℚ
  score : ℚ
deriving DecidableEq

/-- A `sessions` table row (`created_at_utc` and `metadata_json` are never
read by the modelled operations). -/
structure SessionRow where
  session_id : String
  parent_session_id : Option String
deriving DecidableEq

/-- A `thought_graph_nodes` row (metadata omitted as above). -/
structure NodeRow where
  thought_id : String
  session_id : String
  timestamp_utc : ℚ
deriving DecidableEq

/-- A `thought_graph_edges` row (`edge_id`, `created_at_utc` and metadata
are never read back by the modelled operations). -/
structure EdgeRow where
  source_id : String
  target_id : String
  relation : String
  weight : ℚ
deriving DecidableEq

/-- The `_NumpyVectorBackend` contents: aligned id and row lists (the
growable capacity of the source is invisible to behaviour, which only ever
reads rows `< size`). -/
structure VIndex where
  ids : List String
  vecs : List (List ℚ)
deriving DecidableEq

/-- The whole persistent state: SQLite tables plus the in-memory vector
index.  The graph shares the store's connection and lock, so its tables
live in the same state.  The in-memory graph projection (`_graph_backend`)
is never consulted by any modelled query (queries re-read SQL) and is
omitted. -/
structure StoreState where
  embedding_dim : ℕ
  sessions : List SessionRow
  thoughts : List Thought
  index : VIndex
  nodes : List NodeRow
  edges : List EdgeRow
deriving DecidableEq

/-- The empty freshly-initialised store. -/
def initState (dim : ℕ) : StoreState := ⟨dim, [], [], ⟨[], []⟩, [], []⟩

/-- Pydantic re-validation on `_row_to_thought`: `str_strip_whitespace`
strips every string field (including tag elements).  Rows written by the
modelled operations always pass the range/length checks, which are
therefore not re-modelled here. -/
def rowToThought (t : Thought) : Thought :=
  { t with id := pyStrip t.id, session_id := pyStrip t.session_id,
           category := pyStrip t.category, raw_text := pyStrip t.raw_text,
           cleaned_text := pyStrip t.cleaned_text, tags := t.tags.map pyStrip }

/-- The validation `models.Thought` performs at construction: a `Thought`
value that pydantic has accepted satisfies this. -/
def ValidThought (t : Thought) : Prop :=
  pyStrip t.id = t.id ∧ pyStrip t.session_id = t.session_id ∧ t.session_id ≠ "" ∧
  pyStrip t.category = t.category ∧ t.category ≠ "" ∧
  0 ≤ t.confidence ∧ t.confidence ≤ 1 ∧
  t.tags.map pyStrip = t.tags ∧
  pyStrip t.raw_text = t.raw_text ∧ t.raw_text ≠ "" ∧
  pyStrip t.cleaned_text = t.cleaned_text ∧ t.cleaned_text ≠ "" ∧
  t.embedding_vector ≠ [] ∧ t.embedding_dim = t.embedding_vector.length

instance (t : Thought) : Decidable (ValidThought t) := by
  unfold ValidThought; infer_instance

/-! ### Generic list helpers shared by the store model -/

/-- Stable descending insertion: `x` goes after every strictly greater
element and before equal ones met later, which is exactly the order
`list.sort(key=…, reverse=True)` (a stable sort) produces when elements
are inserted in input order. -/
def insertDesc (key : α → ℚ) (x : α) : List α → List α
  | [] => [x]
  | y :: ys => if key x < key y then y :: insertDesc key x ys else x :: y :: ys

/-- Stable sort, descending by `key` (Python's `sorted(…, reverse=True)`). -/
def sortD (key : α → ℚ) : List α → List α
  | [] => []
  | x :: l => insertDesc key x (sortD key l)

/-- Python slice `l[:n]` (a negative `n` drops `|n|` items from the end). -/
def pyTake (n : ℤ) (l : List α) : List α :=
  if 0 ≤ n then l.take n.toNat else l.take (l.length - (-n).toNat)

/-- Replace-in-place upsert keyed by `keyOf` (SQL `ON CONFLICT … DO
UPDATE` keeps the row's position). -/
def upsertBy (keyOf : α → String) (rows : List α) (x : α) : List α :=
  if rows.any (fun r => keyOf r = keyOf x) then
    rows.map fun r => if keyOf r = keyOf x then x else r
  else rows ++ [x]

/-- `INSERT … ON CONFLICT DO NOTHING` for a session id. -/
def sessionIfMissing (ss : List SessionRow) (sid : String) : List SessionRow :=
  if ss.any (fun r => r.session_id = sid) then ss else ss ++ [⟨sid, none⟩]

/-! ### The vector index (`_NumpyVectorBackend`)

`nrm` stands for `_normalize` (division by the L2 norm); every theorem is
universally quantified over it.  The source guards all dimension checks on
the normalised vector's length, which `_normalize` preserves. -/

/-- Inner product. -/
def dotQ (u v : List ℚ) : ℚ := (List.zipWith (· * ·) u v).sum

/-- `upsert`: in-place update for a known id, append for a fresh one. -/
def VIndex.upsert (nrm : List ℚ → List ℚ) (dim : ℕ) (ix : VIndex)
    (tid : String) (v : List ℚ) : Option String × VIndex :=
  let w := nrm v
  if w.length ≠ dim then (some "upsert dimension mismatch", ix)
  else
    match ix.ids.findIdx? (fun s => s = tid) with
    | some i => (none, ⟨ix.ids, ix.vecs.set i w⟩)
    | none => (none, ⟨ix.ids ++ [tid], ix.vecs ++ [w]⟩)

/-- `search`: inner products against the normalised query, top `k` by
score descending.  `numpy` leaves the order of tied scores unspecified
(argpartition/argsort are unstable); the model fixes row order, which no
claim depends on. -/
def VIndex.search (nrm : List ℚ → List ℚ) (dim : ℕ) (ix : VIndex)
    (q : List ℚ) (topk : ℤ) : Option String × List (String × ℚ) :=
  if ix.ids.length = 0 then (none, [])
  else
    let qn := nrm q
    if qn.length ≠ dim then (some "query dimension mismatch", [])
    else
      let pairs := ix.ids.zip (ix.vecs.map fun row => dotQ row qn)
      let k := (max 1 (min topk (ix.ids.length : ℤ))).toNat
      (none, (sortD (fun p => p.2) pairs).take k)

/-! ### The thought store (`thought_wrapper/tms/store.py`) -/

/-- The SQL-side filter conjunction of `_query_rows_locked` (everything
except `tags_any`, which Python applies after the query). -/
def sqlRowMatch (fl : ThoughtFilters) (t : Thought) : Bool :=
  (match fl.session_id with | none => true | some s => t.session_id = s) &&
  (match fl.category with | none => true | some c => t.category = c) &&
  (match fl.min_confidence with | none => true | some m => decide (m ≤ t.confidence)) &&
  (match fl.start_time_utc with | none => true | some a => decide (a ≤ t.timestamp_utc)) &&
  (match fl.end_time_utc with | none => true | some b => decide (t.timestamp_utc ≤ b))

/-- The `tags_any` set-intersection check; an empty or absent list is
falsy in Python and disables the filter. -/
def tagsAnyMatch (fl : ThoughtFilters) (t : Thought) : Bool :=
  match fl.tags_any with
  | none => true
  | some ts => if ts = [] then true else t.tags.any fun x => ts.contains x

/-- `_row_matches_filters` (the semantic-search path checks the tag filter
together with the rest). -/
def rowMatchesFilters (fl : ThoughtFilters) (t : Thought) : Bool :=
  sqlRowMatch fl t && tagsAnyMatch fl t

/-- `get_thought_by_id`. -/
def get_thought_by_id (s : StoreState) (tid : String) : Option Thought :=
  (s.thoughts.find? fun t => t.id = tid).map rowToThought

/-- `get_session_parent` (`None` for a missing row or a null parent). -/
def get_session_parent (s : StoreState) (sid : String) : Option String :=
  match s.sessions.find? (fun r => r.session_id = sid) with
  | none => none
  | some r => r.parent_session_id

/-- The lineage walker's loop; an id is "truthy" when non-empty. -/
def lineageGo (s : StoreState) : ℕ → Option String → List String → List String
  | 0, _, _ => []
  | f + 1, cur, visited =>
    match cur with
    | none => []
    | some c =>
      if c = "" then []
      else if visited.contains c then []
      else c :: lineageGo s f (get_session_parent s c) (c :: visited)

/-- `get_session_lineage`: the ancestor chain, cycle-guarded by the
visited set.  The fuel bounds the walk by the session count plus two,
which the loop can never exceed (each continuing step visits a fresh id,
and only table ids have parents). -/
def get_session_lineage (s : StoreState) (sid : String) (includeSelf : Bool) : List String :=
  lineageGo s (s.sessions.length + 2)
    (if includeSelf then some sid else get_session_parent s sid) []

/-- `create_session`: validation, lazy parent insertion, upsert. -/
def create_session (s : StoreState) (sid : String) (parent : Option String) :
    Option String × StoreState :=
  if pyStrip sid = "" then (some "session_id must be non-empty", s)
  else
    let s1 := match parent with
      | some p =>
        if pyStrip p ≠ "" then { s with sessions := sessionIfMissing s.sessions p } else s
      | none => s
    (none, { s1 with sessions := upsertBy (fun r => r.session_id) s1.sessions ⟨sid, parent⟩ })

/-- The rows inserted by one `batch_store` transaction; `io k = true`
makes the k-th row insert raise, aborting (and rolling back) the
transaction. -/
def txGo (io : ℕ → Bool) : List Thought → ℕ → StoreState → Option StoreState
  | [], _, s => some s
  | t :: r, k, s =>
    if io k then none
    else
      txGo io r (k + 1)
        { s with sessions := sessionIfMissing s.sessions t.session_id,
                 thoughts := upsertBy (fun x => x.id) s.thoughts
                   { t with embedding_vector := vecToBlob t.embedding_vector } }

/-- The net effect of a committed `batch_store` transaction on the
tables (what `txGo` produces whenever it succeeds). -/
def txApply (ts : List Thought) (s : StoreState) : StoreState :=
  ts.foldl
    (fun st t =>
      { st with sessions := sessionIfMissing st.sessions t.session_id,
                thoughts := upsertBy (fun x => x.id) st.thoughts
                  { t with embedding_vector := vecToBlob t.embedding_vector } })
    s

/-- Post-commit index maintenance of `batch_store` on the numpy backend:
per-thought upsert; an upsert failure propagates with the commit already
visible (the raw, not yet float32-narrowed, vector is indexed, as in the
source). -/
def idxGo (nrm : List ℚ → List ℚ) (dim : ℕ) : List Thought → VIndex → Option String × VIndex
  | [], ix => (none, ix)
  | t :: r, ix =>
    match VIndex.upsert nrm dim ix t.id t.embedding_vector with
    | (some e, ix') => (some e, ix')
    | (none, ix') => idxGo nrm dim r ix'

/-- `batch_store`: validate every dimension, insert all rows in one
transaction (rollback on failure), then update the vector index. -/
def batch_store (nrm : List ℚ → List ℚ) (io : ℕ → Bool) (s : StoreState)
    (ts : List Thought) : Option String × StoreState :=
  if ts = [] then (none, s)
  else if ts.any (fun t => t.embedding_dim ≠ s.embedding_dim) then
    (some "embedding_dim mismatch", s)
  else
    match txGo io ts 0 s with
    | none => (some "insert failed", s)
    | some s1 =>
      match idxGo nrm s.embedding_dim ts s1.index with
      | (some e, ix) => (some e, { s1 with index := ix })
      | (none, ix) => (none, { s1 with index := ix })

/-- `store`: `batch_store` of a singleton. -/
def store (nrm : List ℚ → List ℚ) (io : ℕ → Bool) (s : StoreState) (t : Thought) :
    Option String × StoreState :=
  batch_store nrm io s [t]

/-- `retrieve`: SQL metadata filters, newest first, `LIMIT max(1, limit)`,
then the post-SQL `tags_any` filter.  Ties in `timestamp_utc` keep table
order (SQLite leaves their order unspecified). -/
def retrieve (s : StoreState) (fl : ThoughtFilters) (limit : ℤ) : List Thought :=
  let rows := (sortD (fun t => t.timestamp_utc) (s.thoughts.filter (sqlRowMatch fl))).take
    (max 1 limit).toNat
  (rows.filter (tagsAnyMatch fl)).map rowToThought

/-- The materialized candidate rows of one `semantic_search` call: the
`WHERE id IN (…)` fetch of the index candidates, metadata-filtered.  Rows
come back in table order (SQLite leaves the order of the `IN` fetch
unspecified). -/
def semanticFiltered (candidates : List (String × ℚ)) (s : StoreState)
    (fl : ThoughtFilters) : List Thought :=
  (s.thoughts.filter fun t => (candidates.map fun p => p.1).contains t.id).filter
    (rowMatchesFilters fl)

/-- The scored candidate list (the source's `scored`, in candidate-row
order, before sorting): hybrid score `α·semantic + (1-α)·recency`.
Candidate ids are distinct, so the first-match `lookup` agrees with the
Python dict. -/
def semanticScored (candidates : List (String × ℚ)) (s : StoreState)
    (fl : ThoughtFilters) (alpha : ℚ) (now : ℚ) : List ScoredThought :=
  let filtered := semanticFiltered candidates s fl
  let maxAge : ℚ := (filtered.map fun t => max 0 (now - t.timestamp_utc)).foldl max 1
  filtered.map fun t =>
    let age := max 0 (now - t.timestamp_utc)
    let sem := (candidates.lookup t.id).getD (-1)
    let rcy := 1 - age / maxAge
    ({ thought := rowToThought t, semantic_score := sem, recency_score := rcy,
       score := alpha * sem + (1 - alpha) * rcy } : ScoredThought)

/-- `semantic_search`: candidates from the index, metadata filters, hybrid
scoring, stable descending sort, truncation to `max(1, limit)`.  The
`now` argument stands for `_utc_now()`.  (The source returns the empty
list early when the candidate or filtered row set is empty; the sorted
truncation of an empty scored list is the same value.) -/
def semantic_search (nrm : List ℚ → List ℚ) (s : StoreState) (q : List ℚ)
    (fl : ThoughtFilters) (limit : ℤ) (alpha : ℚ) (maxc : ℤ) (now : ℚ) :
    Option String × List ScoredThought :=
  if ¬(0 ≤ alpha ∧ alpha ≤ 1) then (some "alpha must be in [0.0, 1.0]", [])
  else
    match VIndex.search nrm s.embedding_dim s.index q (max (limit * 10) (min maxc 1000)) with
    | (some e, _) => (some e, [])
    | (none, candidates) =>
      (none, (sortD (fun x => x.score) (semanticScored candidates s fl alpha now)).take
        (max 1 limit).toNat)

/-! ### The thought graph (`thought_wrapper/tms/graph.py`) -/

/-- One transaction of `link_many`: self-edges are skipped, everything
else is inserted or the whole batch rolls back (`io k` fails the k-th
executed insert). -/
def lmGo (io : ℕ → Bool) : List (String × String × String × ℚ) → ℕ → List EdgeRow →
    Option (List EdgeRow)
  | [], _, acc => some acc
  | (src, tgt, rel, w) :: r, k, acc =>
    if src = tgt then lmGo io r k acc
    else if io k then none
    else lmGo io r (k + 1) (acc ++ [⟨src, tgt, rel, w⟩])

/-- `link_many` (edge metadata is opaque and never read back; dropped). -/
def link_many (io : ℕ → Bool) (s : StoreState)
    (es : List (String × String × String × ℚ)) : Option String × StoreState :=
  if es = [] then (none, s)
  else
    match lmGo io es 0 s.edges with
    | none => (some "insert failed", s)
    | some newEdges => (none, { s with edges := newEdges })

/-- `link`: validation, silent self-edge drop, then a one-batch
`link_many`. -/
def link (io : ℕ → Bool) (s : StoreState) (src tgt rel : String) (w : ℚ)
    (bidir : Bool) : Option String × StoreState :=
  if src = "" ∨ tgt = "" then (some "source_id and target_id must be non-empty", s)
  else if src = tgt then (none, s)
  else if w < 0 then (some "weight must be non-negative", s)
  else link_many io s ([(src, tgt, rel, w)] ++ if bidir then [(tgt, src, rel, w)] else [])

/-- The most recent earlier node of the same session (`ORDER BY
timestamp_utc DESC LIMIT 1`; SQLite breaks timestamp ties arbitrarily, the
model keeps the first such row). -/
def temporalPrev (s : StoreState) (t : Thought) : Option NodeRow :=
  (s.nodes.filter fun n =>
      n.session_id = t.session_id && n.thought_id ≠ t.id &&
      decide (n.timestamp_utc ≤ t.timestamp_utc)).foldl
    (fun acc n =>
      match acc with
      | none => some n
      | some a => if a.timestamp_utc < n.timestamp_utc then some n else acc) none

/-- `_link_temporal_successor`. -/
def link_temporal_successor (io : ℕ → Bool) (s : StoreState) (t : Thought) :
    Option String × StoreState :=
  match temporalPrev s t with
  | none => (none, s)
  | some prev => link io s prev.thought_id t.id "temporal-successor" 1 false

/-- The state right after `add_thought`'s node upsert commit (its own
transaction, before any edge is linked). -/
def nodeStep (s : StoreState) (t : Thought) : StoreState :=
  let nodeRow : NodeRow := ⟨t.id, t.session_id, t.timestamp_utc⟩
  { s with nodes := upsertBy (fun n => n.thought_id) s.nodes nodeRow }

/-- The edges one `add_thought` call sets out to create, computed from the
post-node-upsert state `s2`: the temporal-successor edge (when enabled and
a predecessor exists) followed by one semantic-similarity edge per
qualifying non-self neighbor.  The semantic search only reads the
dimension, index and thoughts tables, so it is insensitive to the edges
the call has created so far. -/
def plannedEdges (nrm : List ℚ → List ℚ) (s2 : StoreState) (t : Thought)
    (semanticNeighbors : ℤ) (semanticThreshold : ℚ) (temporalLink : Bool)
    (now : ℚ) : List EdgeRow :=
  (match (if temporalLink then temporalPrev s2 t else none) with
   | some prev => [⟨prev.thought_id, t.id, "temporal-successor", 1⟩]
   | none => []) ++
  (if semanticNeighbors ≤ 0 then []
   else ((semantic_search nrm s2 t.embedding_vector {} (semanticNeighbors + 5) 1 500 now).2.filter
      fun it => it.thought.id ≠ t.id ∧ semanticThreshold ≤ it.semantic_score).map
    fun it => ⟨it.thought.id, t.id, "semantic-similarity", it.semantic_score⟩)

/-- The semantic-similarity linking loop of `add_thought`: each qualifying
neighbor gets its own `link` call (its own transaction); a failure stops
the loop with the earlier links already committed. -/
def semLinkGo (io : ℕ → Bool) (t : Thought) (thr : ℚ) :
    List ScoredThought → StoreState → Option String × StoreState
  | [], s => (none, s)
  | it :: r, s =>
    if it.thought.id = t.id then semLinkGo io t thr r s
    else if it.semantic_score < thr then semLinkGo io t thr r s
    else
      match link io s it.thought.id t.id "semantic-similarity" it.semantic_score false with
      | (some e, s') => (some e, s')
      | (none, s') => semLinkGo io t thr r s'

/-- `add_thought`: optional store-if-missing, node upsert (its own
commit), optional temporal link, then per-neighbor semantic links. -/
def add_thought (nrm : List ℚ → List ℚ) (io : ℕ → Bool) (s : StoreState) (t : Thought)
    (storeIfMissing : Bool) (semanticNeighbors : ℤ) (semanticThreshold : ℚ)
    (temporalLink : Bool) (now : ℚ) : Option String × StoreState :=
  match (if storeIfMissing ∧ get_thought_by_id s t.id = none
         then store nrm io s t else (none, s)) with
  | (some e, s') => (some e, s')
  | (none, s1) =>
    match (if temporalLink then link_temporal_successor io (nodeStep s1 t) t
           else (none, nodeStep s1 t)) with
    | (some e, s') => (some e, s')
    | (none, s3) =>
      if semanticNeighbors ≤ 0 then (none, s3)
      else
        match semantic_search nrm s3 t.embedding_vector {} (semanticNeighbors + 5) 1 500 now with
        | (some e, _) => (some e, s3)
        | (none, nearest) => semLinkGo io t semanticThreshold nearest s3

/-- One step of the `neighbors` BFS: `(queue, seen, out-reversed)`.
`rels = none` or an empty list disables the relation filter (Python
truthiness of the `relations` set). -/
def neighborsGo (s : StoreState) (hops limit : ℤ) (rels : Option (List String)) :
    ℕ → List (String × ℤ) → List String → List String → List String
  | 0, _, _, out => out.reverse
  | f + 1, queue, seen, out =>
    match queue with
    | [] => out.reverse
    | (node, depth) :: qrest =>
      if limit ≤ (out.length : ℤ) then out.reverse
      else if hops ≤ depth then neighborsGo s hops limit rels f qrest seen out
      else
        let cap := (max (max 1 (limit - out.length) * 2) 8).toNat
        let rows := (s.edges.filter fun e => e.source_id = node).take cap
        let upd := rows.foldl
          (fun (acc : List String × List String × List (String × ℤ)) e =>
            if (match rels with
                | some rs => decide (rs ≠ []) && !rs.contains e.relation
                | none => false) then acc
            else if acc.1.contains e.target_id then acc
            else (e.target_id :: acc.1, e.target_id :: acc.2.1,
                  acc.2.2 ++ [(e.target_id, depth + 1)]))
          (seen, out, [])
        neighborsGo s hops limit rels f (qrest ++ upd.2.2) upd.1 upd.2.1

/-- `neighbors`: bounded BFS in edge direction.  Every pop either stops or
was enqueued for a newly-seen id, so the fuel (edge count + 2) is never
exhausted. -/
def neighbors (s : StoreState) (tid : String) (hops : ℤ) (rels : Option (List String))
    (limit : ℤ) : List String :=
  if hops ≤ 0 then []
  else neighborsGo s hops limit rels (s.edges.length + 2) [(tid, 0)] [tid] []

/-- The lineage-filtered semantic seeds of `recall_from_prior_sessions`. -/
def recallSemL (nrm : List ℚ → List ℚ) (s : StoreState) (q : List ℚ)
    (lineage : List String) (limit : ℤ) (alpha : ℚ) (now : ℚ) : List ScoredThought :=
  (semantic_search nrm s q {} (max 30 (limit * 4)) alpha 500 now).2.filter
    fun it => lineage.contains it.thought.session_id

/-- One neighbor's merge step of the graph expansion: skip ids already
merged, drop unknown or out-of-lineage thoughts, otherwise attach the
seed's 0.85-decayed scores (the rational `17/20`; Python's float literal
rounding is out of scope). -/
def expandStep (s : StoreState) (lineage : List String) (it : ScoredThought)
    (exp2 : List (String × ScoredThought)) (nid : String) :
    List (String × ScoredThought) :=
  if exp2.any (fun p => p.1 = nid) then exp2
  else
    match get_thought_by_id s nid with
    | none => exp2
    | some th =>
      if lineage.contains th.session_id then
        let dec : ScoredThought :=
          ⟨th, it.semantic_score * (17 / 20), it.recency_score, it.score * (17 / 20)⟩
        exp2 ++ [(nid, dec)]
      else exp2

/-- The merged id-keyed map of `recall_from_prior_sessions`: the semantic
seeds first, then each of the top-5 seeds' bounded neighbors.  Merging
keeps the first writer per id. -/
def recallExpanded (nrm : List ℚ → List ℚ) (s : StoreState) (q : List ℚ)
    (lineage : List String) (limit : ℤ) (alpha : ℚ) (hops : ℤ) (now : ℚ) :
    List (String × ScoredThought) :=
  let semL := recallSemL nrm s q lineage limit alpha now
  (semL.take 5).foldl
    (fun exp it =>
      (neighbors s it.thought.id hops none 25).foldl (expandStep s lineage it) exp)
    (semL.map fun it => (it.thought.id, it))

/-- `recall_from_prior_sessions`: lineage-scoped recall with optional
graph expansion, sorted by score descending, truncated to `limit`. -/
def recall_from_prior_sessions (nrm : List ℚ → List ℚ) (s : StoreState) (q : List ℚ)
    (current : String) (graph : Bool) (limit : ℤ) (alpha : ℚ) (hops : ℤ) (now : ℚ) :
    Option String × List ScoredThought :=
  let lineage := get_session_lineage s current false
  if lineage = [] then (none, [])
  else
    match semantic_search nrm s q {} (max 30 (limit * 4)) alpha 500 now with
    | (some e, _) => (some e, [])
    | (none, _) =>
      let semL := recallSemL nrm s q lineage limit alpha now
      if ¬graph ∨ hops ≤ 0 then (none, pyTake limit semL)
      else
        (none, pyTake limit (sortD (fun x => x.score)
          ((recallExpanded nrm s q lineage limit alpha hops now).map fun p => p.2)))

/-! ### The reflection engine (`thought_wrapper/tms/reflection.py`)

Ambient effects become parameters: `freshId i` models the `uuid4()` drawn
for the i-th parsed tag, `pyFloat` models Python's `float(str)` parse
(`none` for a `ValueError`), `fmtConf` models the `f"{conf:.2f}"`
rendering inside the prompt (only ever fed to the LLM callable), and
`embed` is the engine's embedder. -/

/-- A parsed `<thought …>…</thought>` unit. -/
structure ParsedStructuredThought where
  thought_id : String
  category : String
  confidence : ℚ
  content : String
deriving DecidableEq

/-- Python's `\w` (ASCII range). -/
def isWordChar (c : Char) : Bool :=
  ('a' ≤ c && c ≤ 'z') || ('A' ≤ c && c ≤ 'Z') || ('0' ≤ c && c ≤ '9') || c = '_'

/-- Case-insensitive split at the first occurrence of the (lowercase)
pattern: `some (before, after)`. -/
def splitCI (pat : List Char) : List Char → Option (List Char × List Char)
  | [] => none
  | c :: r =>
    if ((c :: r).take pat.length).map Char.toLower = pat then
      some ([], (c :: r).drop pat.length)
    else (splitCI pat r).map fun p => (c :: p.1, p.2)

/-- First match of `<thought\b([^>]*)>(.*?)</thought>` (case-insensitive,
DOTALL): `some (attrs, content, rest)`.  When a candidate start has no
later `>` or no later `</thought>`, no later start can complete either,
so the scan stops. -/
def findThoughtTag : List Char → Option (List Char × List Char × List Char)
  | [] => none
  | c :: r =>
    if ((c :: r).take 8).map Char.toLower = "<thought".data &&
       (match ((c :: r).drop 8).head? with
        | some d => !isWordChar d
        | none => true) then
      let r1 := (c :: r).drop 8
      let attrs := r1.takeWhile (fun d => d ≠ '>')
      match r1.dropWhile (fun d => d ≠ '>') with
      | '>' :: r2 =>
        match splitCI "</thought>".data r2 with
        | some (content, rest) => some (attrs, content, rest)
        | none => none
      | _ => none
    else findThoughtTag r

/-- All `(attrs, content)` pairs of the structured-thought regex, in input
order. -/
def thoughtTagsGo : ℕ → List Char → List (List Char × List Char)
  | 0, _ => []
  | f + 1, l =>
    match findThoughtTag l with
    | none => []
    | some (attrs, content, rest) => (attrs, content) :: thoughtTagsGo f rest

/-- `_THOUGHT_PATTERN.finditer`. -/
def thoughtTags (l : List Char) : List (List Char × List Char) :=
  thoughtTagsGo (l.length + 1) l

/-- First match of the attribute regex `(\w+)\s*=\s*"([^"]*?)"`:
`some ((name, value), rest)`.  A failed attempt resumes one character
further on, as the regex engine does; the greedy `\w+` never needs to
backtrack because a shortened word run is followed by a word character,
never by `=` or whitespace. -/
def findAttr : List Char → Option ((List Char × List Char) × List Char)
  | [] => none
  | c :: r =>
    if isWordChar c then
      let name := (c :: r).takeWhile isWordChar
      let r2 := ((c :: r).dropWhile isWordChar).dropWhile isPyWS
      match r2 with
      | '=' :: r3 =>
        match r3.dropWhile isPyWS with
        | '"' :: r5 =>
          let v := r5.takeWhile (fun d => d ≠ '"')
          match r5.dropWhile (fun d => d ≠ '"') with
          | '"' :: r6 => some ((name, v), r6)
          | _ => findAttr r
        | _ => findAttr r
      | _ => findAttr r
    else findAttr r

/-- `_ATTR_PATTERN.findall`. -/
def attrPairsGo : ℕ → List Char → List (String × String)
  | 0, _ => []
  | f + 1, l =>
    match findAttr l with
    | none => []
    | some ((name, v), rest) => (String.mk name, String.mk v) :: attrPairsGo f rest

/-- All attribute pairs of one tag's attribute text. -/
def attrPairs (l : List Char) : List (String × String) :=
  attrPairsGo (l.length + 1) l

/-- ASCII lowercase of a string (`str.lower`). -/
def lowerStr (s : String) : String := String.mk (s.data.map Char.toLower)

/-- Python dict comprehension semantics: the last pair for a key wins misplaced
nothing; lookup of the last occurrence. -/
def lookupLast (k : String) (l : List (String × String)) : Option String :=
  (l.reverse.lookup k)

/-- `parse_structured_thoughts`: empty-content tags are skipped, the id
defaults to a fresh uuid, the category falls back on blank, confidence is
parsed leniently and clamped into `[0, 1]`. -/
def parse_structured_thoughts (freshId : ℕ → String) (pyFloat : String → Option ℚ)
    (text : List Char) (defaultCategory : String) (defaultConfidence : ℚ) :
    List ParsedStructuredThought :=
  (thoughtTags text).enum.filterMap fun p =>
    let content := stripWS p.2.2
    if content = [] then none
    else
      let attrs := (attrPairs p.2.1).map fun q => (lowerStr q.1, q.2)
      let tid := (lookupLast "id" attrs).getD (freshId p.1)
      let cat0 := pyStrip ((lookupLast "category" attrs).getD defaultCategory)
      let conf0 := match lookupLast "confidence" attrs with
        | none => defaultConfidence
        | some v => (pyFloat v).getD defaultConfidence
      some { thought_id := tid,
             category := if cat0 = "" then defaultCategory else cat0,
             confidence := max 0 (min 1 conf0),
             content := String.mk content }

/-- `models.ReflectionResult` (latency is wall-clock and modelled as 0). -/
structure ReflectionResult where
  reflection_text : String
  prompt_used : String
  recalled_thoughts : List Thought
  stored_reflections : List Thought
  latency_ms : ℚ
deriving DecidableEq

/-- The four reflection modes and their prompt templates
(`prompt_helpers.REFLECTION_TEMPLATES`). -/
def REFLECTION_TEMPLATES : List (String × String) :=
  [("reasoning",
    "Review recalled thoughts and produce 1-3 high-signal reasoning reflections. Use <thought ...> tags with category='reflection'."),
   ("summarization",
    "Summarize recalled thoughts into actionable memory nuggets. Use <thought ...> tags with category='summary'."),
   ("contradiction_detection",
    "Detect contradictions or tension between recalled thoughts. Emit corrected reflections with category='reflection'."),
   ("planning",
    "Convert recalled thoughts into next-step plans. Use <thought ...> tags with category='plan'.")]

/-- `build_reflection_prompt` for a supported mode. -/
def build_reflection_prompt (mode query context : String) : String :=
  ((REFLECTION_TEMPLATES.lookup mode).getD "") ++ "\n\n" ++ "Query:\n" ++ query ++
    "\n\n" ++ "Recalled Thoughts:\n" ++ context ++ "\n\n" ++
    "Return only <thought ...> tags."

/-- `_default_reflection_text`: the deterministic offline synthesizer used
when no LLM callable is given. -/
def defaultReflectionText (freshId : ℕ → String) (fmtConf : ℚ → String)
    (mode query : String) (recalled : List Thought) : String :=
  let first := match recalled.head? with
    | some t => t.cleaned_text
    | none => "No prior memory for query: " ++ query
  let second := match recalled with
    | _ :: t2 :: _ => t2.cleaned_text
    | [t1] => t1.cleaned_text
    | [] => "Need additional evidence before confidence increases."
  let pair := fun (c1 c2 : String) (b1 b2 : String) (v1 v2 : String) =>
    "<thought id=\"" ++ freshId 0 ++ "\" category=\"" ++ c1 ++ "\" confidence=\"" ++ v1 ++
      "\">" ++ b1 ++ first ++ "</thought>\n" ++
    "<thought id=\"" ++ freshId 1 ++ "\" category=\"" ++ c2 ++ "\" confidence=\"" ++ v2 ++
      "\">" ++ b2 ++ second ++ "</thought>"
  let _ := fmtConf
  if mode = "summarization" then
    pair "summary" "summary" "Summary memory: " "Actionable summary: " "0.93" "0.88"
  else if mode = "contradiction_detection" then
    pair "reflection" "reflection" "Potential contradiction check: " "Reconciliation candidate: " "0.91" "0.86"
  else if mode = "planning" then
    pair "plan" "plan" "Next step: operationalize " "Validation step: verify against " "0.92" "0.87"
  else
    pair "reflection" "reflection" "Reasoning check: " "Risk note: " "0.94" "0.89"

/-- The merge of recalled hits by thought id: keys keep first-seen order,
values keep the last assignment (`merged[hit.thought.id] = hit.thought`). -/
def mergeById : List ScoredThought → List (String × Thought) → List (String × Thought)
  | [], acc => acc
  | h :: r, acc =>
    mergeById r
      (if acc.any (fun p => p.1 = h.thought.id) then
        acc.map fun p => if p.1 = h.thought.id then (p.1, h.thought) else p
      else acc ++ [(h.thought.id, h.thought)])

/-- The thought a stored reflection becomes; pydantic strips the string
fields at construction. -/
def mkReflectThought (embed : String → List ℚ) (mode sessionId : String) (now : ℚ)
    (item : ParsedStructuredThought) : Thought :=
  let vector := embed item.content
  { id := pyStrip item.thought_id, timestamp_utc := now,
    session_id := pyStrip sessionId, category := pyStrip item.category,
    confidence := item.confidence, tags := ["reflection", mode],
    raw_text := item.content, cleaned_text := item.content,
    embedding_vector := vector, embedding_dim := vector.length }

/-- The graph block of `reflect`: insert each stored reflection as a node
(with temporal link, no semantic linking), collecting the
explicit-reference edges to batch afterwards. -/
def reflectGraphGo (nrm : List ℚ → List ℚ) (io : ℕ → Bool) (mode : String)
    (recalled : List Thought) (now : ℚ) :
    List Thought → StoreState → List (String × String × String × ℚ) →
    Option String × StoreState × List (String × String × String × ℚ)
  | [], s, pend => (none, s, pend)
  | t :: r, s, pend =>
    match add_thought nrm io s t false 0 (4 / 5) true now with
    | (some e, s') => (some e, s', pend)
    | (none, s') =>
      let pend' := pend ++ (recalled.take 1).map fun rt =>
        (rt.id, t.id, "explicit-reference", (1 : ℚ))
      reflectGraphGo nrm io mode recalled now r s' pend'

/-- `ReflectionEngine.reflect`: one recall → prompt → LLM → parse →
persist → link cycle.  The triple returned is (raised error, state after
the call, result when it returns normally). -/
def reflect (nrm : List ℚ → List ℚ) (io : ℕ → Bool) (freshId : ℕ → String)
    (pyFloat : String → Option ℚ) (fmtConf : ℚ → String) (embed : String → List ℚ)
    (s : StoreState) (hasGraph : Bool) (query currentSessionId mode : String)
    (topK : ℤ) (reflectionSessionId : Option String) (llm : Option (String → String))
    (now : ℚ) : Option String × StoreState × Option ReflectionResult :=
  if (REFLECTION_TEMPLATES.lookup mode).isNone then
    (some "Unsupported reflection mode", s, none)
  else
    let qv := embed query
    match semantic_search nrm s qv { session_id := some currentSessionId }
        topK (19 / 20) 500 now with
    | (some e, _) => (some e, s, none)
    | (none, currentHits) =>
      match recall_from_prior_sessions nrm s qv currentSessionId hasGraph
          topK (19 / 20) 1 now with
      | (some e, _) => (some e, s, none)
      | (none, priorHits) =>
        let recalled := (mergeById (currentHits ++ priorHits) []).map (fun p => p.2)
          |>.take (max 1 topK).toNat
        let context := if recalled = [] then "- (none)"
          else String.intercalate "\n" (recalled.map fun t =>
            "- (" ++ t.session_id ++ "/" ++ t.category ++ "/" ++ fmtConf t.confidence ++
              ") " ++ t.cleaned_text)
        let prompt := build_reflection_prompt mode query context
        let reflectionText := match llm with
          | none => defaultReflectionText freshId fmtConf mode query recalled
          | some f => f prompt
        let parsed := parse_structured_thoughts freshId pyFloat reflectionText.data
          (if mode = "planning" then "plan" else "reflection") (9 / 10)
        let sessionId := match reflectionSessionId with
          | some rs => if rs = "" then currentSessionId else rs
          | none => currentSessionId
        let csRes := match reflectionSessionId with
          | some rs =>
            if rs ≠ "" ∧ rs ≠ currentSessionId then
              create_session s rs (some currentSessionId)
            else create_session s currentSessionId none
          | none => create_session s currentSessionId none
        match csRes with
        | (some e, s') => (some e, s', none)
        | (none, s1) =>
          let toStore := parsed.map (mkReflectThought embed mode sessionId now)
          -- pydantic re-validates each reflection thought; with the session id
          -- already vetted by create_session and contents stripped non-empty,
          -- only an empty embedding can still be rejected.
          if toStore.any (fun t => t.embedding_vector = []) then
            (some "embedding_vector must be non-empty", s1, none)
          else
            match (if toStore ≠ [] then batch_store nrm io s1 toStore
                   else (none, s1)) with
            | (some e, s') => (some e, s', none)
            | (none, s2) =>
              let stored := toStore
              let graphRes := if hasGraph then
                  match reflectGraphGo nrm io mode recalled now stored s2 [] with
                  | (some e, s', _) => (some e, s')
                  | (none, s', pend) =>
                    if pend ≠ [] then link_many io s' pend else (none, s')
                else (none, s2)
              match graphRes with
              | (some e, s') => (some e, s', none)
              | (none, s3) =>
                let res : ReflectionResult :=
                  ⟨reflectionText, prompt, recalled, stored, 0⟩
                (none, s3, some res)

/-! ### Reachability (for the edge invariants) -/

/-- The store/graph operations an external caller can run (the reflection
cycle factors through `batch_store`, `add_thought` and `link_many`). -/
inductive GOp where
  | createSession (sid : String) (parent : Option String)
  | batchStore (nrm : List ℚ → List ℚ) (io : ℕ → Bool) (ts : List Thought)
  | link (io : ℕ → Bool) (src tgt rel : String) (w : ℚ) (bidir : Bool)
  | linkMany (io : ℕ → Bool) (es : List (String × String × String × ℚ))
  | addThought (nrm : List ℚ → List ℚ) (io : ℕ → Bool) (t : Thought) (sim : Bool)
      (sn : ℤ) (thr : ℚ) (tl : Bool) (now : ℚ)

/-- The state after an operation (errors surface to the caller; the state
they leave behind is still the real one). -/
def stepOp (s : StoreState) : GOp → StoreState
  | .createSession sid parent => (create_session s sid parent).2
  | .batchStore nrm io ts => (batch_store nrm io s ts).2
  | .link io src tgt rel w bidir => (link io s src tgt rel w bidir).2
  | .linkMany io es => (link_many io s es).2
  | .addThought nrm io t sim sn thr tl now =>
      (add_thought nrm io s t sim sn thr tl now).2

/-- States reachable from a fresh store through the public operations. -/
inductive Reachable : StoreState → Prop
  | init (dim : ℕ) : Reachable (initState dim)
  | step {s : StoreState} (op : GOp) : Reachable s → Reachable (stepOp s op)

/-- Well-formedness of a store state (holds for every reachable state;
assumed where theorems need it and discharged by `decide` on concrete
states). -/
def WFStore (s : StoreState) : Prop :=
  (s.thoughts.map (fun t => t.id)).Nodup ∧
  (∀ t ∈ s.thoughts, t.embedding_dim = s.embedding_dim ∧
     t.embedding_vector.length = s.embedding_dim) ∧
  s.index.ids.length = s.index.vecs.length ∧
  s.index.ids.Nodup ∧
  (∀ v ∈ s.index.vecs, v.length = s.embedding_dim)

instance (s : StoreState) : Decidable (WFStore s) := by
  unfold WFStore; infer_instance

/-! ### Concrete fixtures used by counterexamples and witnesses -/

/-- An older thought tagged `"a"`. -/
def exA : Thought := ⟨"A", 0, "s", "reasoning", 1, ["a"], "ra", "ca", [1, 0], 2⟩

/-- A newer thought with no tags. -/
def exB : Thought := ⟨"B", 1, "s", "reasoning", 1, [], "rb", "cb", [-1, 0], 2⟩

/-- A two-thought store state with consistent index (vectors are unit, so
the source's normalisation leaves them unchanged). -/
def exStore : StoreState :=
  ⟨2, [⟨"s", none⟩], [exA, exB], ⟨["A", "B"], [[1, 0], [-1, 0]]⟩, [], []⟩

/-- `exStore` with a graph node for `A` (used by the `add_thought`
counterexample). -/
def exStoreNode : StoreState := { exStore with nodes := [⟨"A", "s", 0⟩] }

/-- Parent-session fixture: two thoughts in session `root`, and a child
session whose recall should reach them. -/
def exRootA : Thought := ⟨"A", 0, "root", "reasoning", 1, [], "ra", "ca", [1, 0], 2⟩

/-- Second `root` thought, orthogonal to the query. -/
def exRootB : Thought := ⟨"B", 0, "root", "reasoning", 1, [], "rb", "cb", [0, 1], 2⟩

/-- Store with lineage `child → root` and one explicit-reference edge
`A → B`. -/
def exLineageStore : StoreState :=
  ⟨2, [⟨"root", none⟩, ⟨"child", some "root"⟩], [exRootA, exRootB],
   ⟨["A", "B"], [[1, 0], [0, 1]]⟩, [], [⟨"A", "B", "explicit-reference", 1⟩]⟩

end TW

namespace TW

/-! ## Theorems

### Stable descending sort -/

theorem insertDesc_cons (key : α → ℚ) (x z : α) (zs : List α) :
    insertDesc key x (z :: zs) =
      if key x < key z then z :: insertDesc key x zs else x :: z :: zs := rfl

theorem mem_insertDesc {key : α → ℚ} {x y : α} {l : List α} :
    y ∈ insertDesc key x l ↔ y = x ∨ y ∈ l := by
  induction l with
  | nil => simp [insertDesc]
  | cons z zs ih =>
    rw [insertDesc_cons]
    by_cases h : key x < key z
    · rw [if_pos h]; simp [ih]; tauto
    · rw [if_neg h]; simp

theorem insertDesc_perm (key : α → ℚ) (x : α) (l : List α) :
    List.Perm (insertDesc key x l) (x :: l) := by
  induction l with
  | nil => exact List.Perm.refl _
  | cons z zs ih =>
    rw [insertDesc_cons]
    by_cases h : key x < key z
    · rw [if_pos h]
      exact (ih.cons z).trans (List.Perm.swap x z zs)
    · rw [if_neg h]

theorem sortD_perm (key : α → ℚ) (l : List α) : List.Perm (sortD key l) l := by
  induction l with
  | nil => exact List.Perm.refl _
  | cons x xs ih => exact (insertDesc_perm key x (sortD key xs)).trans (ih.cons x)

theorem mem_sortD {key : α → ℚ} {x : α} {l : List α} : x ∈ sortD key l ↔ x ∈ l :=
  (sortD_perm key l).mem_iff

theorem length_sortD (key : α → ℚ) (l : List α) : (sortD key l).length = l.length :=
  (sortD_perm key l).length_eq

theorem pairwise_insertDesc {key : α → ℚ} {x : α} {l : List α}
    (h : l.Pairwise fun a b => key b ≤ key a) :
    (insertDesc key x l).Pairwise fun a b => key b ≤ key a := by
  induction l with
  | nil => simp [insertDesc]
  | cons z zs ih =>
    rcases List.pairwise_cons.mp h with ⟨hz, hzs⟩
    rw [insertDesc_cons]
    by_cases hx : key x < key z
    · rw [if_pos hx]
      refine List.pairwise_cons.mpr ⟨?_, ih hzs⟩
      intro y hy
      rcases mem_insertDesc.mp hy with rfl | hy
      · exact le_of_lt hx
      · exact hz y hy
    · rw [if_neg hx]
      refine List.pairwise_cons.mpr ⟨?_, h⟩
      intro y hy
      rcases List.mem_cons.mp hy with rfl | hy
      · exact le_of_not_lt hx
      · exact le_trans (hz y hy) (le_of_not_lt hx)

theorem pairwise_sortD (key : α → ℚ) (l : List α) :
    (sortD key l).Pairwise fun a b => key b ≤ key a := by
  induction l with
  | nil => simp [sortD]
  | cons x xs ih => exact pairwise_insertDesc ih

theorem filter_insertDesc_eq {key : α → ℚ} {c : ℚ} (x : α) (l : List α)
    (hx : key x = c) :
    (insertDesc key x l).filter (fun y => decide (key y = c)) =
      x :: l.filter (fun y => decide (key y = c)) := by
  induction l with
  | nil => simp [insertDesc, hx]
  | cons z zs ih =>
    rw [insertDesc_cons]
    by_cases h : key x < key z
    · have hz : ¬ key z = c := by rw [← hx]; exact ne_of_gt h
      rw [if_pos h, List.filter_cons, List.filter_cons, if_neg (by simpa), if_neg (by simpa), ih]
    · rw [if_neg h, List.filter_cons, if_pos (by simpa)]

theorem filter_insertDesc_ne {key : α → ℚ} {c : ℚ} (x : α) (l : List α)
    (hx : ¬ key x = c) :
    (insertDesc key x l).filter (fun y => decide (key y = c)) =
      l.filter (fun y => decide (key y = c)) := by
  induction l with
  | nil => simp [insertDesc, hx]
  | cons z zs ih =>
    rw [insertDesc_cons]
    by_cases h : key x < key z
    · rw [if_pos h, List.filter_cons, List.filter_cons, ih]
    · rw [if_neg h, List.filter_cons, if_neg (by simpa), List.filter_cons]

/-- Stability of the model sort: the elements with any fixed score appear
in exactly their input order. -/
theorem sortD_filter_key (key : α → ℚ) (c : ℚ) (l : List α) :
    (sortD key l).filter (fun y => decide (key y = c)) =
      l.filter (fun y => decide (key y = c)) := by
  induction l with
  | nil => rfl
  | cons x xs ih =>
    by_cases hx : key x = c
    · rw [sortD, filter_insertDesc_eq x _ hx, ih, List.filter_cons, if_pos (by simpa)]
    · rw [sortD, filter_insertDesc_ne x _ hx, ih, List.filter_cons, if_neg (by simpa)]

/-! ### Claim C10 — limit clamping (corrected)

The clamp to `max(1, limit)` is real, but `retrieve` applies the
`tags_any` filter after the SQL `LIMIT`, so with a tag filter a call with
`limit = 0` can return the empty list even though a matching thought
exists. -/

/-- Claim C10, counterexample: in `exStore`, thought `A` matches the
`tags_any=["a"]` filter, yet `retrieve` with `limit = 0` returns `[]`:
the clamped SQL `LIMIT 1` picks the newer `B`, which the post-SQL tag
filter then drops. -/
theorem claim_C10_counterexample :
    (∃ t ∈ exStore.thoughts, rowMatchesFilters { tags_any := some ["a"] } t = true) ∧
    retrieve exStore { tags_any := some ["a"] } 0 = [] := by
  constructor
  · exact ⟨exA, by simp [exStore], by decide⟩
  · decide

/-- Claim C10, amended: with `limit ≤ 0`, `retrieve` behaves exactly as
with `limit = 1` and `semantic_search` returns at most one item; when no
`tags_any` filter is set, `retrieve` returns exactly one thought whenever
at least one matches the filters (with a `tags_any` filter the post-SQL
tag check can still empty the clamped result). -/
theorem claim_C10_amended (s : StoreState) (fl : ThoughtFilters) (limit : ℤ)
    (hlim : limit ≤ 0) :
    retrieve s fl limit = retrieve s fl 1 ∧
    (fl.tags_any = none →
      (retrieve s fl limit).length = min 1 (s.thoughts.filter (sqlRowMatch fl)).length) ∧
    (∀ nrm q alpha maxc now,
      (semantic_search nrm s q fl limit alpha maxc now).2.length ≤ 1) := by
  have hmax : max (1 : ℤ) limit = 1 := max_eq_left (le_trans hlim (by norm_num))
  have htagsFun : ∀ (fl' : ThoughtFilters), fl'.tags_any = none →
      tagsAnyMatch fl' = fun _ => true := by
    intro fl' h
    funext t
    simp [tagsAnyMatch, h]
  refine ⟨by rw [retrieve, retrieve, hmax]; norm_num, ?_, ?_⟩
  · intro htags
    rw [retrieve, hmax]
    rw [htagsFun fl htags, List.filter_true, List.length_map, List.length_take,
      length_sortD]
    norm_num
  · intro nrm q alpha maxc now
    rw [semantic_search]
    split
    · simp
    · rcases h : VIndex.search nrm s.embedding_dim s.index q
        (max (limit * 10) (min maxc 1000)) with ⟨err, cands⟩
      cases err with
      | some e => simp [h]
      | none =>
        simp only [h, hmax]
        calc (((sortD (fun x => x.score) (semanticScored cands s fl alpha now)).take
                (Int.toNat 1)).length) ≤ Int.toNat 1 := List.length_take_le _ _
          _ ≤ 1 := by norm_num

/-- Claim C10, witness: the amended statement at `exStore`, the trivial
filter and `limit = 0`. -/
theorem claim_C10_witness :
    retrieve exStore {} 0 = retrieve exStore {} 1 ∧
    (({} : ThoughtFilters).tags_any = none →
      (retrieve exStore {} 0).length =
        min 1 (exStore.thoughts.filter (sqlRowMatch {})).length) ∧
    (∀ nrm q alpha maxc now,
      (semantic_search nrm exStore q {} 0 alpha maxc now).2.length ≤ 1) :=
  claim_C10_amended exStore {} 0 (by norm_num)

/-! ### Claim C2 — edge invariants (corrected)

Self-edges are indeed dropped by every edge-creating operation, and `link`
rejects negative weights; but `link_many` performs no weight validation,
so a caller can persist a negative-weight edge. -/

/-- No persisted edge is a self-edge. -/
def edgeInv (s : StoreState) : Prop := ∀ e ∈ s.edges, e.source_id ≠ e.target_id

theorem lmGo_no_self {io : ℕ → Bool} :
    ∀ (es : List (String × String × String × ℚ)) (k : ℕ) (acc out : List EdgeRow),
      lmGo io es k acc = some out → (∀ e ∈ acc, e.source_id ≠ e.target_id) →
      ∀ e ∈ out, e.source_id ≠ e.target_id := by
  intro es
  induction es with
  | nil =>
    intro k acc out h hacc
    simp [lmGo] at h
    exact h ▸ hacc
  | cons hd tl ih =>
    intro k acc out h hacc
    obtain ⟨src, tgt, rel, w⟩ := hd
    rw [lmGo] at h
    by_cases hst : src = tgt
    · rw [if_pos hst] at h
      exact ih k acc out h hacc
    · rw [if_neg hst] at h
      by_cases hio : io k = true
      · simp [hio] at h
      · rw [if_neg (by simp [hio])] at h
        refine ih (k + 1) _ out h ?_
        intro e he
        rcases List.mem_append.mp he with he | he
        · exact hacc e he
        · simp at he
          subst he
          exact hst

theorem link_many_inv {io : ℕ → Bool} {s : StoreState}
    (es : List (String × String × String × ℚ)) (h : edgeInv s) :
    edgeInv (link_many io s es).2 := by
  rw [link_many]
  by_cases hes : es = []
  · rw [if_pos hes]; exact h
  · rw [if_neg hes]
    rcases hlm : lmGo io es 0 s.edges with _ | out
    · exact h
    · exact fun e he => lmGo_no_self es 0 s.edges out hlm h e he

theorem link_inv {io : ℕ → Bool} {s : StoreState} {src tgt rel : String} {w : ℚ}
    {bidir : Bool} (h : edgeInv s) : edgeInv (link io s src tgt rel w bidir).2 := by
  rw [link]
  split
  · exact h
  · split
    · exact h
    · split
      · exact h
      · exact link_many_inv _ h

theorem txGo_tables {io : ℕ → Bool} :
    ∀ (ts : List Thought) (k : ℕ) (s s' : StoreState), txGo io ts k s = some s' →
      s'.edges = s.edges ∧ s'.nodes = s.nodes ∧ s'.index = s.index ∧
      s'.embedding_dim = s.embedding_dim := by
  intro ts
  induction ts with
  | nil =>
    intro k s s' h
    simp [txGo] at h
    subst h
    exact ⟨rfl, rfl, rfl, rfl⟩
  | cons t r ih =>
    intro k s s' h
    rw [txGo] at h
    by_cases hio : io k = true
    · simp [hio] at h
    · rw [if_neg (by simp [hio])] at h
      simpa using ih (k + 1) _ s' h

theorem batch_store_edges (nrm : List ℚ → List ℚ) (io : ℕ → Bool)
    (s : StoreState) (ts : List Thought) :
    (batch_store nrm io s ts).2.edges = s.edges ∧
    (batch_store nrm io s ts).2.nodes = s.nodes := by
  rw [batch_store]
  split
  · exact ⟨rfl, rfl⟩
  · split
    · exact ⟨rfl, rfl⟩
    · rcases htx : txGo io ts 0 s with _ | s1
      · exact ⟨rfl, rfl⟩
      · rcases hidx : idxGo nrm s.embedding_dim ts s1.index with ⟨err, ix⟩
        have h1 := (txGo_tables ts 0 s s1 htx).1
        have h2 := (txGo_tables ts 0 s s1 htx).2.1
        cases err <;> simp [hidx, h1, h2]

theorem semLinkGo_inv {io : ℕ → Bool} {t : Thought} {thr : ℚ} :
    ∀ (items : List ScoredThought) (s : StoreState), edgeInv s →
      edgeInv (semLinkGo io t thr items s).2 := by
  intro items
  induction items with
  | nil => intro s h; exact h
  | cons it r ih =>
    intro s h
    rw [semLinkGo]
    split
    · exact ih s h
    · split
      · exact ih s h
      · rcases hl : link io s it.thought.id t.id "semantic-similarity"
          it.semantic_score false with ⟨err, s'⟩
        have hs' : edgeInv s' := by
          have := @link_inv io s it.thought.id t.id "semantic-similarity"
            it.semantic_score false h
          rw [hl] at this
          exact this
        cases err with
        | some e => simpa [hl] using hs'
        | none => simpa [hl] using ih s' hs'

theorem link_temporal_inv {io : ℕ → Bool} {s : StoreState} {t : Thought}
    (h : edgeInv s) : edgeInv (link_temporal_successor io s t).2 := by
  rw [link_temporal_successor]
  split
  · exact h
  · exact link_inv h

theorem add_thought_inv {nrm : List ℚ → List ℚ} {io : ℕ → Bool} {s : StoreState}
    {t : Thought} {sim : Bool} {sn : ℤ} {thr : ℚ} {tl : Bool} {now : ℚ}
    (h : edgeInv s) : edgeInv (add_thought nrm io s t sim sn thr tl now).2 := by
  have hbase : ∀ (r : Option String × StoreState),
      (if sim ∧ get_thought_by_id s t.id = none then store nrm io s t else (none, s)) = r →
      edgeInv r.2 := by
    intro r hr
    by_cases hc : sim ∧ get_thought_by_id s t.id = none
    · rw [if_pos hc] at hr
      subst hr
      rw [store]
      intro e he
      rw [(batch_store_edges nrm io s [t]).1] at he
      exact h e he
    · rw [if_neg hc] at hr
      subst hr
      exact h
  have hstep2 : ∀ (s1 : StoreState), edgeInv s1 →
      ∀ (r : Option String × StoreState),
        (if tl then link_temporal_successor io (nodeStep s1 t) t
         else (none, nodeStep s1 t)) = r → edgeInv r.2 := by
    intro s1 hs1 r hr
    by_cases htl : tl = true
    · rw [if_pos htl] at hr
      subst hr
      exact link_temporal_inv hs1
    · rw [if_neg htl] at hr
      subst hr
      exact hs1
  rw [add_thought]
  split
  next e s' heq => exact hbase _ heq
  next s1 heq =>
    have hs1 : edgeInv s1 := hbase _ heq
    split
    next e s' heq2 => exact hstep2 s1 hs1 _ heq2
    next s3 heq2 =>
      have hs3 : edgeInv s3 := hstep2 s1 hs1 _ heq2
      split
      · exact hs3
      · split
        · exact hs3
        · exact semLinkGo_inv _ _ hs3

/-- Claim C2, counterexample: from a fresh store, a direct `link_many`
call persists an edge of weight `-1` without raising any validation
error, refuting "a negative weight is rejected with a validation error"
for every edge-creating operation. -/
theorem claim_C2_counterexample :
    (link_many (fun _ => false) (initState 2) [("a", "b", "explicit-reference", -1)]).1
        = none ∧
    (⟨"a", "b", "explicit-reference", -1⟩ : EdgeRow) ∈
      (link_many (fun _ => false) (initState 2)
        [("a", "b", "explicit-reference", -1)]).2.edges ∧
    (-1 : ℚ) < 0 := by
  refine ⟨?_, ?_, by norm_num⟩
  · simp [link_many, lmGo, initState]
  · simp [link_many, lmGo, initState]

/-- Claim C2, amended: every reachable state's edges satisfy
`source_id ≠ target_id` (self-edges are silently dropped everywhere), and
`link` never persists a negative weight: it leaves the state unchanged and
(except for the silently ignored self-edge case) surfaces a validation
error.  `link_many`, however, inserts negative-weight edges unvalidated,
so the `weight ≥ 0` invariant holds only for edges created through `link`
and `add_thought`. -/
theorem claim_C2_amended :
    (∀ s, Reachable s → edgeInv s) ∧
    (∀ (io : ℕ → Bool) (s : StoreState) (src tgt rel : String) (w : ℚ) (bidir : Bool),
      w < 0 →
        (link io s src tgt rel w bidir).2 = s ∧
        (src ≠ tgt → ((link io s src tgt rel w bidir).1).isSome = true)) := by
  constructor
  · intro s hr
    induction hr with
    | init dim => intro e he; simp [initState] at he
    | step op hs ih =>
      rename_i s'
      cases op with
      | createSession sid parent =>
        intro e he
        rw [stepOp] at he
        rw [create_session.eq_def] at he
        split at he
        · exact ih e he
        · rcases parent with _ | p
          · simp at he
            exact ih e he
          · by_cases hp : pyStrip p ≠ "" <;> simp [hp] at he <;> exact ih e he
      | batchStore nrm io ts =>
        intro e he
        rw [stepOp] at he
        rw [(batch_store_edges nrm io s' ts).1] at he
        exact ih e he
      | link io src tgt rel w bidir => exact link_inv ih
      | linkMany io es => exact link_many_inv es ih
      | addThought nrm io t sim sn thr tl now => exact add_thought_inv ih
  · intro io s src tgt rel w bidir hw
    rw [link]
    by_cases h1 : src = "" ∨ tgt = ""
    · rw [if_pos h1]
      exact ⟨rfl, fun _ => rfl⟩
    · rw [if_neg h1]
      by_cases h2 : src = tgt
      · rw [if_pos h2]
        exact ⟨rfl, fun hc => absurd h2 hc⟩
      · rw [if_neg h2, if_pos hw]
        exact ⟨rfl, fun _ => rfl⟩

/-! ### Claim C9 — store/get round trip (corrected)

Every metadata field round-trips exactly, but `_vector_to_blob` narrows
the embedding to float32: a component that is not exactly representable in
binary32 (such as `1/10`) comes back changed. -/

theorem qScale_of_nonneg (x : ℚ) (k : ℤ) (hk : 0 ≤ k) :
    qScale x k = x * ((2 ^ k.toNat : ℕ) : ℚ) := by
  rw [qScale, if_pos hk]

theorem qScale_of_neg (x : ℚ) (k : ℤ) (hk : ¬ 0 ≤ k) :
    qScale x k = x / ((2 ^ (-k).toNat : ℕ) : ℚ) := by
  rw [qScale, if_neg hk]

theorem toF32_tenth : toF32 (1 / 10) = 13421773 / 134217728 := by
  have hq : ¬ ((1 : ℚ) / 10 = 0) := by norm_num
  have habs : |(1 : ℚ) / 10| = 1 / 10 := by
    rw [abs_of_pos]; norm_num
  have hneg : ¬ ((1 : ℚ) / 10 < 0) := by norm_num
  have hlog : qFloorLog2 (1 / 10) = -4 := by
    rw [qFloorLog2, if_neg (by norm_num)]
    have hceil : ⌈(1 : ℚ) / (1 / 10)⌉ = 10 := by norm_num
    rw [hceil]
    decide
  have e1 : qScale (1 / 10) 27 = 67108864 / 5 := by
    rw [qScale_of_nonneg _ _ (by norm_num), show Int.toNat 27 = 27 from rfl]
    push_cast
    norm_num
  have hfloor : ⌊(67108864 : ℚ) / 5⌋ = 13421772 := by
    rw [Int.floor_eq_iff]
    constructor <;> norm_num
  have e2 : rhe ((67108864 : ℚ) / 5) = 13421773 := by
    simp only [rhe, hfloor]
    have c1 : ¬ ((67108864 : ℚ) / 5 - ((13421772 : ℤ) : ℚ) < 1 / 2) := by
      push_cast; norm_num
    have c2 : (1 : ℚ) / 2 < (67108864 : ℚ) / 5 - ((13421772 : ℤ) : ℚ) := by
      push_cast; norm_num
    rw [if_neg c1, if_pos c2]
    norm_num
  simp only [toF32, if_neg hq, habs, if_neg hneg, hlog]
  have hmax : max (-4 : ℤ) (-126) = -4 := by norm_num
  rw [hmax]
  have h27 : (23 : ℤ) - -4 = 27 := by norm_num
  have h27n : (-4 : ℤ) - 23 = -27 := by norm_num
  rw [h27, h27n, e1, e2, qScale_of_neg _ _ (by norm_num),
    show Int.toNat (-(-27)) = 27 from rfl]
  push_cast
  norm_num

theorem toF32_half : toF32 (1 / 2) = 1 / 2 := by
  have hq : ¬ ((1 : ℚ) / 2 = 0) := by norm_num
  have habs : |(1 : ℚ) / 2| = 1 / 2 := by
    rw [abs_of_pos]; norm_num
  have hneg : ¬ ((1 : ℚ) / 2 < 0) := by norm_num
  have hlog : qFloorLog2 (1 / 2) = -1 := by
    rw [qFloorLog2, if_neg (by norm_num)]
    have hceil : ⌈(1 : ℚ) / (1 / 2)⌉ = 2 := by norm_num
    rw [hceil]
    decide
  have e1 : qScale (1 / 2) 24 = 8388608 := by
    rw [qScale_of_nonneg _ _ (by norm_num), show Int.toNat 24 = 24 from rfl]
    push_cast
    norm_num
  have hfloor : ⌊(8388608 : ℚ)⌋ = 8388608 := by norm_num
  have e2 : rhe ((8388608 : ℚ)) = 8388608 := by
    simp only [rhe, hfloor]
    have c1 : (8388608 : ℚ) - ((8388608 : ℤ) : ℚ) < 1 / 2 := by
      push_cast; norm_num
    rw [if_pos c1]
  simp only [toF32, if_neg hq, habs, if_neg hneg, hlog]
  have hmax : max (-1 : ℤ) (-126) = -1 := by norm_num
  rw [hmax]
  have h24 : (23 : ℤ) - -1 = 24 := by norm_num
  have h24n : (-1 : ℤ) - 23 = -24 := by norm_num
  rw [h24, h24n, e1, e2, qScale_of_neg _ _ (by norm_num),
    show Int.toNat (-(-24)) = 24 from rfl]
  push_cast
  norm_num

theorem find?_upsertBy {keyOf : α → String} [DecidableEq α] (rows : List α) (x : α) :
    (upsertBy keyOf rows x).find? (fun r => decide (keyOf r = keyOf x)) = some x := by
  rw [upsertBy]
  by_cases h : rows.any (fun r => keyOf r = keyOf x) = true
  · rw [if_pos h]
    obtain ⟨r0, hr0, hk0⟩ := List.any_eq_true.mp h
    clear h
    induction rows with
    | nil => simp at hr0
    | cons r rs ih =>
      by_cases hr : keyOf r = keyOf x
      · rw [List.map_cons, if_pos hr]
        exact List.find?_cons_of_pos _ (by simp)
      · rw [List.map_cons, if_neg hr,
          List.find?_cons_of_neg _ (by simpa using hr)]
        rcases List.mem_cons.mp hr0 with rfl | hmem
        · exact absurd hk0 (by simpa using hr)
        · exact ih hmem
  · rw [if_neg h]
    have hnone : rows.find? (fun r => decide (keyOf r = keyOf x)) = none := by
      rw [List.find?_eq_none]
      intro r hr
      simp only [decide_eq_true_eq]
      intro hk
      exact h (List.any_eq_true.mpr ⟨r, hr, by simpa using hk⟩)
    rw [List.find?_append, hnone]
    simp

/-- Claim C9, amended: for every pydantic-valid thought whose dimension
matches the store's, a subsequent `get_thought_by_id` returns a record
equal to `t` in every field except that `embedding_vector` comes back
narrowed to float32 (`vecToBlob`); when every component is exactly
representable in binary32 the round trip is the identity. -/
theorem claim_C9_amended (nrm : List ℚ → List ℚ) (io : ℕ → Bool) (s : StoreState)
    (t : Thought) (hval : ValidThought t) (hdim : t.embedding_dim = s.embedding_dim)
    (hio : io 0 = false) :
    get_thought_by_id (store nrm io s t).2 t.id
      = some { t with embedding_vector := vecToBlob t.embedding_vector } ∧
    (vecToBlob t.embedding_vector = t.embedding_vector →
      get_thought_by_id (store nrm io s t).2 t.id = some t) := by
  obtain ⟨h1, h2, h3, h4, h5, h6, h7, h8, h9, h10, h11, h12, h13, h14⟩ := hval
  have key : get_thought_by_id (store nrm io s t).2 t.id
      = some { t with embedding_vector := vecToBlob t.embedding_vector } := by
    rw [store, batch_store]
    rw [if_neg (by simp)]
    rw [if_neg (by simp [hdim])]
    have htx : txGo io [t] 0 s = some
        { s with sessions := sessionIfMissing s.sessions t.session_id,
                 thoughts := upsertBy (fun x => x.id) s.thoughts
                   { t with embedding_vector := vecToBlob t.embedding_vector } } := by
      rw [txGo, if_neg (by simp [hio]), txGo]
    rw [htx]
    have hget : ∀ (ix : VIndex),
        get_thought_by_id
          { s with sessions := sessionIfMissing s.sessions t.session_id,
                   thoughts := upsertBy (fun x => x.id) s.thoughts
                     { t with embedding_vector := vecToBlob t.embedding_vector },
                   index := ix }
          t.id = some { t with embedding_vector := vecToBlob t.embedding_vector } := by
      intro ix
      rw [get_thought_by_id]
      have hfind := @find?_upsertBy Thought (fun x : Thought => x.id) _ s.thoughts
        { t with embedding_vector := vecToBlob t.embedding_vector }
      rw [hfind]
      simp only [Option.map_some']
      rw [rowToThought]
      simp [h1, h2, h4, h8, h9, h11]
    dsimp only
    rcases hidx : idxGo nrm s.embedding_dim [t] s.index with ⟨err, ix⟩
    cases err with
    | some e => exact hget ix
    | none => exact hget ix
  exact ⟨key, fun hfix => by rw [key, hfix]⟩

/-- Claim C9, counterexample: storing a thought whose embedding holds
`1/10` (not binary32-representable) and reading it back yields a record
whose `embedding_vector` is `13421773/134217728 ≠ 1/10`, so the round
trip is not structurally equal on every field. -/
theorem claim_C9_counterexample :
    get_thought_by_id (store id (fun _ => false) (initState 1)
        (⟨"F", 0, "s", "fact", 1, [], "r", "c", [1 / 10], 1⟩ : Thought)).2 "F"
      = some (⟨"F", 0, "s", "fact", 1, [], "r", "c", [13421773 / 134217728], 1⟩ : Thought) ∧
    ((13421773 : ℚ) / 134217728) ≠ 1 / 10 := by
  constructor
  · have := (claim_C9_amended id (fun _ => false) (initState 1)
      (⟨"F", 0, "s", "fact", 1, [], "r", "c", [1 / 10], 1⟩ : Thought)
      (by constructor <;> simp [pyStrip, stripWS, isPyWS] <;> norm_num)
      (by rfl) (by rfl)).1
    rw [this]
    simp only [vecToBlob, List.map_cons, List.map_nil, toF32_tenth]
  · norm_num

/-- Claim C9, witness for the amended theorem: a thought with the
binary32-representable component `1/2` round-trips exactly. -/
theorem claim_C9_witness :
    get_thought_by_id (store id (fun _ => false) (initState 1)
        (⟨"H", 0, "s", "fact", 1, [], "r", "c", [1 / 2], 1⟩ : Thought)).2 "H"
      = some ((⟨"H", 0, "s", "fact", 1, [], "r", "c", [1 / 2], 1⟩ : Thought)) := by
  have h := claim_C9_amended id (fun _ => false) (initState 1)
    (⟨"H", 0, "s", "fact", 1, [], "r", "c", [1 / 2], 1⟩ : Thought)
    (by constructor <;> simp [pyStrip, stripWS, isPyWS] <;> norm_num)
    (by rfl) (by rfl)
  refine h.2 ?_
  show vecToBlob [(1 : ℚ) / 2] = [(1 : ℚ) / 2]
  rw [vecToBlob]
  simp only [List.map_cons, List.map_nil, toF32_half]

/-! ### Claim C1 — batch_store atomicity (confirmed)

`txGo` either aborts (whole transaction rolled back, the state returned by
`batch_store` is exactly the input state) or commits the whole batch; the
index maintenance that follows cannot fail once the pre-transaction
dimension validation has passed, because `_normalize` preserves length. -/

theorem txGo_some (io : ℕ → Bool) :
    ∀ (ts : List Thought) (k : ℕ) (s s1 : StoreState),
      txGo io ts k s = some s1 → s1 = txApply ts s := by
  intro ts
  induction ts with
  | nil =>
    intro k s s1 h
    rw [txGo] at h
    injection h with h
    rw [txApply]
    exact h.symm
  | cons t r ih =>
    intro k s s1 h
    rw [txGo] at h
    by_cases hio : io k
    · rw [if_pos hio] at h
      exact absurd h (by simp)
    · rw [if_neg hio] at h
      have h1 := ih (k + 1) _ s1 h
      simp only [txApply, List.foldl_cons]
      simp only [txApply] at h1
      exact h1

theorem find?_upsertBy_ne {keyOf : α → String} [DecidableEq α] (rows : List α) (x : α)
    (k : String) (h : keyOf x ≠ k) :
    (upsertBy keyOf rows x).find? (fun r => decide (keyOf r = k))
      = rows.find? (fun r => decide (keyOf r = k)) := by
  rw [upsertBy]
  by_cases hany : rows.any (fun r => keyOf r = keyOf x) = true
  · rw [if_pos hany]
    clear hany
    induction rows with
    | nil => rfl
    | cons r rs ih =>
      rw [List.map_cons]
      by_cases hr : keyOf r = keyOf x
      · rw [if_pos hr,
          List.find?_cons_of_neg _ (by simpa using h),
          List.find?_cons_of_neg _ (by simpa using hr ▸ h)]
        exact ih
      · rw [if_neg hr]
        by_cases hk : keyOf r = k
        · rw [List.find?_cons_of_pos _ (by simpa using hk),
            List.find?_cons_of_pos _ (by simpa using hk)]
        · rw [List.find?_cons_of_neg _ (by simpa using hk),
            List.find?_cons_of_neg _ (by simpa using hk)]
          exact ih
  · rw [if_neg hany, List.find?_append]
    have hx : [x].find? (fun r => decide (keyOf r = k)) = none := by
      simp [h]
    rw [hx]
    cases rows.find? (fun r => decide (keyOf r = k)) <;> rfl

theorem txApply_find?_ne :
    ∀ (ts : List Thought) (s : StoreState) (k : String),
      (∀ u ∈ ts, u.id ≠ k) →
      (txApply ts s).thoughts.find? (fun x => decide (x.id = k))
        = s.thoughts.find? (fun x => decide (x.id = k)) := by
  intro ts
  induction ts with
  | nil => intro s k _; rfl
  | cons t r ih =>
    intro s k hk
    have h1 := ih
      { s with sessions := sessionIfMissing s.sessions t.session_id,
               thoughts := upsertBy (fun x => x.id) s.thoughts
                 { t with embedding_vector := vecToBlob t.embedding_vector } }
      k (fun u hu => hk u (List.mem_cons_of_mem _ hu))
    simp only [txApply, List.foldl_cons]
    simp only [txApply] at h1
    rw [h1]
    exact @find?_upsertBy_ne Thought (fun x : Thought => x.id) _ s.thoughts _ k
      (hk t (List.mem_cons_self _ _))

theorem txApply_find?_mem :
    ∀ (ts : List Thought) (s : StoreState),
      (List.map (fun t => t.id) ts).Nodup →
      ∀ t ∈ ts,
        (txApply ts s).thoughts.find? (fun x => decide (x.id = t.id))
          = some { t with embedding_vector := vecToBlob t.embedding_vector } := by
  intro ts
  induction ts with
  | nil => intro s _ t ht; exact absurd ht (List.not_mem_nil t)
  | cons u r ih =>
    intro s hnd t ht
    simp only [List.map_cons, List.nodup_cons] at hnd
    rcases List.mem_cons.mp ht with rfl | hmem
    · have hne : ∀ v ∈ r, v.id ≠ t.id := by
        intro v hv hveq
        exact hnd.1 (by rw [← hveq]; exact List.mem_map_of_mem _ hv)
      have h1 := txApply_find?_ne r
        { s with sessions := sessionIfMissing s.sessions t.session_id,
                 thoughts := upsertBy (fun x => x.id) s.thoughts
                   { t with embedding_vector := vecToBlob t.embedding_vector } }
        t.id hne
      simp only [txApply, List.foldl_cons]
      simp only [txApply] at h1
      rw [h1]
      exact @find?_upsertBy Thought (fun x : Thought => x.id) _ s.thoughts
        { t with embedding_vector := vecToBlob t.embedding_vector }
    · have h1 := ih
        { s with sessions := sessionIfMissing s.sessions u.session_id,
                 thoughts := upsertBy (fun x => x.id) s.thoughts
                   { u with embedding_vector := vecToBlob u.embedding_vector } }
        hnd.2 t hmem
      simp only [txApply, List.foldl_cons]
      simp only [txApply] at h1
      exact h1

theorem VIndex.upsert_ok (nrm : List ℚ → List ℚ) (dim : ℕ) (ix : VIndex)
    (tid : String) (v : List ℚ) (h : (nrm v).length = dim) :
    (VIndex.upsert nrm dim ix tid v).1 = none := by
  simp only [VIndex.upsert]
  rw [if_neg (fun hc => hc h)]
  rcases hfi : ix.ids.findIdx? (fun s => decide (s = tid)) with _ | i <;> rfl

theorem idxGo_ok (nrm : List ℚ → List ℚ) (dim : ℕ)
    (hnrm : ∀ v, (nrm v).length = v.length) :
    ∀ (ts : List Thought) (ix : VIndex),
      (∀ t ∈ ts, t.embedding_vector.length = dim) →
      (idxGo nrm dim ts ix).1 = none := by
  intro ts
  induction ts with
  | nil => intro ix _; rfl
  | cons t r ih =>
    intro ix hlen
    rw [idxGo]
    rcases hup : VIndex.upsert nrm dim ix t.id t.embedding_vector with ⟨err, ix2⟩
    have herr : err = none := by
      have h0 := VIndex.upsert_ok nrm dim ix t.id t.embedding_vector
        (by rw [hnrm]; exact hlen t (List.mem_cons_self _ _))
      rw [hup] at h0
      exact h0
    subst herr
    exact ih ix2 (fun u hu => hlen u (List.mem_cons_of_mem _ hu))

/-- Claim C1: `batch_store` is atomic.  If `_normalize` preserves vector
length (it does) and every thought of the batch passed pydantic
validation, then a failed call (dimension validation or an insert
failure) leaves the store state — tables and vector index — exactly as it
was, so no thought of the batch is visible to `retrieve` or
`get_thought_by_id`; a successful call makes every thought of the batch
(distinct ids) visible to `get_thought_by_id`, with its vector narrowed
to float32. -/
theorem claim_C1 (nrm : List ℚ → List ℚ) (io : ℕ → Bool) (s : StoreState)
    (ts : List Thought) (hnrm : ∀ v, (nrm v).length = v.length)
    (hval : ∀ t ∈ ts, ValidThought t)
    (hnodup : (List.map (fun t => t.id) ts).Nodup) :
    (∀ e, (batch_store nrm io s ts).1 = some e → (batch_store nrm io s ts).2 = s) ∧
    ((batch_store nrm io s ts).1 = none →
      ∀ t ∈ ts, get_thought_by_id (batch_store nrm io s ts).2 t.id
        = some { t with embedding_vector := vecToBlob t.embedding_vector }) := by
  by_cases hemp : ts = []
  · subst hemp
    constructor
    · intro e he
      rw [batch_store] at he
      simp at he
    · intro _ t ht
      exact absurd ht (List.not_mem_nil t)
  · by_cases hdim : ts.any (fun t => t.embedding_dim ≠ s.embedding_dim) = true
    · constructor
      · intro e _
        rw [batch_store, if_neg hemp, if_pos hdim]
      · intro hnone
        rw [batch_store, if_neg hemp, if_pos hdim] at hnone
        exact absurd hnone (by simp)
    · have hdim2 : ∀ t ∈ ts, t.embedding_dim = s.embedding_dim := by
        intro t ht
        by_contra hc
        exact hdim (List.any_eq_true.mpr ⟨t, ht, by simpa using hc⟩)
      rcases htx : txGo io ts 0 s with _ | s1
      · constructor
        · intro e _
          rw [batch_store, if_neg hemp, if_neg hdim, htx]
        · intro hnone
          rw [batch_store, if_neg hemp, if_neg hdim, htx] at hnone
          exact absurd hnone (by simp)
      · have hs1 : s1 = txApply ts s := txGo_some io ts 0 s s1 htx
        have hlen : ∀ t ∈ ts, t.embedding_vector.length = s.embedding_dim := by
          intro t ht
          obtain ⟨-, -, -, -, -, -, -, -, -, -, -, -, -, h14⟩ := hval t ht
          rw [← h14]
          exact hdim2 t ht
        rcases hix : idxGo nrm s.embedding_dim ts s1.index with ⟨err, ix⟩
        have herr : err = none := by
          have h0 := idxGo_ok nrm s.embedding_dim hnrm ts s1.index hlen
          rw [hix] at h0
          exact h0
        subst herr
        have hbs : batch_store nrm io s ts = (none, { s1 with index := ix }) := by
          rw [batch_store, if_neg hemp, if_neg hdim, htx]
          dsimp only
          rw [hix]
        constructor
        · intro e he
          rw [hbs] at he
          exact absurd he (by simp)
        · intro _ t ht
          rw [hbs]
          have hfind := txApply_find?_mem ts s hnodup t ht
          rw [← hs1] at hfind
          rw [get_thought_by_id,
            show ({ s1 with index := ix } : StoreState).thoughts = s1.thoughts from rfl,
            hfind]
          obtain ⟨h1, h2, h3, h4, h5, h6, h7, h8, h9, h10, h11, h12, h13, h14⟩ := hval t ht
          simp only [Option.map_some']
          rw [rowToThought]
          simp [h1, h2, h4, h8, h9, h11]

/-- Claim C1 witness: a concrete one-thought batch on a fresh store; the
call succeeds and the thought is visible afterwards. -/
theorem claim_C1_witness :
    (∀ e, (batch_store id (fun _ => false) (initState 1)
        [⟨"W", 0, "s", "fact", 1, [], "r", "c", [1], 1⟩]).1 = some e →
      (batch_store id (fun _ => false) (initState 1)
        [⟨"W", 0, "s", "fact", 1, [], "r", "c", [1], 1⟩]).2 = initState 1) ∧
    ((batch_store id (fun _ => false) (initState 1)
        [⟨"W", 0, "s", "fact", 1, [], "r", "c", [1], 1⟩]).1 = none →
      ∀ t ∈ [(⟨"W", 0, "s", "fact", 1, [], "r", "c", [1], 1⟩ : Thought)],
        get_thought_by_id (batch_store id (fun _ => false) (initState 1)
            [⟨"W", 0, "s", "fact", 1, [], "r", "c", [1], 1⟩]).2 t.id
          = some { t with embedding_vector := vecToBlob t.embedding_vector }) :=
  claim_C1 id (fun _ => false) (initState 1)
    [⟨"W", 0, "s", "fact", 1, [], "r", "c", [1], 1⟩]
    (fun _ => rfl) (by decide) (by decide)

/-! ### Claim C3 — semantic_search scoring and ordering (confirmed) -/

theorem le_foldl_max : ∀ (l : List ℚ) (a : ℚ), a ≤ l.foldl max a := by
  intro l
  induction l with
  | nil => intro a; exact le_refl a
  | cons x xs ih => intro a; exact le_trans (le_max_left a x) (ih (max a x))

theorem mem_le_foldl_max : ∀ (l : List ℚ) (a x : ℚ), x ∈ l → x ≤ l.foldl max a := by
  intro l
  induction l with
  | nil => intro a x hx; exact absurd hx (List.not_mem_nil x)
  | cons y ys ih =>
    intro a x hx
    rcases List.mem_cons.mp hx with rfl | hx
    · exact le_trans (le_max_right a x) (le_foldl_max ys (max a x))
    · exact ih (max a y) x hx

theorem semanticScored_mem (cands : List (String × ℚ)) (s : StoreState)
    (fl : ThoughtFilters) (alpha : ℚ) (now : ℚ) (it : ScoredThought)
    (hit : it ∈ semanticScored cands s fl alpha now) :
    it.score = alpha * it.semantic_score + (1 - alpha) * it.recency_score ∧
    0 ≤ it.recency_score ∧ it.recency_score ≤ 1 := by
  simp only [semanticScored, List.mem_map] at hit
  obtain ⟨t, ht, rfl⟩ := hit
  have hM1 : (1 : ℚ) ≤
      ((semanticFiltered cands s fl).map fun u => max 0 (now - u.timestamp_utc)).foldl
        max 1 :=
    le_foldl_max _ 1
  have hM0 : (0 : ℚ) <
      ((semanticFiltered cands s fl).map fun u => max 0 (now - u.timestamp_utc)).foldl
        max 1 :=
    lt_of_lt_of_le one_pos hM1
  have hA : max 0 (now - t.timestamp_utc) ≤
      ((semanticFiltered cands s fl).map fun u => max 0 (now - u.timestamp_utc)).foldl
        max 1 :=
    mem_le_foldl_max _ 1 _ (List.mem_map_of_mem _ ht)
  refine ⟨rfl, ?_, ?_⟩
  · exact sub_nonneg.mpr ((div_le_one hM0).mpr hA)
  · exact sub_le_self _ (div_nonneg (le_max_left 0 _) (le_of_lt hM0))

/-- Claim C3: with `alpha ∈ [0,1]`, every returned item of
`semantic_search` carries `score = α·semantic + (1-α)·recency` with
`recency ∈ [0,1]`; the returned scores are monotonically non-increasing;
when the index search succeeds the result is exactly the stable
descending sort of the scored candidate rows truncated to `max 1 limit`
(ties keep candidate-row order), and an empty candidate set yields the
empty list with no error. -/
theorem claim_C3 (nrm : List ℚ → List ℚ) (s : StoreState) (q : List ℚ)
    (fl : ThoughtFilters) (limit : ℤ) (alpha : ℚ) (maxc : ℤ) (now : ℚ)
    (h0 : 0 ≤ alpha) (h1 : alpha ≤ 1) :
    ((semantic_search nrm s q fl limit alpha maxc now).2.Chain'
       fun a b => b.score ≤ a.score) ∧
    (∀ it ∈ (semantic_search nrm s q fl limit alpha maxc now).2,
      it.score = alpha * it.semantic_score + (1 - alpha) * it.recency_score ∧
      0 ≤ it.recency_score ∧ it.recency_score ≤ 1) ∧
    (∀ cands,
      VIndex.search nrm s.embedding_dim s.index q (max (limit * 10) (min maxc 1000))
        = (none, cands) →
      semantic_search nrm s q fl limit alpha maxc now
        = (none, (sortD (fun x => x.score)
            (semanticScored cands s fl alpha now)).take (max 1 limit).toNat) ∧
      (∀ c, (sortD (fun x => x.score)
          (semanticScored cands s fl alpha now)).filter (fun y => decide (y.score = c))
        = (semanticScored cands s fl alpha now).filter (fun y => decide (y.score = c))) ∧
      (cands = [] →
        semantic_search nrm s q fl limit alpha maxc now = (none, []))) := by
  rcases hvs : VIndex.search nrm s.embedding_dim s.index q
      (max (limit * 10) (min maxc 1000)) with ⟨oe, cands⟩
  cases oe with
  | some e =>
    have hres : semantic_search nrm s q fl limit alpha maxc now = (some e, []) := by
      rw [semantic_search, if_neg (not_not_intro ⟨h0, h1⟩), hvs]
    refine ⟨?_, ?_, ?_⟩
    · rw [hres]; exact List.chain'_nil
    · intro it hit; rw [hres] at hit; exact absurd hit (List.not_mem_nil it)
    · intro cands0 heq
      exact absurd (congrArg Prod.fst heq) (by simp)
  | none =>
    have hres : semantic_search nrm s q fl limit alpha maxc now
        = (none, (sortD (fun x => x.score)
            (semanticScored cands s fl alpha now)).take (max 1 limit).toNat) := by
      rw [semantic_search, if_neg (not_not_intro ⟨h0, h1⟩), hvs]
    have hpair := pairwise_sortD (fun x : ScoredThought => x.score)
      (semanticScored cands s fl alpha now)
    refine ⟨?_, ?_, ?_⟩
    · rw [hres]
      exact (hpair.sublist (List.take_sublist _ _)).chain'
    · intro it hit
      rw [hres] at hit
      exact semanticScored_mem cands s fl alpha now it
        (mem_sortD.mp (List.mem_of_mem_take hit))
    · intro cands0 heq
      have hc : cands0 = cands := by
        have h2 := congrArg Prod.snd heq
        simpa using h2.symm
      subst hc
      refine ⟨hres, fun c => sortD_filter_key _ c _, ?_⟩
      intro hnil
      subst hnil
      rw [hres]
      simp [semanticScored, semanticFiltered, sortD]

/-- Claim C3 witness: concrete call on a fresh store with `alpha = 1`. -/
theorem claim_C3_witness :
    ((semantic_search id (initState 1) [1] ⟨none, none, none, none, none, none⟩
        5 1 100 0).2.Chain' fun a b => b.score ≤ a.score) ∧
    (∀ it ∈ (semantic_search id (initState 1) [1] ⟨none, none, none, none, none, none⟩
        5 1 100 0).2,
      it.score = 1 * it.semantic_score + (1 - 1) * it.recency_score ∧
      0 ≤ it.recency_score ∧ it.recency_score ≤ 1) ∧
    (∀ cands,
      VIndex.search id (initState 1).embedding_dim (initState 1).index [1]
          (max (5 * 10) (min 100 1000))
        = (none, cands) →
      semantic_search id (initState 1) [1] ⟨none, none, none, none, none, none⟩
          5 1 100 0
        = (none, (sortD (fun x => x.score)
            (semanticScored cands (initState 1) ⟨none, none, none, none, none, none⟩
              1 0)).take (max 1 (5 : ℤ)).toNat) ∧
      (∀ c, (sortD (fun x => x.score)
          (semanticScored cands (initState 1) ⟨none, none, none, none, none, none⟩
            1 0)).filter (fun y => decide (y.score = c))
        = (semanticScored cands (initState 1) ⟨none, none, none, none, none, none⟩
            1 0).filter (fun y => decide (y.score = c))) ∧
      (cands = [] →
        semantic_search id (initState 1) [1] ⟨none, none, none, none, none, none⟩
          5 1 100 0 = (none, []))) :=
  claim_C3 id (initState 1) [1] ⟨none, none, none, none, none, none⟩ 5 1 100 0
    (by norm_num) (le_refl 1)

/-! ### Claim C5 — add_thought edge atomicity (corrected)

Each edge of one `add_thought` call is its own transaction: the temporal
link commits before the semantic links are attempted, and each semantic
link commits separately, so a failure mid-way leaves a proper prefix of
the planned edges visible. -/

theorem link_err_state (io : ℕ → Bool) (s : StoreState) (a b rel : String) (w : ℚ)
    (bd : Bool) {e : String} {s' : StoreState}
    (h : link io s a b rel w bd = (some e, s')) : s' = s := by
  rw [link] at h
  by_cases h1 : a = "" ∨ b = ""
  · rw [if_pos h1] at h
    simp only [Prod.mk.injEq] at h
    exact h.2.symm
  · rw [if_neg h1] at h
    by_cases h2 : a = b
    · rw [if_pos h2] at h
      simp at h
    · rw [if_neg h2] at h
      by_cases h3 : w < 0
      · rw [if_pos h3] at h
        simp only [Prod.mk.injEq] at h
        exact h.2.symm
      · rw [if_neg h3, link_many, if_neg (by simp)] at h
        rcases hlm : lmGo io ([(a, b, rel, w)] ++ if bd then [(b, a, rel, w)] else [])
            0 s.edges with _ | newE
        · rw [hlm] at h
          simp only [Prod.mk.injEq] at h
          exact h.2.symm
        · rw [hlm] at h
          simp at h

theorem link_ok_state (io : ℕ → Bool) (s : StoreState) (a b rel : String) (w : ℚ)
    {s' : StoreState} (hne : a ≠ b)
    (h : link io s a b rel w false = (none, s')) :
    s' = { s with edges := s.edges ++ [⟨a, b, rel, w⟩] } := by
  rw [link] at h
  by_cases h1 : a = "" ∨ b = ""
  · rw [if_pos h1] at h
    simp at h
  · rw [if_neg h1, if_neg hne] at h
    by_cases h3 : w < 0
    · rw [if_pos h3] at h
      simp at h
    · rw [if_neg h3, link_many, if_neg (by simp)] at h
      rw [show ([(a, b, rel, w)] ++ if (false : Bool) then [(b, a, rel, w)] else [])
          = [(a, b, rel, w)] from by simp] at h
      rw [lmGo, if_neg hne] at h
      by_cases hio : io 0 = true
      · rw [if_pos hio] at h
        simp at h
      · rw [if_neg hio, lmGo] at h
        simp only [Prod.mk.injEq] at h
        exact h.2.symm

theorem foldl_pickNewest (P : NodeRow → Prop) :
    ∀ (l : List NodeRow) (acc : Option NodeRow),
      (∀ n ∈ l, P n) → (∀ q, acc = some q → P q) →
      ∀ p,
        l.foldl
          (fun acc n =>
            match acc with
            | none => some n
            | some a => if a.timestamp_utc < n.timestamp_utc then some n else acc)
          acc = some p → P p := by
  intro l
  induction l with
  | nil => intro acc _ hacc p hp; exact hacc p hp
  | cons n r ih =>
    intro acc hl hacc p hp
    refine ih _ (fun m hm => hl m (List.mem_cons_of_mem _ hm)) ?_ p hp
    intro q hq
    rcases acc with _ | a
    · injection hq with hq
      rw [← hq]
      exact hl n (List.mem_cons_self _ _)
    · by_cases hts : a.timestamp_utc < n.timestamp_utc
      · have hq2 : (if a.timestamp_utc < n.timestamp_utc then some n else some a)
            = some q := hq
        rw [if_pos hts] at hq2
        injection hq2 with hq2
        rw [← hq2]
        exact hl n (List.mem_cons_self _ _)
      · have hq2 : (if a.timestamp_utc < n.timestamp_utc then some n else some a)
            = some q := hq
        rw [if_neg hts] at hq2
        exact hacc q hq2

theorem temporalPrev_ne (s : StoreState) (t : Thought) {p : NodeRow}
    (h : temporalPrev s t = some p) : p.thought_id ≠ t.id := by
  rw [temporalPrev] at h
  refine foldl_pickNewest (fun n => n.thought_id ≠ t.id) _ none ?_ (by simp) p h
  intro n hn
  have hmem := List.mem_filter.mp hn
  have hb := hmem.2
  simp only [Bool.and_eq_true, decide_eq_true_eq] at hb
  simpa using hb.1.2

theorem semantic_search_state_inv (nrm : List ℚ → List ℚ) (s s2 : StoreState)
    (q : List ℚ) (fl : ThoughtFilters) (limit : ℤ) (alpha : ℚ) (maxc : ℤ) (now : ℚ)
    (hd : s2.embedding_dim = s.embedding_dim) (hi : s2.index = s.index)
    (ht : s2.thoughts = s.thoughts) :
    semantic_search nrm s2 q fl limit alpha maxc now
      = semantic_search nrm s q fl limit alpha maxc now := by
  simp only [semantic_search, semanticScored, semanticFiltered, hd, hi, ht]

theorem semLinkGo_spec (io : ℕ → Bool) (t : Thought) (thr : ℚ) :
    ∀ (items : List ScoredThought) (s : StoreState),
      ∃ pre,
        pre <+: ((items.filter fun it =>
            decide (it.thought.id ≠ t.id ∧ thr ≤ it.semantic_score)).map
          fun it => (⟨it.thought.id, t.id, "semantic-similarity",
            it.semantic_score⟩ : EdgeRow)) ∧
        (semLinkGo io t thr items s).2 = { s with edges := s.edges ++ pre } ∧
        ((semLinkGo io t thr items s).1 = none →
          pre = (items.filter fun it =>
              decide (it.thought.id ≠ t.id ∧ thr ≤ it.semantic_score)).map
            fun it => (⟨it.thought.id, t.id, "semantic-similarity",
              it.semantic_score⟩ : EdgeRow)) := by
  intro items
  induction items with
  | nil =>
    intro s
    exact ⟨[], List.nil_prefix, by simp [semLinkGo], fun _ => rfl⟩
  | cons it r ih =>
    intro s
    by_cases hid : it.thought.id = t.id
    · obtain ⟨pre, hp1, hp2, hp3⟩ := ih s
      have hfeq : (it :: r).filter (fun it =>
            decide (it.thought.id ≠ t.id ∧ thr ≤ it.semantic_score))
          = r.filter (fun it =>
            decide (it.thought.id ≠ t.id ∧ thr ≤ it.semantic_score)) :=
        List.filter_cons_of_neg (by simp [hid])
      have hgeq : semLinkGo io t thr (it :: r) s = semLinkGo io t thr r s := by
        rw [semLinkGo, if_pos hid]
      refine ⟨pre, ?_, ?_, ?_⟩
      · rw [hfeq]; exact hp1
      · rw [hgeq]; exact hp2
      · rw [hgeq, hfeq]; exact hp3
    · by_cases hsc : it.semantic_score < thr
      · obtain ⟨pre, hp1, hp2, hp3⟩ := ih s
        have hfeq : (it :: r).filter (fun it =>
              decide (it.thought.id ≠ t.id ∧ thr ≤ it.semantic_score))
            = r.filter (fun it =>
              decide (it.thought.id ≠ t.id ∧ thr ≤ it.semantic_score)) :=
          List.filter_cons_of_neg (by simp [not_le.mpr hsc])
        have hgeq : semLinkGo io t thr (it :: r) s = semLinkGo io t thr r s := by
          rw [semLinkGo, if_neg hid, if_pos hsc]
        refine ⟨pre, ?_, ?_, ?_⟩
        · rw [hfeq]; exact hp1
        · rw [hgeq]; exact hp2
        · rw [hgeq, hfeq]; exact hp3
      · have hfc : (it :: r).filter (fun it =>
              decide (it.thought.id ≠ t.id ∧ thr ≤ it.semantic_score))
            = it :: r.filter (fun it =>
              decide (it.thought.id ≠ t.id ∧ thr ≤ it.semantic_score)) :=
          List.filter_cons_of_pos (by simp [hid, le_of_not_lt hsc])
        rcases hlk : link io s it.thought.id t.id "semantic-similarity"
            it.semantic_score false with ⟨err, s'⟩
        have hgo : semLinkGo io t thr (it :: r) s
            = match (err, s') with
              | (some e, s') => (some e, s')
              | (none, s') => semLinkGo io t thr r s' := by
          rw [semLinkGo, if_neg hid, if_neg hsc, hlk]
        cases err with
        | some e =>
          have hs' : s' = s := link_err_state io s _ _ _ _ false hlk
          subst hs'
          refine ⟨[], List.nil_prefix, ?_, ?_⟩
          · rw [hgo]
            simp
          · intro hnone
            rw [hgo] at hnone
            simp at hnone
        | none =>
          have hs' : s' = { s with edges := s.edges ++
              [⟨it.thought.id, t.id, "semantic-similarity", it.semantic_score⟩] } :=
            link_ok_state io s _ _ _ _ hid hlk
          obtain ⟨pre, hp1, hp2, hp3⟩ := ih s'
          refine ⟨(⟨it.thought.id, t.id, "semantic-similarity",
              it.semantic_score⟩ : EdgeRow) :: pre, ?_, ?_, ?_⟩
          · rw [hfc, List.map_cons]
            exact (List.cons_prefix_cons).mpr ⟨rfl, hp1⟩
          · rw [hgo, hp2, hs']
            simp
          · intro hnone
            rw [hgo] at hnone
            rw [hfc, List.map_cons, hp3 hnone]

/-- Claim C5, amended: the edges of one `add_thought` call do NOT commit
in a single transaction.  The call persists a prefix of the planned edge
list (temporal-successor edge first, then one edge per qualifying
semantic neighbor): on full success the whole list is committed, but each
edge commits in its own transaction, so a failure mid-way leaves the
earlier edges — in particular the temporal edge — visible. -/
theorem claim_C5_amended (nrm : List ℚ → List ℚ) (io : ℕ → Bool) (s s1 : StoreState)
    (t : Thought) (sim : Bool) (sn : ℤ) (thr : ℚ) (tl : Bool) (now : ℚ)
    (h1 : (if sim ∧ get_thought_by_id s t.id = none then store nrm io s t
           else (none, s)) = (none, s1)) :
    ∃ pre,
      pre <+: plannedEdges nrm (nodeStep s1 t) t sn thr tl now ∧
      (add_thought nrm io s t sim sn thr tl now).2
        = { nodeStep s1 t with edges := s1.edges ++ pre } ∧
      ((add_thought nrm io s t sim sn thr tl now).1 = none →
        pre = plannedEdges nrm (nodeStep s1 t) t sn thr tl now) := by
  have hadd : add_thought nrm io s t sim sn thr tl now
      = match (if tl then link_temporal_successor io (nodeStep s1 t) t
               else (none, nodeStep s1 t)) with
        | (some e, s') => (some e, s')
        | (none, s3) =>
          if sn ≤ 0 then (none, s3)
          else
            match semantic_search nrm s3 t.embedding_vector {} (sn + 5) 1 500 now with
            | (some e, _) => (some e, s3)
            | (none, nearest) => semLinkGo io t thr nearest s3 := by
    rw [add_thought, h1]
  clear h1
  rcases htmp : (if tl then link_temporal_successor io (nodeStep s1 t) t
      else (none, nodeStep s1 t)) with ⟨terr, s3⟩
  have hteparts : (terr = none →
        s3 = { nodeStep s1 t with edges := s1.edges ++
          (match (if tl then temporalPrev (nodeStep s1 t) t else none) with
           | some prev => [⟨prev.thought_id, t.id, "temporal-successor", 1⟩]
           | none => []) }) ∧
      (∀ e, terr = some e → s3 = nodeStep s1 t) := by
    cases tl with
    | false =>
      rw [if_neg (by simp)] at htmp
      simp only [Prod.mk.injEq] at htmp
      constructor
      · intro _
        rw [← htmp.2]
        simp
        rfl
      · intro e he
        rw [← htmp.1] at he
        simp at he
    | true =>
      rw [if_pos (by simp), link_temporal_successor] at htmp
      rw [if_pos (by simp)]
      rcases hprev : temporalPrev (nodeStep s1 t) t with _ | p
      · rw [hprev] at htmp
        simp only [Prod.mk.injEq] at htmp
        constructor
        · intro _
          rw [← htmp.2]
          simp
          rfl
        · intro e he
          rw [← htmp.1] at he
          simp at he
      · rw [hprev] at htmp
        constructor
        · intro hz
          subst hz
          have := link_ok_state io (nodeStep s1 t) p.thought_id t.id
            "temporal-successor" 1 (temporalPrev_ne _ _ hprev) htmp
          rw [this]
          rfl
        · intro e he
          subst he
          exact link_err_state io (nodeStep s1 t) p.thought_id t.id
            "temporal-successor" 1 false htmp
  cases terr with
  | some e =>
    refine ⟨[], List.nil_prefix, ?_, ?_⟩
    · rw [hadd, htmp]
      have h2 := hteparts.2 e rfl
      rw [List.append_nil]
      dsimp only
      rw [h2]
      rfl
    · intro hnone
      rw [hadd, htmp] at hnone
      simp at hnone
  | none =>
    have hs3 := hteparts.1 rfl
    have hs3d : s3.embedding_dim = (nodeStep s1 t).embedding_dim := by rw [hs3]
    have hs3i : s3.index = (nodeStep s1 t).index := by rw [hs3]
    have hs3t : s3.thoughts = (nodeStep s1 t).thoughts := by rw [hs3]
    by_cases hsn : sn ≤ 0
    · refine ⟨(match (if tl then temporalPrev (nodeStep s1 t) t else none) with
          | some prev => [⟨prev.thought_id, t.id, "temporal-successor", 1⟩]
          | none => []), ?_, ?_, ?_⟩
      · rw [plannedEdges, if_pos hsn]
        exact ⟨[], by simp⟩
      · rw [hadd, htmp]
        dsimp only
        rw [if_pos hsn]
        exact hs3
      · intro _
        rw [plannedEdges, if_pos hsn, List.append_nil]
    · rcases hss : semantic_search nrm (nodeStep s1 t) t.embedding_vector {}
          (sn + 5) 1 500 now with ⟨serr, nearest⟩
      have hss3 : semantic_search nrm s3 t.embedding_vector {} (sn + 5) 1 500 now
          = (serr, nearest) := by
        rw [semantic_search_state_inv nrm (nodeStep s1 t) s3 _ _ _ _ _ _
          hs3d hs3i hs3t, hss]
      have hplan : plannedEdges nrm (nodeStep s1 t) t sn thr tl now
          = (match (if tl then temporalPrev (nodeStep s1 t) t else none) with
             | some prev => [⟨prev.thought_id, t.id, "temporal-successor", 1⟩]
             | none => []) ++
            (if sn ≤ 0 then []
             else (nearest.filter fun it =>
                decide (it.thought.id ≠ t.id ∧ thr ≤ it.semantic_score)).map
              fun it => ⟨it.thought.id, t.id, "semantic-similarity",
                it.semantic_score⟩) := by
        rw [plannedEdges, hss]
      cases serr with
      | some e =>
        refine ⟨(match (if tl then temporalPrev (nodeStep s1 t) t else none) with
            | some prev => [⟨prev.thought_id, t.id, "temporal-successor", 1⟩]
            | none => []), ?_, ?_, ?_⟩
        · rw [hplan]
          exact ⟨_, rfl⟩
        · rw [hadd, htmp]
          dsimp only
          rw [if_neg hsn, hss3]
          exact hs3
        · intro hnone
          rw [hadd, htmp] at hnone
          dsimp only at hnone
          rw [if_neg hsn, hss3] at hnone
          simp at hnone
      | none =>
        obtain ⟨pre, hp1, hp2, hp3⟩ := semLinkGo_spec io t thr nearest s3
        refine ⟨(match (if tl then temporalPrev (nodeStep s1 t) t else none) with
            | some prev => [⟨prev.thought_id, t.id, "temporal-successor", 1⟩]
            | none => []) ++ pre, ?_, ?_, ?_⟩
        · rw [hplan, if_neg hsn]
          obtain ⟨u, hu⟩ := hp1
          exact ⟨u, by rw [List.append_assoc, hu]⟩
        · rw [hadd, htmp]
          dsimp only
          rw [if_neg hsn, hss3, hp2, hs3]
          simp [List.append_assoc]
        · intro hnone
          rw [hadd, htmp] at hnone
          dsimp only at hnone
          rw [if_neg hsn, hss3] at hnone
          rw [hp3 hnone, hplan, if_neg hsn]

/-- Claim C5, counterexample: on a store holding an opposite-direction
neighbor, `add_thought` with threshold `-2` commits the temporal edge in
its own transaction and then fails on the semantic edge (its score `-1`
is a negative weight), returning an error with the temporal edge visible
and the planned semantic edge absent: the edges of one call are not
atomic. -/
theorem claim_C5_counterexample :
    (add_thought id (fun _ => false) exStoreNode exB false 1 (-2) true 1).1
      = some "weight must be non-negative" ∧
    (add_thought id (fun _ => false) exStoreNode exB false 1 (-2) true 1).2.edges
      = [⟨"A", "B", "temporal-successor", 1⟩] ∧
    plannedEdges id (nodeStep exStoreNode exB) exB 1 (-2) true 1
      = [⟨"A", "B", "temporal-successor", 1⟩,
         ⟨"A", "B", "semantic-similarity", -1⟩] := by
  have hadd : add_thought id (fun _ => false) exStoreNode exB false 1 (-2) true 1
      = (some "weight must be non-negative",
         { exStoreNode with
             nodes := [⟨"A", "s", 0⟩, ⟨"B", "s", 1⟩],
             edges := [⟨"A", "B", "temporal-successor", 1⟩] }) := by
    norm_num +decide [add_thought, nodeStep, upsertBy, link_temporal_successor,
      temporalPrev, link, link_many, lmGo, semantic_search, VIndex.search, dotQ,
      sortD, insertDesc, semanticScored, semanticFiltered, rowMatchesFilters,
      sqlRowMatch, tagsAnyMatch, rowToThought, pyStrip, stripWS, semLinkGo,
      exStoreNode, exStore, exA, exB, get_thought_by_id, Int.toNat_ofNat]
  refine ⟨by rw [hadd], by rw [hadd], ?_⟩
  norm_num +decide [plannedEdges, nodeStep, upsertBy, temporalPrev,
    semantic_search, VIndex.search, dotQ, sortD, insertDesc, semanticScored,
    semanticFiltered, rowMatchesFilters, sqlRowMatch, tagsAnyMatch, rowToThought,
    pyStrip, stripWS, exStoreNode, exStore, exA, exB, Int.toNat_ofNat]

/-- Claim C5, witness for the amended theorem: concrete `add_thought`
call (no semantic neighbors requested), the persisted edges are a prefix
of the planned ones. -/
theorem claim_C5_witness :
    ∃ pre,
      pre <+: plannedEdges id (nodeStep exStoreNode exB) exB 0 0 true 1 ∧
      (add_thought id (fun _ => false) exStoreNode exB false 0 0 true 1).2
        = { nodeStep exStoreNode exB with edges := exStoreNode.edges ++ pre } ∧
      ((add_thought id (fun _ => false) exStoreNode exB false 0 0 true 1).1 = none →
        pre = plannedEdges id (nodeStep exStoreNode exB) exB 0 0 true 1) :=
  claim_C5_amended id (fun _ => false) exStoreNode exStoreNode exB false 0 0 true 1
    (by decide)

/-! ### Claim C6 — recall graph-expansion merge (corrected)

The merge in `recall_from_prior_sessions` keeps the FIRST writer per
thought id (`if nid in expanded: continue`), not the larger score: an id
already present in the semantic results keeps its semantic score even
when the decayed neighbor score is larger. -/

theorem expandStep_cases (s : StoreState) (lineage : List String) (it : ScoredThought)
    (exp2 : List (String × ScoredThought)) (nid : String) :
    expandStep s lineage it exp2 nid = exp2 ∨
    (exp2.any (fun p => p.1 = nid) = false ∧ ∃ th, get_thought_by_id s nid = some th ∧
      lineage.contains th.session_id = true ∧
      expandStep s lineage it exp2 nid
        = exp2 ++ [(nid, ⟨th, it.semantic_score * (17 / 20), it.recency_score,
            it.score * (17 / 20)⟩)]) := by
  rw [expandStep]
  by_cases h1 : exp2.any (fun p => p.1 = nid) = true
  · rw [if_pos h1]
    exact Or.inl rfl
  · rw [if_neg h1]
    rcases hg : get_thought_by_id s nid with _ | th
    · exact Or.inl rfl
    · dsimp only
      by_cases h2 : lineage.contains th.session_id = true
      · rw [if_pos h2]
        exact Or.inr ⟨(Bool.not_eq_true _).mp h1, th, rfl, h2, rfl⟩
      · rw [if_neg h2]
        exact Or.inl rfl

theorem expandFoldInner_mem (s : StoreState) (lineage : List String)
    (it : ScoredThought) :
    ∀ (nids : List String) (exp : List (String × ScoredThought))
      (p : String × ScoredThought),
      p ∈ nids.foldl (expandStep s lineage it) exp →
      p ∈ exp ∨ ∃ th, get_thought_by_id s p.1 = some th ∧
        lineage.contains th.session_id = true ∧
        p.2 = ⟨th, it.semantic_score * (17 / 20), it.recency_score,
          it.score * (17 / 20)⟩ := by
  intro nids
  induction nids with
  | nil => intro exp p hp; exact Or.inl hp
  | cons nid r ih =>
    intro exp p hp
    rw [List.foldl_cons] at hp
    rcases ih _ p hp with hmem | hshape
    · rcases expandStep_cases s lineage it exp nid with heq | ⟨-, th, hth, hcont, heq⟩
      · rw [heq] at hmem
        exact Or.inl hmem
      · rw [heq] at hmem
        rcases List.mem_append.mp hmem with h | h
        · exact Or.inl h
        · have hp2 : p = (nid, ⟨th, it.semantic_score * (17 / 20), it.recency_score,
              it.score * (17 / 20)⟩) := by simpa using h
          subst hp2
          exact Or.inr ⟨th, hth, hcont, rfl⟩
    · exact Or.inr hshape

theorem expandFoldOuter_mem (s : StoreState) (lineage : List String) (hops : ℤ) :
    ∀ (seeds : List ScoredThought) (exp : List (String × ScoredThought))
      (p : String × ScoredThought),
      p ∈ seeds.foldl (fun exp it => (neighbors s it.thought.id hops none 25).foldl
        (expandStep s lineage it) exp) exp →
      p ∈ exp ∨ ∃ it ∈ seeds, ∃ th, get_thought_by_id s p.1 = some th ∧
        lineage.contains th.session_id = true ∧
        p.2 = ⟨th, it.semantic_score * (17 / 20), it.recency_score,
          it.score * (17 / 20)⟩ := by
  intro seeds
  induction seeds with
  | nil => intro exp p hp; exact Or.inl hp
  | cons it r ih =>
    intro exp p hp
    rw [List.foldl_cons] at hp
    rcases ih _ p hp with hmem | ⟨it2, hit2, hshape⟩
    · rcases expandFoldInner_mem s lineage it _ exp p hmem with h | hshape
      · exact Or.inl h
      · exact Or.inr ⟨it, List.mem_cons_self _ _, hshape⟩
    · exact Or.inr ⟨it2, List.mem_cons_of_mem _ hit2, hshape⟩

theorem expandFoldInner_preserve (s : StoreState) (lineage : List String)
    (it : ScoredThought) (k : String) :
    ∀ (nids : List String) (exp : List (String × ScoredThought)),
      exp.any (fun p => p.1 = k) = true →
      (nids.foldl (expandStep s lineage it) exp).any (fun p => p.1 = k) = true ∧
      (nids.foldl (expandStep s lineage it) exp).find? (fun p => p.1 = k)
        = exp.find? (fun p => p.1 = k) := by
  intro nids
  induction nids with
  | nil => intro exp h; exact ⟨h, rfl⟩
  | cons nid r ih =>
    intro exp h
    rw [List.foldl_cons]
    have hstep : (expandStep s lineage it exp nid).any (fun p => p.1 = k) = true ∧
        (expandStep s lineage it exp nid).find? (fun p => p.1 = k)
          = exp.find? (fun p => p.1 = k) := by
      rcases expandStep_cases s lineage it exp nid with heq | ⟨-, th, -, -, heq⟩
      · rw [heq]
        exact ⟨h, rfl⟩
      · rw [heq]
        constructor
        · rw [List.any_append, h]
          rfl
        · rcases hf : exp.find? (fun p => p.1 = k) with _ | v
          · obtain ⟨x, hx, hxk⟩ := List.any_eq_true.mp h
            rw [List.find?_eq_none] at hf
            exact absurd hxk (by simpa using hf x hx)
          · rw [List.find?_append, hf]
            rfl
    obtain ⟨ha, hf⟩ := ih _ hstep.1
    exact ⟨ha, by rw [hf, hstep.2]⟩

theorem expandFoldOuter_preserve (s : StoreState) (lineage : List String) (hops : ℤ)
    (k : String) :
    ∀ (seeds : List ScoredThought) (exp : List (String × ScoredThought)),
      exp.any (fun p => p.1 = k) = true →
      (seeds.foldl (fun exp it => (neighbors s it.thought.id hops none 25).foldl
        (expandStep s lineage it) exp) exp).find? (fun p => p.1 = k)
        = exp.find? (fun p => p.1 = k) := by
  intro seeds
  induction seeds with
  | nil => intro exp _; rfl
  | cons it r ih =>
    intro exp h
    rw [List.foldl_cons]
    obtain ⟨ha, hf⟩ := expandFoldInner_preserve s lineage it k
      (neighbors s it.thought.id hops none 25) exp h
    rw [ih _ ha, hf]

/-- Claim C6, amended: with a graph and `graph_hops > 0` (lineage
non-empty, index search succeeding), `recall_from_prior_sessions` returns
the score-descending sort of the merged map truncated to `limit`, where
the merge keeps the FIRST writer per thought id — an id already present
in the semantic results keeps its semantic entry, and only ids absent
from the map receive the 0.85-decayed scores (`score` and
`semantic_score` multiplied by `17/20`, `recency_score` copied from the
seed that reached them). -/
theorem claim_C6_amended (nrm : List ℚ → List ℚ) (s : StoreState) (q : List ℚ)
    (current : String) (limit : ℤ) (alpha : ℚ) (hops : ℤ) (now : ℚ)
    (hg : 0 < hops)
    (hlin : ¬ (get_session_lineage s current false = []))
    (hok : (semantic_search nrm s q {} (max 30 (limit * 4)) alpha 500 now).1 = none) :
    recall_from_prior_sessions nrm s q current true limit alpha hops now
      = (none, pyTake limit (sortD (fun x => x.score)
          ((recallExpanded nrm s q (get_session_lineage s current false)
            limit alpha hops now).map fun p => p.2))) ∧
    (∀ k, ((recallSemL nrm s q (get_session_lineage s current false) limit alpha
          now).map (fun it => (it.thought.id, it))).any (fun p => p.1 = k) = true →
      (recallExpanded nrm s q (get_session_lineage s current false)
          limit alpha hops now).find? (fun p => p.1 = k)
        = ((recallSemL nrm s q (get_session_lineage s current false) limit alpha
            now).map (fun it => (it.thought.id, it))).find? (fun p => p.1 = k)) ∧
    (∀ p ∈ recallExpanded nrm s q (get_session_lineage s current false)
        limit alpha hops now,
      p ∈ (recallSemL nrm s q (get_session_lineage s current false) limit alpha
          now).map (fun it => (it.thought.id, it)) ∨
      ∃ it ∈ (recallSemL nrm s q (get_session_lineage s current false) limit alpha
          now).take 5, ∃ th, get_thought_by_id s p.1 = some th ∧
        (get_session_lineage s current false).contains th.session_id = true ∧
        p.2 = ⟨th, it.semantic_score * (17 / 20), it.recency_score,
          it.score * (17 / 20)⟩) := by
  refine ⟨?_, ?_, ?_⟩
  · rw [recall_from_prior_sessions]
    dsimp only
    rw [if_neg hlin]
    rcases hss : semantic_search nrm s q {} (max 30 (limit * 4)) alpha 500 now
      with ⟨serr, res0⟩
    cases serr with
    | some e =>
      rw [hss] at hok
      simp at hok
    | none =>
      dsimp only
      rw [if_neg (by simp [not_le.mpr hg])]
  · intro k hk
    rw [recallExpanded]
    exact expandFoldOuter_preserve s _ hops k _ _ hk
  · intro p hp
    rw [recallExpanded] at hp
    rcases expandFoldOuter_mem s _ hops _ _ p hp with h | ⟨it, hit, hshape⟩
    · exact Or.inl (by simpa using h)
    · exact Or.inr ⟨it, hit, hshape⟩

set_option maxHeartbeats 2000000 in
/-- Claim C6, counterexample: on the lineage fixture, thought `B` is both
a semantic result (score `0`) and a graph neighbor of the top seed `A`
(decayed score `17/20 · 1`).  Max-score merging would report `17/20`, but
the call returns `B` with score `0`: the merge keeps the first writer,
not the larger score. -/
theorem claim_C6_counterexample :
    (recall_from_prior_sessions id exLineageStore [1, 0] "child" true 10 1 1 0).2
      = [⟨exRootA, 1, 1, 1⟩, ⟨exRootB, 0, 1, 0⟩] ∧
    neighbors exLineageStore "A" 1 none 25 = ["B"] ∧
    (17 : ℚ) / 20 * 1 ≠ 0 := by
  refine ⟨?_, ?_, by norm_num⟩
  · norm_num +decide [recall_from_prior_sessions, get_session_lineage, lineageGo,
      get_session_parent, recallSemL, recallExpanded, expandStep, neighbors,
      neighborsGo, semantic_search, VIndex.search, dotQ, sortD, insertDesc,
      semanticScored, semanticFiltered, rowMatchesFilters, sqlRowMatch, tagsAnyMatch,
      rowToThought, pyStrip, stripWS, pyTake, get_thought_by_id, exLineageStore,
      exRootA, exRootB, Int.toNat_ofNat]
  · norm_num +decide [neighbors, neighborsGo, exLineageStore, Int.toNat_ofNat]

/-- Claim C6, witness for the amended theorem at the lineage fixture. -/
theorem claim_C6_witness :
    recall_from_prior_sessions id exLineageStore [1, 0] "child" true 10 1 1 0
      = (none, pyTake 10 (sortD (fun x => x.score)
          ((recallExpanded id exLineageStore [1, 0]
            (get_session_lineage exLineageStore "child" false) 10 1 1 0).map
            fun p => p.2))) ∧
    (∀ k, ((recallSemL id exLineageStore [1, 0]
          (get_session_lineage exLineageStore "child" false) 10 1
          0).map (fun it => (it.thought.id, it))).any (fun p => p.1 = k) = true →
      (recallExpanded id exLineageStore [1, 0]
          (get_session_lineage exLineageStore "child" false) 10 1 1 0).find?
          (fun p => p.1 = k)
        = ((recallSemL id exLineageStore [1, 0]
            (get_session_lineage exLineageStore "child" false) 10 1
            0).map (fun it => (it.thought.id, it))).find? (fun p => p.1 = k)) ∧
    (∀ p ∈ recallExpanded id exLineageStore [1, 0]
        (get_session_lineage exLineageStore "child" false) 10 1 1 0,
      p ∈ (recallSemL id exLineageStore [1, 0]
          (get_session_lineage exLineageStore "child" false) 10 1
          0).map (fun it => (it.thought.id, it)) ∨
      ∃ it ∈ (recallSemL id exLineageStore [1, 0]
          (get_session_lineage exLineageStore "child" false) 10 1
          0).take 5, ∃ th, get_thought_by_id exLineageStore p.1 = some th ∧
        (get_session_lineage exLineageStore "child" false).contains
          th.session_id = true ∧
        p.2 = ⟨th, it.semantic_score * (17 / 20), it.recency_score,
          it.score * (17 / 20)⟩) :=
  claim_C6_amended id exLineageStore [1, 0] "child" 10 1 1 0
    (by norm_num) (by decide) (by decide)

/-! ### Claim C4 — reflect parse/store behavior (corrected)

`create_session` runs before the "no parseable tags" early-out, so a
blank `current_session_id` raises even when the LLM output contains no
tags; on any run that returns a `ReflectionResult`, `stored_reflections`
is exactly the parse of the returned reflection text. -/

/-- Claim C4, amended: with a supported mode and a non-blank current
session id (and `reflection_session_id` unset), (a) whenever `reflect`
returns a `ReflectionResult`, no error was raised and
`stored_reflections` is exactly the list parsed from the returned
reflection text — at least one stored thought when at least one tag
parses, the empty list when none does; (b) when the LLM output never
contains a parseable tag and recall succeeds, the cycle completes without
raising and returns a result with empty `stored_reflections`.  Without
the non-blank-session hypothesis the no-raise half is false
(`create_session` raises before the no-tags early-out). -/
theorem claim_C4_amended (nrm : List ℚ → List ℚ) (io : ℕ → Bool)
    (freshId : ℕ → String) (pyFloat : String → Option ℚ) (fmtConf : ℚ → String)
    (embed : String → List ℚ) (s : StoreState) (hasGraph : Bool)
    (query csid mode : String) (topK : ℤ) (llmF : String → String) (now : ℚ)
    (hmode : ¬ (REFLECTION_TEMPLATES.lookup mode = none))
    (hsid : ¬ (pyStrip csid = "")) :
    (∀ e s2 r, reflect nrm io freshId pyFloat fmtConf embed s hasGraph query csid
        mode topK none (some llmF) now = (e, s2, some r) →
      e = none ∧
      r.stored_reflections
        = (parse_structured_thoughts freshId pyFloat r.reflection_text.data
            (if mode = "planning" then "plan" else "reflection") (9 / 10)).map
          (mkReflectThought embed mode csid now)) ∧
    ((∀ p, parse_structured_thoughts freshId pyFloat (llmF p).data
        (if mode = "planning" then "plan" else "reflection") (9 / 10) = []) →
     (semantic_search nrm s (embed query) { session_id := some csid }
        topK (19 / 20) 500 now).1 = none →
     (recall_from_prior_sessions nrm s (embed query) csid hasGraph
        topK (19 / 20) 1 now).1 = none →
      (reflect nrm io freshId pyFloat fmtConf embed s hasGraph query csid
          mode topK none (some llmF) now).1 = none ∧
      ∃ r, (reflect nrm io freshId pyFloat fmtConf embed s hasGraph query csid
          mode topK none (some llmF) now).2.2 = some r ∧
        r.stored_reflections = []) := by
  have hmode2 : ¬ ((REFLECTION_TEMPLATES.lookup mode).isNone = true) := by
    simpa [Option.isNone_iff_eq_none] using hmode
  constructor
  · intro e s2 r heq
    rw [reflect, if_neg hmode2] at heq
    dsimp only at heq
    iterate 16 (all_goals try split at heq)
    all_goals
      have h3 := congrArg (fun x : Option String × StoreState × Option ReflectionResult
        => x.2.2) heq
    all_goals
      have he := congrArg (fun x : Option String × StoreState × Option ReflectionResult
        => x.1) heq
    all_goals dsimp only at h3 he
    all_goals
      first
      | exact Option.noConfusion h3
      | (injection h3 with h4
         exact ⟨he.symm, by rw [← h4] <;> (split <;> simp_all)⟩)
  · intro hllm hss hrc
    rcases hseq : semantic_search nrm s (embed query)
        { session_id := some csid } topK (19 / 20) 500 now with ⟨serr, currentHits⟩
    have hserr : serr = none := by
      rw [hseq] at hss
      simpa using hss
    subst hserr
    rcases hrceq : recall_from_prior_sessions nrm s (embed query) csid hasGraph
        topK (19 / 20) 1 now with ⟨rerr, priorHits⟩
    have hrerr : rerr = none := by
      rw [hrceq] at hrc
      simpa using hrc
    subst hrerr
    rcases hcseq : create_session s csid none with ⟨cserr, s1⟩
    have hcserr : cserr = none := by
      have h0 : (create_session s csid none).1 = none := by
        rw [create_session, if_neg hsid]
      rw [hcseq] at h0
      simpa using h0
    subst hcserr
    rw [reflect, if_neg hmode2]
    dsimp only
    rw [hseq]
    dsimp only
    rw [hrceq]
    dsimp only
    rw [hcseq]
    dsimp only
    rw [hllm]
    simp only [List.map_nil]
    rw [if_neg (by simp), if_neg (by simp)]
    dsimp only
    cases hasGraph with
    | false =>
      rw [if_neg (by simp)]
      dsimp only
      exact ⟨rfl, _, rfl, rfl⟩
    | true =>
      rw [if_pos rfl, reflectGraphGo]
      dsimp only
      rw [if_neg (by simp)]
      dsimp only
      exact ⟨rfl, _, rfl, rfl⟩

/-- Claim C4, counterexample: with a supported mode and an LLM whose
output contains no parseable tag, `reflect` on a blank
`current_session_id` raises `create_session`'s validation error and
returns no `ReflectionResult` — the no-tags cycle is not raise-free. -/
theorem claim_C4_counterexample :
    reflect id (fun _ => false) (fun _ => "") (fun _ => none) (fun _ => "")
        (fun _ => [1]) (initState 1) false "" "" "reasoning" 1 none
        (some fun _ => "no tags here") 0
      = (some "session_id must be non-empty", initState 1, none) ∧
    parse_structured_thoughts (fun _ => "") (fun _ => none)
        ("no tags here".data) "reflection" (9 / 10) = [] := by
  constructor
  · have hs : semantic_search id (initState 1) [1] { session_id := some "" }
        1 (19 / 20) 500 0 = (none, []) := by
      rw [semantic_search, if_neg (by norm_num)]
      rw [show VIndex.search id (initState 1).embedding_dim (initState 1).index [1]
          (max (1 * 10) (min 500 1000)) = (none, []) from by decide]
      dsimp only
      simp [semanticScored, semanticFiltered, sortD, initState]
    have hrc : recall_from_prior_sessions id (initState 1) [1] "" false
        1 (19 / 20) 1 0 = (none, []) := by
      rw [recall_from_prior_sessions]
      dsimp only
      rw [if_pos (by decide)]
    rw [reflect, if_neg (by decide)]
    dsimp only
    rw [hs]
    dsimp only
    rw [hrc]
    dsimp only
    rw [show create_session (initState 1) "" none
        = (some "session_id must be non-empty", initState 1) from by decide]
  · decide

/-- Claim C4, witness for the amended theorem at concrete arguments
(supported mode `"reasoning"`, session `"s"`). -/
theorem claim_C4_witness :
    (∀ e s2 r, reflect id (fun _ => false) (fun _ => "") (fun _ => none)
        (fun _ => "") (fun _ => [1]) (initState 1) false "" "s" "reasoning" 1 none
        (some fun _ => "x") 0 = (e, s2, some r) →
      e = none ∧
      r.stored_reflections
        = (parse_structured_thoughts (fun _ => "") (fun _ => none)
            r.reflection_text.data
            (if "reasoning" = "planning" then "plan" else "reflection") (9 / 10)).map
          (mkReflectThought (fun _ => [1]) "reasoning" "s" 0)) ∧
    ((∀ p, parse_structured_thoughts (fun _ => "") (fun _ => none)
        (((fun _ => "x") : String → String) p).data
        (if "reasoning" = "planning" then "plan" else "reflection") (9 / 10) = []) →
     (semantic_search id (initState 1) ((fun _ => [1]) "") { session_id := some "s" }
        1 (19 / 20) 500 0).1 = none →
     (recall_from_prior_sessions id (initState 1) ((fun _ => [1]) "") "s" false
        1 (19 / 20) 1 0).1 = none →
      (reflect id (fun _ => false) (fun _ => "") (fun _ => none) (fun _ => "")
          (fun _ => [1]) (initState 1) false "" "s" "reasoning" 1 none
          (some fun _ => "x") 0).1 = none ∧
      ∃ r, (reflect id (fun _ => false) (fun _ => "") (fun _ => none) (fun _ => "")
          (fun _ => [1]) (initState 1) false "" "s" "reasoning" 1 none
          (some fun _ => "x") 0).2.2 = some r ∧
        r.stored_reflections = []) :=
  claim_C4_amended id (fun _ => false) (fun _ => "") (fun _ => none) (fun _ => "")
    (fun _ => [1]) (initState 1) false "" "s" "reasoning" 1 (fun _ => "x") 0
    (by decide) (by decide)

/-! ### Claim C7 — parser key subset (corrected)

The regex parser can produce MORE keys than the linear parser (its
non-greedy match stops at the first `]` and resumes, splitting one
balanced span into several matches), so the claimed inclusion
`regex ⊆ linear` fails; the reverse inclusion holds unconditionally. -/

theorem splitRB_spec :
    ∀ (l u rest : List Char), splitRB l = some (u, rest) →
      l = u ++ rest ∧ ∃ w, u = w ++ [']'] := by
  intro l
  induction l with
  | nil => intro u rest h; exact absurd h (by simp [splitRB])
  | cons c r ih =>
    intro u rest h
    rw [splitRB] at h
    by_cases hc : c = ']'
    · rw [if_pos hc] at h
      simp only [Option.some.injEq, Prod.mk.injEq] at h
      subst hc
      rw [← h.1, ← h.2]
      exact ⟨rfl, [], rfl⟩
    · rw [if_neg hc] at h
      rcases hs : splitRB r with _ | ⟨u2, rest2⟩
      · rw [hs] at h
        simp at h
      · rw [hs] at h
        simp only [Option.map_some', Option.some.injEq, Prod.mk.injEq] at h
        obtain ⟨h1, h2⟩ := h
        obtain ⟨hr, w, hw⟩ := ih u2 rest2 hs
        subst h2
        rw [← h1, hr, hw]
        exact ⟨rfl, c :: w, rfl⟩

theorem splitRB_none_iff : ∀ (l : List Char), splitRB l = none ↔ ']' ∉ l := by
  intro l
  induction l with
  | nil => simp [splitRB]
  | cons c r ih =>
    rw [splitRB]
    by_cases hc : c = ']'
    · subst hc
      simp
    · rw [if_neg hc]
      rcases hs : splitRB r with _ | p
      · simp only [Option.map_none']
        rw [hs] at ih
        simp [hc, Ne.symm hc, ih.mp rfl]
      · simp only [Option.map_some']
        constructor
        · intro h; exact absurd h (by simp)
        · intro h
          rw [List.mem_cons, not_or] at h
          have h2 := ih.mpr h.2
          rw [hs] at h2
          exact absurd h2 (by simp)

theorem splitRB_first :
    ∀ (x u rest s : List Char), splitRB x = some (u, rest) →
      (']' :: s) <:+ x → s <:+ rest := by
  intro x
  induction x with
  | nil => intro u rest s h hs; exact absurd h (by simp [splitRB])
  | cons c r ih =>
    intro u rest s h hs
    rw [splitRB] at h
    rcases hs with ⟨w, hw⟩
    by_cases hc : c = ']'
    · rw [if_pos hc] at h
      simp only [Option.some.injEq, Prod.mk.injEq] at h
      rcases w with _ | ⟨a, w'⟩
      · simp only [List.nil_append] at hw
        injection hw with _ hw2
        rw [← h.2, ← hw2]
      · injection hw with _ hw2
        rw [← h.2]
        exact (List.suffix_cons ']' s).trans ⟨w', hw2⟩
    · rw [if_neg hc] at h
      rcases hsp : splitRB r with _ | ⟨u2, rest2⟩
      · rw [hsp] at h; simp at h
      · rw [hsp] at h
        simp only [Option.map_some', Option.some.injEq, Prod.mk.injEq] at h
        rcases w with _ | ⟨a, w'⟩
        · simp only [List.nil_append] at hw
          injection hw with hw1
          exact absurd hw1.symm hc
        · injection hw with _ hw2
          rw [← h.2]
          exact ih u2 rest2 s hsp ⟨w', hw2⟩

theorem suffix_of_suffix_le (s1 s2 l : List Char) (h1 : s1 <:+ l) (h2 : s2 <:+ l)
    (hle : s1.length ≤ s2.length) : s1 <:+ s2 := by
  rw [← List.reverse_prefix] at h1 h2 ⊢
  exact List.prefix_of_prefix_length_le h1 h2 (by simpa using hle)

theorem findR_struct (tg : List Char) :
    ∀ (l c rest : List Char), findR tg l = some (c, rest) →
      ∃ pre w, l = pre ++ marker tg ++ w ++ ']' :: rest := by
  intro l
  induction l with
  | nil => intro c rest h; exact absurd h (by simp [findR])
  | cons a r ih =>
    intro c rest h
    rw [findR] at h
    by_cases hp : (marker tg).isPrefixOf (a :: r) = true
    · rw [if_pos hp] at h
      obtain ⟨t, ht⟩ := List.isPrefixOf_iff_prefix.mp hp
      have hdrop : (a :: r).drop (marker tg).length = t := by
        rw [← ht, List.drop_left]
      rw [hdrop] at h
      rcases hs : splitRB t with _ | ⟨u, rest2⟩
      · rw [hs] at h; simp at h
      · rw [hs] at h
        simp only [Option.some.injEq, Prod.mk.injEq] at h
        obtain ⟨hsp, w, hw⟩ := splitRB_spec t u rest2 hs
        refine ⟨[], w, ?_⟩
        rw [List.nil_append, ← h.2, ← ht, hsp, hw]
        simp
    · rw [if_neg hp] at h
      obtain ⟨pre, w, hpre⟩ := ih c rest h
      exact ⟨a :: pre, w, by rw [hpre]; simp [List.append_assoc]⟩

theorem findR_prepend (tg : List Char) :
    ∀ (v r c restR : List Char), findR tg r = some (c, restR) →
      ∃ c2 restR2, findR tg (v ++ r) = some (c2, restR2) ∧ restR <:+ restR2 := by
  intro v
  induction v with
  | nil => intro r c restR h; exact ⟨c, restR, by simpa using h, List.suffix_rfl⟩
  | cons a v' ih =>
    intro r c restR h
    obtain ⟨c2, restR2, h2, hsuf⟩ := ih r c restR h
    rw [show (a :: v') ++ r = a :: (v' ++ r) from rfl]
    by_cases hp : (marker tg).isPrefixOf (a :: (v' ++ r)) = true
    · obtain ⟨pre2, w, hstruct⟩ := findR_struct tg (v' ++ r) c2 restR2 h2
      have hsufRB : (']' :: restR2) <:+ (a :: (v' ++ r)).drop (marker tg).length := by
        apply suffix_of_suffix_le _ _ (a :: (v' ++ r))
        · exact ⟨a :: (pre2 ++ marker tg ++ w), by rw [hstruct]; simp [List.append_assoc]⟩
        · exact List.drop_suffix _ _
        · rw [List.length_drop]
          have hlen := congrArg List.length hstruct
          simp only [List.length_append, List.length_cons] at hlen
          simp only [List.length_cons, List.length_append]
          omega
      rcases hsp : splitRB ((a :: (v' ++ r)).drop (marker tg).length)
        with _ | ⟨u3, rest3⟩
      · exfalso
        obtain ⟨w2, hw2⟩ := hsufRB
        have hmem : ']' ∈ (a :: (v' ++ r)).drop (marker tg).length := by
          rw [← hw2]
          simp
        exact absurd hmem ((splitRB_none_iff _).mp hsp)
      · refine ⟨u3.dropLast, rest3, ?_, ?_⟩
        · rw [findR, if_pos hp, hsp]
        · exact hsuf.trans (splitRB_first _ u3 rest3 restR2 hsp hsufRB)
    · refine ⟨c2, restR2, ?_, hsuf⟩
      rw [findR, if_neg hp]
      exact h2

theorem scanSplit_spec :
    ∀ (x : List Char) (d : ℕ) (u rest : List Char), scanSplit x d = some (u, rest) →
      x = u ++ rest ∧ ∃ w, u = w ++ [']'] := by
  intro x
  induction x with
  | nil => intro d u rest h; exact absurd h (by simp [scanSplit])
  | cons c r ih =>
    intro d u rest h
    rw [scanSplit] at h
    by_cases h1 : c = '['
    · rw [if_pos h1] at h
      rcases hs : scanSplit r (d + 1) with _ | ⟨u2, rest2⟩
      · rw [hs] at h; simp at h
      · rw [hs] at h
        simp only [Option.map_some', Option.some.injEq, Prod.mk.injEq] at h
        obtain ⟨hr, w, hw⟩ := ih (d + 1) u2 rest2 hs
        subst h1
        rw [← h.1, ← h.2, hr, hw]
        exact ⟨rfl, '[' :: w, rfl⟩
    · rw [if_neg h1] at h
      by_cases h2 : c = ']'
      · rw [if_pos h2] at h
        by_cases h3 : d = 1
        · rw [if_pos h3] at h
          simp only [Option.some.injEq, Prod.mk.injEq] at h
          subst h2
          rw [← h.1, ← h.2]
          exact ⟨rfl, [], rfl⟩
        · rw [if_neg h3] at h
          rcases hs : scanSplit r (d - 1) with _ | ⟨u2, rest2⟩
          · rw [hs] at h; simp at h
          · rw [hs] at h
            simp only [Option.map_some', Option.some.injEq, Prod.mk.injEq] at h
            obtain ⟨hr, w, hw⟩ := ih (d - 1) u2 rest2 hs
            subst h2
            rw [← h.1, ← h.2, hr, hw]
            exact ⟨rfl, ']' :: w, rfl⟩
      · rw [if_neg h2] at h
        rcases hs : scanSplit r d with _ | ⟨u2, rest2⟩
        · rw [hs] at h; simp at h
        · rw [hs] at h
          simp only [Option.map_some', Option.some.injEq, Prod.mk.injEq] at h
          obtain ⟨hr, w, hw⟩ := ih d u2 rest2 hs
          rw [← h.1, ← h.2, hr, hw]
          exact ⟨rfl, c :: w, rfl⟩

theorem findLin_struct (tg : List Char) :
    ∀ (l pre mid rest : List Char), findLin tg l = some (pre, mid, rest) →
      l = pre ++ mid ++ rest ∧ ∃ w, mid = marker tg ++ w ++ [']'] := by
  intro l
  induction l with
  | nil => intro pre mid rest h; exact absurd h (by simp [findLin])
  | cons a r ih =>
    intro pre mid rest h
    rw [findLin] at h
    by_cases hp : (marker tg).isPrefixOf (a :: r) = true
    · rw [if_pos hp] at h
      obtain ⟨t, ht⟩ := List.isPrefixOf_iff_prefix.mp hp
      have hdrop : (a :: r).drop (marker tg).length = t := by
        rw [← ht, List.drop_left]
      rw [hdrop] at h
      rcases hs : scanSplit t 1 with _ | ⟨u, rest2⟩
      · rw [hs] at h
        rcases hfl : findLin tg r with _ | ⟨p1, p2, p3⟩
        · rw [hfl] at h; simp at h
        · rw [hfl] at h
          simp only [Option.map_some', Option.some.injEq, Prod.mk.injEq] at h
          obtain ⟨hr, w, hw⟩ := ih p1 p2 p3 hfl
          rw [← h.1, ← h.2.1, ← h.2.2, hr]
          exact ⟨by simp, w, hw⟩
      · rw [hs] at h
        simp only [Option.some.injEq, Prod.mk.injEq] at h
        obtain ⟨hx, w, hw⟩ := scanSplit_spec t 1 u rest2 hs
        rw [← h.1, ← h.2.1, ← h.2.2, ← ht, hx]
        refine ⟨by simp, w, by rw [hw, List.append_assoc]⟩
    · rw [if_neg hp] at h
      rcases hfl : findLin tg r with _ | ⟨p1, p2, p3⟩
      · rw [hfl] at h; simp at h
      · rw [hfl] at h
        simp only [Option.map_some', Option.some.injEq, Prod.mk.injEq] at h
        obtain ⟨hr, w, hw⟩ := ih p1 p2 p3 hfl
        rw [← h.1, ← h.2.1, ← h.2.2, hr]
        exact ⟨by simp, w, hw⟩

theorem findLin_to_findR (tg : List Char) :
    ∀ (l pre mid restL : List Char), findLin tg l = some (pre, mid, restL) →
      ∃ c restR, findR tg l = some (c, restR) ∧ restL <:+ restR := by
  intro l
  induction l with
  | nil => intro pre mid restL h; exact absurd h (by simp [findLin])
  | cons a r ih =>
    intro pre mid restL h
    rw [findLin] at h
    by_cases hp : (marker tg).isPrefixOf (a :: r) = true
    · rw [if_pos hp] at h
      rcases hs : scanSplit ((a :: r).drop (marker tg).length) 1 with _ | ⟨u, rest2⟩
      · rw [hs] at h
        rcases hfl : findLin tg r with _ | ⟨p1, p2, p3⟩
        · rw [hfl] at h; simp at h
        · rw [hfl] at h
          simp only [Option.map_some', Option.some.injEq, Prod.mk.injEq] at h
          obtain ⟨c2, restR2, hR, hsuf⟩ := ih p1 p2 p3 hfl
          obtain ⟨pre2, w, hstruct⟩ := findR_struct tg r c2 restR2 hR
          have hsufRB : (']' :: restR2) <:+ (a :: r).drop (marker tg).length := by
            apply suffix_of_suffix_le _ _ (a :: r)
            · exact ⟨a :: (pre2 ++ marker tg ++ w), by
                rw [hstruct]; simp [List.append_assoc]⟩
            · exact List.drop_suffix _ _
            · rw [List.length_drop]
              have hlen := congrArg List.length hstruct
              simp only [List.length_append, List.length_cons] at hlen
              simp only [List.length_cons, List.length_append]
              omega
          rcases hsp : splitRB ((a :: r).drop (marker tg).length) with _ | ⟨u3, rest3⟩
          · exfalso
            obtain ⟨w2, hw2⟩ := hsufRB
            have hmem : ']' ∈ (a :: r).drop (marker tg).length := by
              rw [← hw2]
              simp
            exact absurd hmem ((splitRB_none_iff _).mp hsp)
          · refine ⟨u3.dropLast, rest3, ?_, ?_⟩
            · rw [findR, if_pos hp, hsp]
            · rw [← h.2.2]
              exact hsuf.trans (splitRB_first _ u3 rest3 restR2 hsp hsufRB)
      · rw [hs] at h
        simp only [Option.some.injEq, Prod.mk.injEq] at h
        obtain ⟨hx, w, hw⟩ := scanSplit_spec _ 1 u rest2 hs
        have hsufRB : (']' :: rest2) <:+ (a :: r).drop (marker tg).length := by
          rw [hx, hw]
          exact ⟨w, by simp⟩
        rcases hsp : splitRB ((a :: r).drop (marker tg).length) with _ | ⟨u3, rest3⟩
        · exfalso
          obtain ⟨w2, hw2⟩ := hsufRB
          have hmem : ']' ∈ (a :: r).drop (marker tg).length := by
            rw [← hw2]
            simp
          exact absurd hmem ((splitRB_none_iff _).mp hsp)
        · refine ⟨u3.dropLast, rest3, ?_, ?_⟩
          · rw [findR, if_pos hp, hsp]
          · rw [← h.2.2]
            exact splitRB_first _ u3 rest3 rest2 hsp hsufRB
    · rw [if_neg hp] at h
      rcases hfl : findLin tg r with _ | ⟨p1, p2, p3⟩
      · rw [hfl] at h; simp at h
      · rw [hfl] at h
        simp only [Option.map_some', Option.some.injEq, Prod.mk.injEq] at h
        obtain ⟨c2, restR2, hR, hsuf⟩ := ih p1 p2 p3 hfl
        refine ⟨c2, restR2, ?_, ?_⟩
        · rw [findR, if_neg hp]
          exact hR
        · rw [← h.2.2]
          exact hsuf

theorem findR_rest_length (tg : List Char) (l c rest : List Char)
    (h : findR tg l = some (c, rest)) : rest.length < l.length := by
  obtain ⟨pre, w, hst⟩ := findR_struct tg l c rest h
  have hlen := congrArg List.length hst
  simp only [List.length_append, List.length_cons] at hlen
  omega

theorem findLin_rest_length (tg : List Char) (l pre mid rest : List Char)
    (h : findLin tg l = some (pre, mid, rest)) : rest.length < l.length := by
  obtain ⟨hst, w, hw⟩ := findLin_struct tg l pre mid rest h
  have hlen := congrArg List.length hst
  have hlen2 := congrArg List.length hw
  simp only [List.length_append, List.length_cons, marker, List.length_nil] at hlen hlen2
  omega

theorem contentsRGo_fuel (tg : List Char) :
    ∀ (n : ℕ) (l : List Char) (f : ℕ), l.length < f → l.length ≤ n →
      contentsRGo tg f l = contentsRGo tg (l.length + 1) l := by
  intro n
  induction n with
  | zero =>
    intro l f hf hn
    rcases f with _ | f2
    · exact absurd hf (by simp)
    · have hl : l = [] := List.length_eq_zero.mp (Nat.le_zero.mp hn)
      subst hl
      rw [contentsRGo, contentsRGo, show findR tg [] = none from rfl]
  | succ n ih =>
    intro l f hf hn
    rcases f with _ | f2
    · exact absurd hf (by simp)
    · rw [contentsRGo, contentsRGo]
      rcases hfr : findR tg l with _ | ⟨c, rest⟩
      · rfl
      · dsimp only
        have hlt := findR_rest_length tg l c rest hfr
        rw [ih rest f2 (by omega) (by omega), ih rest l.length (by omega) (by omega)]

theorem contentsR_eq (tg l : List Char) :
    contentsR tg l = match findR tg l with
      | none => []
      | some (c, rest) => c :: contentsR tg rest := by
  rw [contentsR, contentsRGo]
  rcases hfr : findR tg l with _ | ⟨c, rest⟩
  · rfl
  · dsimp only
    have hlt := findR_rest_length tg l c rest hfr
    rw [contentsRGo_fuel tg l.length rest l.length (by omega) (by omega)]
    rfl

theorem contentsLGo_fuel (tg : List Char) :
    ∀ (n : ℕ) (l : List Char) (f : ℕ), l.length < f → l.length ≤ n →
      contentsLGo tg f l = contentsLGo tg (l.length + 1) l := by
  intro n
  induction n with
  | zero =>
    intro l f hf hn
    rcases f with _ | f2
    · exact absurd hf (by simp)
    · have hl : l = [] := List.length_eq_zero.mp (Nat.le_zero.mp hn)
      subst hl
      rw [contentsLGo, contentsLGo, show findLin tg [] = none from rfl]
  | succ n ih =>
    intro l f hf hn
    rcases f with _ | f2
    · exact absurd hf (by simp)
    · rw [contentsLGo, contentsLGo]
      rcases hfl : findLin tg l with _ | ⟨p1, p2, p3⟩
      · rfl
      · dsimp only
        have hlt := findLin_rest_length tg l p1 p2 p3 hfl
        rw [ih p3 f2 (by omega) (by omega), ih p3 l.length (by omega) (by omega)]

theorem contentsL_eq (tg l : List Char) :
    contentsL tg l = match findLin tg l with
      | none => []
      | some (_, mid, rest) =>
        ((mid.drop (marker tg).length).dropLast) :: contentsL tg rest := by
  rw [contentsL, contentsLGo]
  rcases hfl : findLin tg l with _ | ⟨p1, p2, p3⟩
  · rfl
  · dsimp only
    have hlt := findLin_rest_length tg l p1 p2 p3 hfl
    rw [contentsLGo_fuel tg l.length p3 l.length (by omega) (by omega)]
    rfl

theorem countR_suffix_mono (tg : List Char) :
    ∀ (n : ℕ) (r2 r : List Char), r2.length ≤ n → r <:+ r2 →
      (contentsR tg r).length ≤ (contentsR tg r2).length := by
  intro n
  induction n with
  | zero =>
    intro r2 r hn hs
    have h2 : r2 = [] := List.length_eq_zero.mp (Nat.le_zero.mp hn)
    subst h2
    rw [List.suffix_nil.mp hs]
  | succ n ih =>
    intro r2 r hn hs
    rcases hfr : findR tg r with _ | ⟨c, restR⟩
    · rw [contentsR_eq tg r, hfr]
      simp
    · obtain ⟨v, hv⟩ := hs
      obtain ⟨c2, restR2, h2, hsuf2⟩ := findR_prepend tg v r c restR hfr
      rw [hv] at h2
      rw [contentsR_eq tg r, hfr, contentsR_eq tg r2, h2]
      simp only [List.length_cons, Nat.add_le_add_iff_right]
      refine ih restR2 restR ?_ hsuf2
      have := findR_rest_length tg r2 c2 restR2 h2
      omega

theorem countL_le_countR (tg : List Char) :
    ∀ (n : ℕ) (l : List Char), l.length ≤ n →
      (contentsL tg l).length ≤ (contentsR tg l).length := by
  intro n
  induction n with
  | zero =>
    intro l hn
    have h2 : l = [] := List.length_eq_zero.mp (Nat.le_zero.mp hn)
    subst h2
    rw [contentsL_eq, contentsR_eq, show findLin tg [] = none from rfl,
      show findR tg [] = none from rfl]
  | succ n ih =>
    intro l hn
    rcases hfl : findLin tg l with _ | ⟨p1, p2, p3⟩
    · rw [contentsL_eq tg l, hfl]
      simp
    · obtain ⟨c, restR, hR, hsuf⟩ := findLin_to_findR tg l p1 p2 p3 hfl
      rw [contentsL_eq tg l, hfl, contentsR_eq tg l, hR]
      simp only [List.length_cons, Nat.add_le_add_iff_right]
      have hlt := findLin_rest_length tg l p1 p2 p3 hfl
      have hltR := findR_rest_length tg l c restR hR
      calc (contentsL tg p3).length ≤ (contentsR tg p3).length := ih p3 (by omega)
        _ ≤ (contentsR tg restR).length :=
          countR_suffix_mono tg restR.length restR p3 le_rfl hsuf

/-- Claim C7, amended: the INCLUSION IS REVERSED — for every input (no
unclosed-tag hypothesis needed), the keys produced by the linear
bracket-balanced parser are a subset of the keys produced by the regex
parser, because the regex parser always finds at least as many matches
(its non-greedy match consumes at most as much input per match). -/
theorem claim_C7_amended (tg l : List Char) :
    ∀ k ∈ (parse_thought_tags_linear tg l).map Prod.fst,
      k ∈ (parse_thought_tags tg l).map Prod.fst := by
  intro k hk
  have hkeys : ∀ (xs : List (List Char)),
      ((xs.enum.map fun p => (pyKey tg p.1, String.mk (stripWS p.2))).map Prod.fst)
        = (List.range xs.length).map (pyKey tg) := by
    intro xs
    rw [List.map_map, ← List.enum_map_fst xs, List.map_map]
    rfl
  rw [parse_thought_tags_linear, hkeys] at hk
  rw [parse_thought_tags, hkeys]
  obtain ⟨i, hi, hik⟩ := List.mem_map.mp hk
  refine List.mem_map.mpr ⟨i, ?_, hik⟩
  rw [List.mem_range] at hi ⊢
  exact lt_of_lt_of_le hi (countL_le_countR tg l.length l le_rfl)

/-- Claim C7, counterexample: `"/thought[[]/thought[]]"` has no unclosed
tag, yet the regex parser yields the two keys `thought_0`, `thought_1`
while the linear parser yields only `thought_0` (the balanced scan
swallows the whole span in one match): the claimed inclusion
`regex ⊆ linear` fails. -/
theorem claim_C7_counterexample :
    hasUnclosed "thought".data "/thought[[]/thought[]]".data = false ∧
    "thought_1" ∈ (parse_thought_tags "thought".data
      "/thought[[]/thought[]]".data).map Prod.fst ∧
    "thought_1" ∉ (parse_thought_tags_linear "thought".data
      "/thought[[]/thought[]]".data).map Prod.fst := by
  decide

/-- Claim C7, witness for the amended inclusion at a concrete input. -/
theorem claim_C7_witness :
    "thought_0" ∈ (parse_thought_tags "thought".data "/thought[hi]".data).map
      Prod.fst :=
  claim_C7_amended "thought".data "/thought[hi]".data "thought_0" (by decide)


/-! ### Claim C8 — cleaner idempotence and parse-emptiness

Infrastructure part 1: fuel-irrelevance and one-step unfold lemmas for the
fueled cleaner passes, plus head-preservation and bracket-subsequence
facts used to transport the marker invariants through the passes. -/

theorem len_dW_le (p : Char → Bool) (l : List Char) :
    (l.dropWhile p).length ≤ l.length := by
  induction l with
  | nil => simp
  | cons c r ih =>
    rw [List.dropWhile_cons]
    by_cases hc : p c = true
    · rw [if_pos hc]
      simp only [List.length_cons]
      omega
    · rw [if_neg hc]

theorem dropAGo_fuel :
    ∀ (n : ℕ) (l : List Char) (f : ℕ), l.length < f → l.length ≤ n →
      dropAGo f l = dropAGo (l.length + 1) l := by
  intro n
  induction n with
  | zero =>
    intro l f hf hn
    have hl : l = [] := List.length_eq_zero.mp (Nat.le_zero.mp hn)
    subst hl
    rcases f with _ | f2
    · exact absurd hf (by simp)
    · rfl
  | succ n ih =>
    intro l f hf hn
    rcases f with _ | f2
    · exact absurd hf (by simp)
    · rcases l with _ | ⟨c, r⟩
      · rfl
      · simp only [List.length_cons] at hf hn ⊢
        rw [dropAGo, dropAGo]
        have h1 : (r.dropWhile isHWS).length ≤ r.length := len_dW_le _ _
        by_cases hc : c = '\n'
        · rw [if_pos hc, if_pos hc,
            ih (r.dropWhile isHWS) f2 (by omega) (by omega),
            ih (r.dropWhile isHWS) (r.length + 1) (by omega) (by omega)]
        · rw [if_neg hc, if_neg hc, ih r f2 (by omega) (by omega),
            ih r (r.length + 1) (by omega) (by omega)]

theorem dropA_cons (c : Char) (r : List Char) :
    dropA (c :: r) = if c = '\n' then '\n' :: dropA (r.dropWhile isHWS)
      else c :: dropA r := by
  rw [dropA]
  simp only [List.length_cons]
  rw [dropAGo]
  have h1 : (r.dropWhile isHWS).length ≤ r.length := len_dW_le _ _
  by_cases hc : c = '\n'
  · rw [if_pos hc, if_pos hc,
      dropAGo_fuel r.length (r.dropWhile isHWS) (r.length + 1) (by omega) h1]
    rfl
  · rw [if_neg hc, if_neg hc,
      dropAGo_fuel r.length r (r.length + 1) (by omega) le_rfl]
    rfl

theorem dropBGo_fuel :
    ∀ (n : ℕ) (l : List Char) (f : ℕ), l.length < f → l.length ≤ n →
      dropBGo f l = dropBGo (l.length + 1) l := by
  intro n
  induction n with
  | zero =>
    intro l f hf hn
    have hl : l = [] := List.length_eq_zero.mp (Nat.le_zero.mp hn)
    subst hl
    rcases f with _ | f2
    · exact absurd hf (by simp)
    · rfl
  | succ n ih =>
    intro l f hf hn
    rcases f with _ | f2
    · exact absurd hf (by simp)
    · rcases l with _ | ⟨c, r⟩
      · rfl
      · simp only [List.length_cons] at hf hn ⊢
        rw [dropBGo, dropBGo]
        dsimp only
        by_cases hc : isHWS c = true
        · rw [if_pos hc, if_pos hc, List.dropWhile_cons_of_pos hc]
          have h1 : (r.dropWhile isHWS).length ≤ r.length := len_dW_le _ _
          by_cases hh : (r.dropWhile isHWS).head? = some '\n'
          · rw [if_pos hh, if_pos hh,
              ih (r.dropWhile isHWS) f2 (by omega) (by omega),
              ih (r.dropWhile isHWS) (r.length + 1) (by omega) (by omega)]
          · rw [if_neg hh, if_neg hh,
              ih (r.dropWhile isHWS) f2 (by omega) (by omega),
              ih (r.dropWhile isHWS) (r.length + 1) (by omega) (by omega)]
        · rw [if_neg hc, if_neg hc, ih r f2 (by omega) (by omega),
            ih r (r.length + 1) (by omega) (by omega)]

theorem dropB_cons (c : Char) (r : List Char) :
    dropB (c :: r) = if isHWS c then
      (if (r.dropWhile isHWS).head? = some '\n' then dropB (r.dropWhile isHWS)
       else (c :: r).takeWhile isHWS ++ dropB (r.dropWhile isHWS))
    else c :: dropB r := by
  rw [dropB]
  simp only [List.length_cons]
  rw [dropBGo]
  dsimp only
  have h1 : (r.dropWhile isHWS).length ≤ r.length := len_dW_le _ _
  by_cases hc : isHWS c = true
  · rw [if_pos hc, if_pos hc, List.dropWhile_cons_of_pos hc]
    by_cases hh : (r.dropWhile isHWS).head? = some '\n'
    · rw [if_pos hh, if_pos hh,
        dropBGo_fuel r.length (r.dropWhile isHWS) (r.length + 1) (by omega) h1]
      rfl
    · rw [if_neg hh, if_neg hh,
        dropBGo_fuel r.length (r.dropWhile isHWS) (r.length + 1) (by omega) h1]
      rfl
  · rw [if_neg hc, if_neg hc,
      dropBGo_fuel r.length r (r.length + 1) (by omega) le_rfl]
    rfl

theorem c3Go_fuel :
    ∀ (n : ℕ) (l : List Char) (f : ℕ), l.length < f → l.length ≤ n →
      c3Go f l = c3Go (l.length + 1) l := by
  intro n
  induction n with
  | zero =>
    intro l f hf hn
    have hl : l = [] := List.length_eq_zero.mp (Nat.le_zero.mp hn)
    subst hl
    rcases f with _ | f2
    · exact absurd hf (by simp)
    · rfl
  | succ n ih =>
    intro l f hf hn
    rcases f with _ | f2
    · exact absurd hf (by simp)
    · rcases l with _ | ⟨c, r⟩
      · rfl
      · simp only [List.length_cons] at hf hn ⊢
        rw [c3Go, c3Go]
        dsimp only
        have h1 : (r.dropWhile (· = '\n')).length ≤ r.length := len_dW_le _ _
        by_cases hc : c = '\n'
        · rw [if_pos hc, if_pos hc,
            ih (r.dropWhile (· = '\n')) f2 (by omega) (by omega),
            ih (r.dropWhile (· = '\n')) (r.length + 1) (by omega) (by omega)]
        · rw [if_neg hc, if_neg hc, ih r f2 (by omega) (by omega),
            ih r (r.length + 1) (by omega) (by omega)]

theorem c3_cons (c : Char) (r : List Char) :
    c3 (c :: r) = if c = '\n' then
      List.replicate (min ((r.takeWhile (· = '\n')).length + 1) 2) '\n' ++
        c3 (r.dropWhile (· = '\n'))
    else c :: c3 r := by
  rw [c3]
  simp only [List.length_cons]
  rw [c3Go]
  dsimp only
  have h1 : (r.dropWhile (· = '\n')).length ≤ r.length := len_dW_le _ _
  by_cases hc : c = '\n'
  · rw [if_pos hc, if_pos hc,
      c3Go_fuel r.length (r.dropWhile (· = '\n')) (r.length + 1) (by omega) h1]
    rfl
  · rw [if_neg hc, if_neg hc, c3Go_fuel r.length r (r.length + 1) (by omega) le_rfl]
    rfl

theorem dropA_head (l : List Char) : (dropA l).head? = l.head? := by
  rcases l with _ | ⟨c, r⟩
  · rfl
  · rw [dropA_cons]
    by_cases hc : c = '\n'
    · rw [if_pos hc, hc]
      rfl
    · rw [if_neg hc]
      rfl

theorem c3_head (l : List Char) : (c3 l).head? = l.head? := by
  rcases l with _ | ⟨c, r⟩
  · rfl
  · rw [c3_cons]
    by_cases hc : c = '\n'
    · rw [if_pos hc, hc]
      obtain ⟨k, hk⟩ : ∃ k, min ((r.takeWhile (· = '\n')).length + 1) 2 = k + 1 :=
        ⟨min ((r.takeWhile (· = '\n')).length + 1) 2 - 1, by omega⟩
      rw [hk, List.replicate_succ]
      rfl
    · rw [if_neg hc]
      rfl

theorem dropB_head (l : List Char) (x : Char) (hx : l.head? = some x)
    (hws : isHWS x = false) : (dropB l).head? = some x := by
  rcases l with _ | ⟨c, r⟩
  · simp at hx
  · injection hx with hx
    subst hx
    rw [dropB_cons, if_neg (by simp [hws])]
    rfl

theorem filterBr_cons (c : Char) (l : List Char) :
    filterBr (c :: l) = if isBr c then c :: filterBr l else filterBr l := by
  rw [filterBr, List.filter_cons]
  by_cases hc : isBr c = true
  · rw [if_pos hc, if_pos hc]
    rfl
  · rw [if_neg hc, if_neg hc]
    rfl

theorem filterBr_append (a b : List Char) :
    filterBr (a ++ b) = filterBr a ++ filterBr b := by
  simp only [filterBr, List.filter_append]

theorem filterBr_eq_nil (l : List Char) (h : ∀ c ∈ l, isBr c = false) :
    filterBr l = [] := by
  simp only [filterBr]
  rw [List.filter_eq_nil_iff]
  intro a ha
  simp [h a ha]

theorem isHWS_pyws (c : Char) (h : isHWS c = true) : isPyWS c = true := by
  simp only [isHWS, Bool.or_eq_true, decide_eq_true_eq] at h
  rcases h with h | h <;> subst h <;> decide

theorem isPyWS_not_br (c : Char) (h : isPyWS c = true) : isBr c = false := by
  simp only [isPyWS, Bool.or_eq_true, decide_eq_true_eq] at h
  rcases h with ((((h | h) | h) | h) | h) | h <;> subst h <;> decide

theorem isPyWS_not_marker_head (h : isPyWS '/' = false) : True := trivial

theorem filterBr_dW_hws (r : List Char) :
    filterBr (r.dropWhile isHWS) = filterBr r := by
  conv_rhs => rw [← List.takeWhile_append_dropWhile (p := isHWS) (l := r)]
  rw [filterBr_append,
    filterBr_eq_nil (r.takeWhile isHWS)
      (fun a ha => isPyWS_not_br a (isHWS_pyws a (List.mem_takeWhile_imp ha))),
    List.nil_append]

theorem filterBr_dW_nl (r : List Char) :
    filterBr (r.dropWhile (· = '\n')) = filterBr r := by
  conv_rhs => rw [← List.takeWhile_append_dropWhile (p := (· = '\n')) (l := r)]
  rw [filterBr_append,
    filterBr_eq_nil (r.takeWhile (· = '\n')) (fun a ha => by
      have := List.mem_takeWhile_imp ha
      simp only [decide_eq_true_eq] at this
      subst this
      decide),
    List.nil_append]

theorem filterBr_dropA : ∀ (n : ℕ) (l : List Char), l.length ≤ n →
    filterBr (dropA l) = filterBr l := by
  intro n
  induction n with
  | zero =>
    intro l hn
    have hl : l = [] := List.length_eq_zero.mp (Nat.le_zero.mp hn)
    subst hl
    rfl
  | succ n ih =>
    intro l hn
    rcases l with _ | ⟨c, r⟩
    · rfl
    · simp only [List.length_cons] at hn
      rw [dropA_cons]
      by_cases hc : c = '\n'
      · subst hc
        rw [if_pos rfl, filterBr_cons, filterBr_cons,
          if_neg (by decide : ¬isBr '\n' = true), if_neg (by decide : ¬isBr '\n' = true),
          ih (r.dropWhile isHWS) (le_trans (len_dW_le _ _) (by omega)),
          filterBr_dW_hws]
      · rw [if_neg hc, filterBr_cons, filterBr_cons, ih r (by omega)]

theorem filterBr_dropB : ∀ (n : ℕ) (l : List Char), l.length ≤ n →
    filterBr (dropB l) = filterBr l := by
  intro n
  induction n with
  | zero =>
    intro l hn
    have hl : l = [] := List.length_eq_zero.mp (Nat.le_zero.mp hn)
    subst hl
    rfl
  | succ n ih =>
    intro l hn
    rcases l with _ | ⟨c, r⟩
    · rfl
    · simp only [List.length_cons] at hn
      rw [dropB_cons]
      by_cases hc : isHWS c = true
      · rw [if_pos hc]
        have hrec := ih (r.dropWhile isHWS) (le_trans (len_dW_le _ _) (by omega))
        have hdw : filterBr (r.dropWhile isHWS) = filterBr (c :: r) := by
          rw [filterBr_dW_hws, filterBr_cons,
            if_neg (by simp [isPyWS_not_br c (isHWS_pyws c hc)])]
        by_cases hh : (r.dropWhile isHWS).head? = some '\n'
        · rw [if_pos hh, hrec, hdw]
        · rw [if_neg hh, filterBr_append,
            filterBr_eq_nil ((c :: r).takeWhile isHWS)
              (fun a ha => isPyWS_not_br a (isHWS_pyws a (List.mem_takeWhile_imp ha))),
            List.nil_append, hrec, hdw]
      · rw [if_neg hc, filterBr_cons, filterBr_cons, ih r (by omega)]

theorem filterBr_c3 : ∀ (n : ℕ) (l : List Char), l.length ≤ n →
    filterBr (c3 l) = filterBr l := by
  intro n
  induction n with
  | zero =>
    intro l hn
    have hl : l = [] := List.length_eq_zero.mp (Nat.le_zero.mp hn)
    subst hl
    rfl
  | succ n ih =>
    intro l hn
    rcases l with _ | ⟨c, r⟩
    · rfl
    · simp only [List.length_cons] at hn
      rw [c3_cons]
      by_cases hc : c = '\n'
      · subst hc
        rw [if_pos rfl, filterBr_append,
          filterBr_eq_nil (List.replicate (min ((r.takeWhile (· = '\n')).length + 1) 2) '\n')
            (fun a ha => by rw [List.eq_of_mem_replicate ha]; decide),
          List.nil_append,
          ih (r.dropWhile (· = '\n')) (le_trans (len_dW_le _ _) (by omega)),
          filterBr_dW_nl, filterBr_cons, if_neg (by decide : ¬isBr '\n' = true)]
      · rw [if_neg hc, filterBr_cons, filterBr_cons, ih r (by omega)]


/-! Infrastructure part 2: `stripWS` decomposition and normal form, depth
algebra (`runD`, `noCloseZ`), the erasure relation `Er`, and the
correspondence between `scanSplit` failure and `noCloseZ`. -/

theorem head_dW (p : Char → Bool) (l : List Char) :
    ∀ x, (l.dropWhile p).head? = some x → p x = false := by
  induction l with
  | nil => intro x hx; simp at hx
  | cons c r ih =>
    intro x hx
    rw [List.dropWhile_cons] at hx
    by_cases hc : p c = true
    · rw [if_pos hc] at hx
      exact ih x hx
    · rw [if_neg hc] at hx
      injection hx with hx
      subst hx
      exact Bool.eq_false_iff.mpr hc

theorem dW_eq_self (p : Char → Bool) (l : List Char)
    (h : ∀ x, l.head? = some x → p x = false) : l.dropWhile p = l := by
  rcases l with _ | ⟨c, r⟩
  · rfl
  · exact List.dropWhile_cons_of_neg (by simp [h c rfl])

theorem getLast_append_ne (w y : List Char) (hy : y ≠ []) :
    (w ++ y).getLast? = y.getLast? := by
  rw [← List.head?_reverse, List.reverse_append, ← List.head?_reverse y]
  rcases hyr : y.reverse with _ | ⟨a, t⟩
  · exact absurd (by simpa using congrArg List.reverse hyr) hy
  · rfl

theorem stripWS_decomp (l : List Char) :
    ∃ t1 t2, l = t1 ++ stripWS l ++ t2 ∧ (∀ c ∈ t1, isPyWS c = true) ∧
      (∀ c ∈ t2, isPyWS c = true) := by
  refine ⟨l.takeWhile isPyWS, ((l.dropWhile isPyWS).reverse.takeWhile isPyWS).reverse,
    ?_, ?_, ?_⟩
  · conv_lhs => rw [← List.takeWhile_append_dropWhile (p := isPyWS) (l := l)]
    rw [List.append_assoc]
    congr 1
    rw [stripWS, ← List.reverse_append, List.takeWhile_append_dropWhile,
      List.reverse_reverse]
  · exact fun c hc => List.mem_takeWhile_imp hc
  · intro c hc
    rw [List.mem_reverse] at hc
    exact List.mem_takeWhile_imp hc

theorem stripWS_stripped (l : List Char) : strippedP (stripWS l) := by
  constructor
  · intro x hx
    rw [Option.mem_def] at hx
    rw [stripWS, List.head?_reverse] at hx
    rcases hY : (l.dropWhile isPyWS).reverse.dropWhile isPyWS with _ | ⟨a, t⟩
    · rw [hY] at hx
      simp at hx
    · rw [hY] at hx
      have hsuf : (a :: t) <:+ (l.dropWhile isPyWS).reverse := by
        rw [← hY]
        exact List.dropWhile_suffix _
      rcases hsuf with ⟨w, hw⟩
      have h2 : ((l.dropWhile isPyWS).reverse).getLast? = (a :: t).getLast? := by
        rw [← hw]
        exact getLast_append_ne w (a :: t) (by simp)
      rw [List.getLast?_reverse] at h2
      rw [hx] at h2
      exact head_dW isPyWS l x h2
  · intro x hx
    rw [Option.mem_def] at hx
    rw [stripWS, List.getLast?_reverse] at hx
    exact head_dW isPyWS (l.dropWhile isPyWS).reverse x hx

theorem stripWS_id (l : List Char) (h : strippedP l) : stripWS l = l := by
  rw [stripWS]
  rw [dW_eq_self isPyWS l (fun x hx => h.1 x (Option.mem_def.mpr hx))]
  rw [dW_eq_self isPyWS l.reverse (fun x hx => by
    rw [List.head?_reverse] at hx
    exact h.2 x (Option.mem_def.mpr hx))]
  exact List.reverse_reverse l

theorem runD_shift : ∀ (w : List Char) (d : ℤ), runD w d = d + runD w 0 := by
  intro w
  induction w with
  | nil => intro d; simp [runD]
  | cons c r ih =>
    intro d
    rw [runD, runD]
    by_cases h1 : c = '['
    · rw [if_pos h1, if_pos h1, ih (d + 1), ih (0 + 1)]
      omega
    · rw [if_neg h1, if_neg h1]
      by_cases h2 : c = ']'
      · rw [if_pos h2, if_pos h2, ih (d - 1), ih (0 - 1)]
        omega
      · rw [if_neg h2, if_neg h2, ih d]

theorem runD_filterBr : ∀ (l : List Char) (d : ℤ), runD (filterBr l) d = runD l d := by
  intro l
  induction l with
  | nil => intro d; rfl
  | cons c r ih =>
    intro d
    rw [filterBr_cons]
    by_cases hbr : isBr c = true
    · rw [if_pos hbr, runD, runD]
      by_cases h1 : c = '['
      · rw [if_pos h1, if_pos h1, ih]
      · rw [if_neg h1, if_neg h1]
        by_cases h2 : c = ']'
        · rw [if_pos h2, if_pos h2, ih]
        · exact absurd hbr (by simp [isBr, h1, h2])
    · rw [if_neg hbr]
      have h1 : ¬c = '[' := fun hc => hbr (by simp [isBr, hc])
      have h2 : ¬c = ']' := fun hc => hbr (by simp [isBr, hc])
      rw [runD, if_neg h1, if_neg h2, ih]

theorem noCloseZ_filterBr : ∀ (l : List Char) (d : ℤ),
    noCloseZ (filterBr l) d = noCloseZ l d := by
  intro l
  induction l with
  | nil => intro d; rfl
  | cons c r ih =>
    intro d
    rw [filterBr_cons]
    by_cases hbr : isBr c = true
    · rw [if_pos hbr, noCloseZ, noCloseZ]
      by_cases h1 : c = '['
      · rw [if_pos h1, if_pos h1, ih]
      · rw [if_neg h1, if_neg h1]
        by_cases h2 : c = ']'
        · rw [if_pos h2, if_pos h2]
          by_cases h3 : d = 1
          · rw [if_pos h3, if_pos h3]
          · rw [if_neg h3, if_neg h3, ih]
        · exact absurd hbr (by simp [isBr, h1, h2])
    · rw [if_neg hbr]
      have h1 : ¬c = '[' := fun hc => hbr (by simp [isBr, hc])
      have h2 : ¬c = ']' := fun hc => hbr (by simp [isBr, hc])
      rw [noCloseZ, if_neg h1, if_neg h2, ih]

theorem noCloseZ_append : ∀ (w v : List Char) (d : ℤ),
    noCloseZ (w ++ v) d = (noCloseZ w d && noCloseZ v (runD w d)) := by
  intro w
  induction w with
  | nil => intro v d; simp [noCloseZ, runD]
  | cons c r ih =>
    intro v d
    rw [List.cons_append, noCloseZ, noCloseZ, runD]
    by_cases h1 : c = '['
    · rw [if_pos h1, if_pos h1, if_pos h1, ih]
    · rw [if_neg h1, if_neg h1, if_neg h1]
      by_cases h2 : c = ']'
      · rw [if_pos h2, if_pos h2, if_pos h2]
        by_cases h3 : d = 1
        · rw [if_pos h3, if_pos h3]
          simp
        · rw [if_neg h3, if_neg h3, ih]
      · rw [if_neg h2, if_neg h2, if_neg h2, ih]

theorem Er_refl : ∀ v : List Char, Er v v := by
  intro v
  induction v with
  | nil => exact Er.nil
  | cons c r ih => exact Er.cons c ih

theorem Er_append_left (x : List Char) {v v' : List Char} (h : Er v v') :
    Er (x ++ v) (x ++ v') := by
  induction x with
  | nil => exact h
  | cons c r ih => exact Er.cons c ih

theorem Er_noCloseZ {v v' : List Char} (h : Er v v') :
    ∀ d : ℤ, noCloseZ v d = true → noCloseZ v' d = true := by
  induction h with
  | nil => exact fun d h => h
  | cons c h ih =>
    intro d hv
    rw [noCloseZ] at hv ⊢
    by_cases h1 : c = '['
    · rw [if_pos h1] at hv ⊢
      exact ih _ hv
    · rw [if_neg h1] at hv ⊢
      by_cases h2 : c = ']'
      · rw [if_pos h2] at hv ⊢
        by_cases h3 : d = 1
        · rw [if_pos h3] at hv
          exact absurd hv (by simp)
        · rw [if_neg h3] at hv ⊢
          exact ih _ hv
      · rw [if_neg h2] at hv ⊢
        exact ih _ hv
  | skip hw h ih =>
    rename_i w0 v0 v0'
    intro d hv
    rw [noCloseZ_append, Bool.and_eq_true] at hv
    have hr : runD w0 d = d := by
      rw [runD_shift, hw]
      omega
    have h2 := hv.2
    rw [hr] at h2
    exact ih d h2

theorem scanSplit_none_iff : ∀ (v : List Char) (d : ℕ), 1 ≤ d →
    (scanSplit v d = none ↔ noCloseZ v (d : ℤ) = true) := by
  intro v
  induction v with
  | nil => intro d hd; simp [scanSplit, noCloseZ]
  | cons c r ih =>
    intro d hd
    rw [scanSplit, noCloseZ]
    by_cases h1 : c = '['
    · rw [if_pos h1, if_pos h1, Option.map_eq_none']
      have := ih (d + 1) (by omega)
      rw [this]
      norm_num
    · rw [if_neg h1, if_neg h1]
      by_cases h2 : c = ']'
      · rw [if_pos h2, if_pos h2]
        by_cases h3 : d = 1
        · subst h3
          rw [if_pos rfl, if_pos (by norm_num)]
          simp
        · rw [if_neg h3, if_neg (by omega : ¬(d : ℤ) = 1), Option.map_eq_none']
          have := ih (d - 1) (by omega)
          rw [this, Nat.cast_sub (by omega : 1 ≤ d)]
          norm_num
      · rw [if_neg h2, if_neg h2, Option.map_eq_none']
        exact ih d hd


/-! Infrastructure part 3: structure of the cleaner-regex matcher
(`tryMatch`/`findSub`), unfold lemmas for the two substitution passes, and
the scan properties of `findLin` needed for the linear marker invariant. -/

theorem tryMatch_struct (tg l mid rest : List Char)
    (h : tryMatch tg l = some (mid, rest)) :
    ∃ u v, splitRB ((l.dropWhile isPyWS).drop (marker tg).length) = some (u, v) ∧
      mid = l.takeWhile isPyWS ++ marker tg ++ u ++ v.takeWhile isPyWS ∧
      rest = v.dropWhile isPyWS ∧ l = mid ++ rest := by
  rw [tryMatch] at h
  by_cases hp : (marker tg).isPrefixOf (l.dropWhile isPyWS) = true
  · rw [if_pos hp] at h
    rcases hs : splitRB ((l.dropWhile isPyWS).drop (marker tg).length) with _ | ⟨u, v⟩
    · rw [hs] at h
      simp at h
    · rw [hs] at h
      simp only [Option.some.injEq, Prod.mk.injEq] at h
      obtain ⟨t, ht⟩ := List.isPrefixOf_iff_prefix.mp hp
      have hdrop : (l.dropWhile isPyWS).drop (marker tg).length = t := by
        rw [← ht, List.drop_left]
      have hs2 := hs
      rw [hdrop] at hs2
      have huv := (splitRB_spec t u v hs2).1
      refine ⟨u, v, rfl, h.1.symm, h.2.symm, ?_⟩
      rw [← h.1, ← h.2]
      conv_lhs => rw [← List.takeWhile_append_dropWhile (p := isPyWS) (l := l), ← ht,
        huv, ← List.takeWhile_append_dropWhile (p := isPyWS) (l := v)]
      simp [List.append_assoc]
  · rw [if_neg hp] at h
    simp at h

theorem tryMatch_marker_some (tg X : List Char) (hrb : ']' ∈ X) :
    tryMatch tg (marker tg ++ X) ≠ none := by
  rw [tryMatch]
  have hd : (marker tg ++ X).dropWhile isPyWS = marker tg ++ X := by
    rw [show marker tg ++ X = '/' :: (tg ++ ['['] ++ X) from by simp [marker],
      List.dropWhile_cons_of_neg (by decide)]
  rw [hd, if_pos (List.isPrefixOf_iff_prefix.mpr ⟨X, rfl⟩), List.drop_left]
  rcases hs : splitRB X with _ | ⟨u, v⟩
  · exact absurd hrb ((splitRB_none_iff X).mp hs)
  · simp

theorem findSub_struct (tg : List Char) :
    ∀ (l pre mid rest : List Char), findSub tg l = some (pre, mid, rest) →
      l = pre ++ mid ++ rest ∧ tryMatch tg (mid ++ rest) = some (mid, rest) := by
  intro l
  induction l with
  | nil => intro pre mid rest h; exact absurd h (by simp [findSub])
  | cons a r ih =>
    intro pre mid rest h
    rw [findSub] at h
    rcases ht : tryMatch tg (a :: r) with _ | ⟨m2, r2⟩
    · rw [ht] at h
      rcases hf : findSub tg r with _ | ⟨p1, p2, p3⟩
      · rw [hf] at h
        simp at h
      · rw [hf] at h
        simp only [Option.map_some', Option.some.injEq, Prod.mk.injEq] at h
        obtain ⟨hr, htm⟩ := ih p1 p2 p3 hf
        rw [← h.1, ← h.2.1, ← h.2.2, hr]
        exact ⟨by simp, htm⟩
    · rw [ht] at h
      simp only [Option.some.injEq, Prod.mk.injEq] at h
      have hmr : mid ++ rest = a :: r := by
        obtain ⟨u, v, -, -, -, hl⟩ := tryMatch_struct tg (a :: r) m2 r2 ht
        rw [← h.2.1, ← h.2.2]
        exact hl.symm
      rw [← h.1, List.nil_append, hmr]
      refine ⟨rfl, ?_⟩
      rw [ht, h.2.1, h.2.2]

theorem findSub_rest_length (tg l pre mid rest : List Char)
    (h : findSub tg l = some (pre, mid, rest)) : rest.length < l.length := by
  obtain ⟨hl, htm⟩ := findSub_struct tg l pre mid rest h
  obtain ⟨u, v, -, hmid, -, -⟩ := tryMatch_struct tg (mid ++ rest) mid rest htm
  have hm : 1 ≤ (marker tg).length := by simp [marker]
  have h1 := congrArg List.length hmid
  have h2 := congrArg List.length hl
  simp only [List.length_append] at h1 h2
  omega

theorem findSub_pre (tg : List Char) :
    ∀ (l pre mid rest : List Char), findSub tg l = some (pre, mid, rest) →
      ∀ p1 p2, pre = p1 ++ p2 → p2 ≠ [] → tryMatch tg (p2 ++ mid ++ rest) = none := by
  intro l
  induction l with
  | nil => intro pre mid rest h; exact absurd h (by simp [findSub])
  | cons a r ih =>
    intro pre mid rest h p1 p2 hpre hp2
    rw [findSub] at h
    rcases ht : tryMatch tg (a :: r) with _ | ⟨m2, r2⟩
    · rw [ht] at h
      rcases hf : findSub tg r with _ | ⟨q1, q2, q3⟩
      · rw [hf] at h
        simp at h
      · rw [hf] at h
        simp only [Option.map_some', Option.some.injEq, Prod.mk.injEq] at h
        obtain ⟨hr, -⟩ := findSub_struct tg r q1 q2 q3 hf
        rcases p1 with _ | ⟨b, p1'⟩
        · rw [List.nil_append] at hpre
          have hp2a : p2 = a :: q1 := by rw [← hpre, h.1]
          have : p2 ++ mid ++ rest = a :: r := by
            rw [hp2a, ← h.2.1, ← h.2.2, hr]
            simp
          rw [this, ht]
        · have hb : b = a ∧ q1 = p1' ++ p2 := by
            have := hpre
            rw [← h.1] at this
            injection this with h1 h2
            exact ⟨h1.symm, h2⟩
          rw [← h.2.1, ← h.2.2]
          exact ih q1 q2 q3 hf p1' p2 hb.2 hp2
    · rw [ht] at h
      simp only [Option.some.injEq, Prod.mk.injEq] at h
      rw [← h.1] at hpre
      rcases p2 with _ | ⟨c2, p2'⟩
      · exact absurd rfl hp2
      · simp at hpre

theorem subTagsGo_fuel (tg : List Char) :
    ∀ (n : ℕ) (l : List Char) (f : ℕ), l.length < f → l.length ≤ n →
      subTagsGo tg f l = subTagsGo tg (l.length + 1) l := by
  intro n
  induction n with
  | zero =>
    intro l f hf hn
    rcases f with _ | f2
    · exact absurd hf (by simp)
    · have hl : l = [] := List.length_eq_zero.mp (Nat.le_zero.mp hn)
      subst hl
      rw [subTagsGo, subTagsGo, show findSub tg [] = none from rfl]
  | succ n ih =>
    intro l f hf hn
    rcases f with _ | f2
    · exact absurd hf (by simp)
    · rw [subTagsGo, subTagsGo]
      rcases hfs : findSub tg l with _ | ⟨pre, mid, rest⟩
      · rfl
      · dsimp only
        have hlt := findSub_rest_length tg l pre mid rest hfs
        rw [ih rest f2 (by omega) (by omega), ih rest l.length (by omega) (by omega)]

theorem subTags_none (tg l : List Char) (h : findSub tg l = none) :
    subTags tg l = l := by
  rw [subTags, subTagsGo, h]

theorem subTags_some (tg l pre mid rest : List Char)
    (h : findSub tg l = some (pre, mid, rest)) :
    subTags tg l = pre ++ '\n' :: subTags tg rest := by
  rw [subTags, subTagsGo, h]
  dsimp only
  rw [subTagsGo_fuel tg rest.length rest l.length (findSub_rest_length tg l pre mid rest h) le_rfl]
  rfl

theorem replaceSpansGo_fuel (tg : List Char) :
    ∀ (n : ℕ) (l : List Char) (f : ℕ), l.length < f → l.length ≤ n →
      replaceSpansGo tg f l = replaceSpansGo tg (l.length + 1) l := by
  intro n
  induction n with
  | zero =>
    intro l f hf hn
    rcases f with _ | f2
    · exact absurd hf (by simp)
    · have hl : l = [] := List.length_eq_zero.mp (Nat.le_zero.mp hn)
      subst hl
      rw [replaceSpansGo, replaceSpansGo, show findLin tg [] = none from rfl]
  | succ n ih =>
    intro l f hf hn
    rcases f with _ | f2
    · exact absurd hf (by simp)
    · rw [replaceSpansGo, replaceSpansGo]
      rcases hfs : findLin tg l with _ | ⟨pre, mid, rest⟩
      · rfl
      · dsimp only
        have hlt := findLin_rest_length tg l pre mid rest hfs
        rw [ih rest f2 (by omega) (by omega), ih rest l.length (by omega) (by omega)]

theorem replaceSpans_none (tg l : List Char) (h : findLin tg l = none) :
    replaceSpans tg l = l := by
  rw [replaceSpans, replaceSpansGo, h]

theorem replaceSpans_some (tg l pre mid rest : List Char)
    (h : findLin tg l = some (pre, mid, rest)) :
    replaceSpans tg l = pre ++ '\n' :: replaceSpans tg rest := by
  rw [replaceSpans, replaceSpansGo, h]
  dsimp only
  rw [replaceSpansGo_fuel tg rest.length rest l.length
    (findLin_rest_length tg l pre mid rest h) le_rfl]
  rfl

theorem findLin_scan (tg : List Char) :
    ∀ (l pre mid rest : List Char), findLin tg l = some (pre, mid, rest) →
      ∃ u, mid = marker tg ++ u ∧ l = pre ++ (marker tg ++ u) ++ rest ∧
        scanSplit (u ++ rest) 1 = some (u, rest) := by
  intro l
  induction l with
  | nil => intro pre mid rest h; exact absurd h (by simp [findLin])
  | cons a r ih =>
    intro pre mid rest h
    rw [findLin] at h
    by_cases hp : (marker tg).isPrefixOf (a :: r) = true
    · rw [if_pos hp] at h
      obtain ⟨t, ht⟩ := List.isPrefixOf_iff_prefix.mp hp
      have hdrop : (a :: r).drop (marker tg).length = t := by
        rw [← ht, List.drop_left]
      rw [hdrop] at h
      rcases hs : scanSplit t 1 with _ | ⟨u, rest2⟩
      · rw [hs] at h
        rcases hfl : findLin tg r with _ | ⟨p1, p2, p3⟩
        · rw [hfl] at h
          simp at h
        · rw [hfl] at h
          simp only [Option.map_some', Option.some.injEq, Prod.mk.injEq] at h
          obtain ⟨u, hu1, hu2, hu3⟩ := ih p1 p2 p3 hfl
          refine ⟨u, by rw [← h.2.1, hu1], ?_, by rw [← h.2.2]; exact hu3⟩
          rw [← h.1, ← h.2.2, hu2]
          simp
      · rw [hs] at h
        simp only [Option.some.injEq, Prod.mk.injEq] at h
        have hx := (scanSplit_spec t 1 u rest2 hs).1
        refine ⟨u, h.2.1.symm, ?_, ?_⟩
        · rw [← h.1, ← h.2.2, List.nil_append, ← ht, hx]
          simp [List.append_assoc]
        · rw [← h.2.2, ← hx]
          exact hs
    · rw [if_neg hp] at h
      rcases hfl : findLin tg r with _ | ⟨p1, p2, p3⟩
      · rw [hfl] at h
        simp at h
      · rw [hfl] at h
        simp only [Option.map_some', Option.some.injEq, Prod.mk.injEq] at h
        obtain ⟨u, hu1, hu2, hu3⟩ := ih p1 p2 p3 hfl
        refine ⟨u, by rw [← h.2.1, hu1], ?_, by rw [← h.2.2]; exact hu3⟩
        rw [← h.1, ← h.2.2, hu2]
        simp

theorem findLin_pre (tg : List Char) :
    ∀ (l pre mid rest : List Char), findLin tg l = some (pre, mid, rest) →
      ∀ p1 p3, pre = p1 ++ marker tg ++ p3 →
        scanSplit (p3 ++ mid ++ rest) 1 = none := by
  intro l
  induction l with
  | nil => intro pre mid rest h; exact absurd h (by simp [findLin])
  | cons a r ih =>
    intro pre mid rest h p1 p3 hpre
    have hstruct := (findLin_struct tg (a :: r) pre mid rest h).1
    rw [findLin] at h
    by_cases hp : (marker tg).isPrefixOf (a :: r) = true
    · rw [if_pos hp] at h
      rcases hs : scanSplit ((a :: r).drop (marker tg).length) 1 with _ | ⟨u, rest2⟩
      · rw [hs] at h
        rcases hfl : findLin tg r with _ | ⟨q1, q2, q3⟩
        · rw [hfl] at h
          simp at h
        · rw [hfl] at h
          simp only [Option.map_some', Option.some.injEq, Prod.mk.injEq] at h
          rcases p1 with _ | ⟨b, p1'⟩
          · rw [List.nil_append] at hpre
            have hdrop : (a :: r).drop (marker tg).length = p3 ++ mid ++ rest := by
              rw [hstruct, hpre, List.append_assoc, List.append_assoc, List.drop_left,
                ← List.append_assoc]
            rw [hdrop] at hs
            exact hs
          · have hq : q1 = p1' ++ marker tg ++ p3 := by
              have h2 := hpre
              rw [← h.1] at h2
              injection h2 with h3 h4
            rw [← h.2.1, ← h.2.2]
            exact ih q1 q2 q3 hfl p1' p3 hq
      · rw [hs] at h
        simp only [Option.some.injEq, Prod.mk.injEq] at h
        rw [← h.1] at hpre
        exact absurd hpre.symm (by simp [marker])
    · rw [if_neg hp] at h
      rcases hfl : findLin tg r with _ | ⟨q1, q2, q3⟩
      · rw [hfl] at h
        simp at h
      · rw [hfl] at h
        simp only [Option.map_some', Option.some.injEq, Prod.mk.injEq] at h
        rcases p1 with _ | ⟨b, p1'⟩
        · rw [List.nil_append] at hpre
          exfalso
          apply hp
          apply List.isPrefixOf_iff_prefix.mpr
          refine ⟨p3 ++ mid ++ rest, ?_⟩
          rw [hstruct, hpre]
          simp [List.append_assoc]
        · have hq : q1 = p1' ++ marker tg ++ p3 := by
            have h2 := hpre
            rw [← h.1] at h2
            injection h2 with h3 h4
          rw [← h.2.1, ← h.2.2]
          exact ih q1 q2 q3 hfl p1' p3 hq


/-! Infrastructure part 4: occurrences of the (whitespace-free) marker in
the output of a whitespace pass come from occurrences in its input, with
the bracket subsequence of the suffix unchanged.  Each pass deletes only
whitespace characters and always leaves a newline at every deletion site,
so no new marker adjacency can be created. -/

theorem marker_no_ws (tg : List Char) (htg : ∀ c ∈ tg, isPyWS c = false) :
    ∀ x ∈ marker tg, isPyWS x = false := by
  intro x hx
  rw [marker] at hx
  rcases List.mem_cons.mp hx with h | h
  · subst h; decide
  · rcases List.mem_append.mp h with h2 | h2
    · exact htg x h2
    · have h3 : x = '[' := by simpa using h2
      subst h3; decide

theorem marker_ne_nil (tg : List Char) : marker tg ≠ [] := by simp [marker]

theorem split_after_pred (p : Char → Bool) :
    ∀ (t X a b : List Char) (w0 : Char) (wr : List Char),
      (∀ x ∈ t, p x = true) → p w0 = false →
      t ++ X = a ++ (w0 :: wr) ++ b →
      ∃ a2, a = t ++ a2 ∧ X = a2 ++ (w0 :: wr) ++ b := by
  intro t
  induction t with
  | nil =>
    intro X a b w0 wr ht hw heq
    exact ⟨a, rfl, by simpa using heq⟩
  | cons c t' ih =>
    intro X a b w0 wr ht hw heq
    rcases a with _ | ⟨a0, a'⟩
    · simp only [List.nil_append] at heq
      injection heq with h1 h2
      exact absurd (h1 ▸ ht c (List.mem_cons_self c t')) (by simp [hw])
    · have h0 : c = a0 ∧ t' ++ X = a' ++ (w0 :: wr) ++ b := by
        injection heq with h1 h2
        exact ⟨h1, h2⟩
      obtain ⟨a2, ha, hX⟩ :=
        ih X a' b w0 wr (fun x hx => ht x (List.mem_cons_of_mem _ hx)) hw h0.2
      refine ⟨a2, ?_, hX⟩
      rw [← h0.1, ha]
      rfl

theorem dropB_peel :
    ∀ (n : ℕ) (w l b : List Char), (∀ x ∈ w, isPyWS x = false) →
      l.length ≤ n → w ≠ [] → w ++ b = dropB l →
      ∃ b2, l = w ++ b2 ∧ b = dropB b2 := by
  intro n
  induction n with
  | zero =>
    intro w l b hw hn hne heq
    have hl : l = [] := List.length_eq_zero.mp (Nat.le_zero.mp hn)
    subst hl
    rcases w with _ | ⟨w0, w'⟩
    · exact absurd rfl hne
    · rw [show dropB ([] : List Char) = [] from rfl] at heq
      simp at heq
  | succ n ih =>
    intro w l b hw hn hne heq
    rcases l with _ | ⟨c, r⟩
    · rcases w with _ | ⟨w0, w'⟩
      · exact absurd rfl hne
      · rw [show dropB ([] : List Char) = [] from rfl] at heq
        simp at heq
    · simp only [List.length_cons] at hn
      rw [dropB_cons] at heq
      by_cases hc : isHWS c = true
      · rw [if_pos hc] at heq
        by_cases hh : (r.dropWhile isHWS).head? = some '\n'
        · rw [if_pos hh] at heq
          rcases w with _ | ⟨w0, w'⟩
          · exact absurd rfl hne
          · have hB : (dropB (r.dropWhile isHWS)).head? = some '\n' := by
              rcases hz : r.dropWhile isHWS with _ | ⟨z0, z1⟩
              · rw [hz] at hh
                simp at hh
              · rw [hz] at hh
                have hz0 : z0 = '\n' := by simpa using hh
                subst hz0
                exact dropB_head ('\n' :: z1) '\n' rfl (by decide)
            rw [← heq] at hB
            have h1 : w0 = '\n' := by simpa using hB
            exact absurd (hw w0 (List.mem_cons_self _ _)) (by rw [h1]; decide)
        · rw [if_neg hh] at heq
          rcases w with _ | ⟨w0, w'⟩
          · exact absurd rfl hne
          · rw [List.takeWhile_cons_of_pos hc] at heq
            injection heq with h1 h2
            exact absurd (hw w0 (List.mem_cons_self _ _))
              (by rw [h1]; simp [isHWS_pyws c hc])
      · rw [if_neg hc] at heq
        rcases w with _ | ⟨w0, w'⟩
        · exact absurd rfl hne
        · injection heq with h1 h2
          rcases w' with _ | ⟨w1, w''⟩
          · refine ⟨r, ?_, by simpa using h2⟩
            rw [h1]
            rfl
          · obtain ⟨b2, hl2, hb2⟩ := ih (w1 :: w'') r b
              (fun x hx => hw x (List.mem_cons_of_mem _ hx)) (by omega)
              (by simp) h2
            refine ⟨b2, ?_, hb2⟩
            rw [h1, hl2]
            rfl

theorem dropA_peel :
    ∀ (n : ℕ) (w l b : List Char), (∀ x ∈ w, isPyWS x = false) →
      l.length ≤ n → w ≠ [] → w ++ b = dropA l →
      ∃ b2, l = w ++ b2 ∧ b = dropA b2 := by
  intro n
  induction n with
  | zero =>
    intro w l b hw hn hne heq
    have hl : l = [] := List.length_eq_zero.mp (Nat.le_zero.mp hn)
    subst hl
    rcases w with _ | ⟨w0, w'⟩
    · exact absurd rfl hne
    · rw [show dropA ([] : List Char) = [] from rfl] at heq
      simp at heq
  | succ n ih =>
    intro w l b hw hn hne heq
    rcases l with _ | ⟨c, r⟩
    · rcases w with _ | ⟨w0, w'⟩
      · exact absurd rfl hne
      · rw [show dropA ([] : List Char) = [] from rfl] at heq
        simp at heq
    · simp only [List.length_cons] at hn
      rw [dropA_cons] at heq
      by_cases hc : c = '\n'
      · rw [if_pos hc] at heq
        rcases w with _ | ⟨w0, w'⟩
        · exact absurd rfl hne
        · injection heq with h1 h2
          exact absurd (hw w0 (List.mem_cons_self _ _)) (by rw [h1]; decide)
      · rw [if_neg hc] at heq
        rcases w with _ | ⟨w0, w'⟩
        · exact absurd rfl hne
        · injection heq with h1 h2
          rcases w' with _ | ⟨w1, w''⟩
          · refine ⟨r, ?_, by simpa using h2⟩
            rw [h1]
            rfl
          · obtain ⟨b2, hl2, hb2⟩ := ih (w1 :: w'') r b
              (fun x hx => hw x (List.mem_cons_of_mem _ hx)) (by omega)
              (by simp) h2
            refine ⟨b2, ?_, hb2⟩
            rw [h1, hl2]
            rfl

theorem c3_peel :
    ∀ (n : ℕ) (w l b : List Char), (∀ x ∈ w, isPyWS x = false) →
      l.length ≤ n → w ≠ [] → w ++ b = c3 l →
      ∃ b2, l = w ++ b2 ∧ b = c3 b2 := by
  intro n
  induction n with
  | zero =>
    intro w l b hw hn hne heq
    have hl : l = [] := List.length_eq_zero.mp (Nat.le_zero.mp hn)
    subst hl
    rcases w with _ | ⟨w0, w'⟩
    · exact absurd rfl hne
    · rw [show c3 ([] : List Char) = [] from rfl] at heq
      simp at heq
  | succ n ih =>
    intro w l b hw hn hne heq
    rcases l with _ | ⟨c, r⟩
    · rcases w with _ | ⟨w0, w'⟩
      · exact absurd rfl hne
      · rw [show c3 ([] : List Char) = [] from rfl] at heq
        simp at heq
    · simp only [List.length_cons] at hn
      rw [c3_cons] at heq
      by_cases hc : c = '\n'
      · rw [if_pos hc] at heq
        obtain ⟨k, hk⟩ : ∃ k, min ((r.takeWhile (· = '\n')).length + 1) 2 = k + 1 :=
          ⟨min ((r.takeWhile (· = '\n')).length + 1) 2 - 1, by omega⟩
        rw [hk, List.replicate_succ] at heq
        rcases w with _ | ⟨w0, w'⟩
        · exact absurd rfl hne
        · injection heq with h1 h2
          exact absurd (hw w0 (List.mem_cons_self _ _)) (by rw [h1]; decide)
      · rw [if_neg hc] at heq
        rcases w with _ | ⟨w0, w'⟩
        · exact absurd rfl hne
        · injection heq with h1 h2
          rcases w' with _ | ⟨w1, w''⟩
          · refine ⟨r, ?_, by simpa using h2⟩
            rw [h1]
            rfl
          · obtain ⟨b2, hl2, hb2⟩ := ih (w1 :: w'') r b
              (fun x hx => hw x (List.mem_cons_of_mem _ hx)) (by omega)
              (by simp) h2
            refine ⟨b2, ?_, hb2⟩
            rw [h1, hl2]
            rfl


theorem dropB_marker (tg : List Char) (htg : ∀ c ∈ tg, isPyWS c = false) :
    ∀ (n : ℕ) (l a b : List Char), l.length ≤ n →
      dropB l = a ++ marker tg ++ b →
      ∃ a2 b2, l = a2 ++ marker tg ++ b2 ∧ b = dropB b2 := by
  intro n
  induction n with
  | zero =>
    intro l a b hn heq
    have hl : l = [] := List.length_eq_zero.mp (Nat.le_zero.mp hn)
    subst hl
    rw [show dropB ([] : List Char) = [] from rfl] at heq
    exact absurd heq.symm (by simp [marker])
  | succ n ih =>
    intro l a b hn heq
    rcases l with _ | ⟨c, r⟩
    · rw [show dropB ([] : List Char) = [] from rfl] at heq
      exact absurd heq.symm (by simp [marker])
    · simp only [List.length_cons] at hn
      rw [dropB_cons] at heq
      by_cases hc : isHWS c = true
      · rw [if_pos hc] at heq
        by_cases hh : (r.dropWhile isHWS).head? = some '\n'
        · rw [if_pos hh] at heq
          obtain ⟨a2, b2, hl, hb⟩ :=
            ih (r.dropWhile isHWS) a b (le_trans (len_dW_le _ _) (by omega)) heq
          refine ⟨c :: r.takeWhile isHWS ++ a2, b2, ?_, hb⟩
          conv_lhs => rw [← List.takeWhile_append_dropWhile (p := isHWS) (l := r), hl]
          simp [List.append_assoc]
        · rw [if_neg hh] at heq
          rw [List.takeWhile_cons_of_pos hc] at heq
          obtain ⟨a2', ha, hX⟩ := split_after_pred isHWS (c :: r.takeWhile isHWS)
            (dropB (r.dropWhile isHWS)) a b '/' (tg ++ ['['])
            (fun x hx => by
              rcases List.mem_cons.mp hx with h | h
              · subst h; exact hc
              · exact List.mem_takeWhile_imp h)
            (by decide) heq
          obtain ⟨a3, b3, hl, hb⟩ :=
            ih (r.dropWhile isHWS) a2' b (le_trans (len_dW_le _ _) (by omega)) hX
          refine ⟨c :: r.takeWhile isHWS ++ a3, b3, ?_, hb⟩
          conv_lhs => rw [← List.takeWhile_append_dropWhile (p := isHWS) (l := r), hl]
          simp [List.append_assoc]
      · rw [if_neg hc] at heq
        rcases a with _ | ⟨a0, a'⟩
        · rw [List.nil_append] at heq
          have heq2 : marker tg ++ b = dropB (c :: r) := by
            rw [dropB_cons, if_neg hc]
            exact heq.symm
          obtain ⟨b2, hl, hb⟩ := dropB_peel (n + 1) (marker tg) (c :: r) b
            (marker_no_ws tg htg) (by simp; omega) (marker_ne_nil tg) heq2
          exact ⟨[], b2, by simpa using hl, hb⟩
        · injection heq with h1 h2
          obtain ⟨a2, b2, hl, hb⟩ := ih r a' b (by omega) h2
          refine ⟨c :: a2, b2, ?_, hb⟩
          rw [hl]
          rfl

theorem dropA_marker (tg : List Char) (htg : ∀ c ∈ tg, isPyWS c = false) :
    ∀ (n : ℕ) (l a b : List Char), l.length ≤ n →
      dropA l = a ++ marker tg ++ b →
      ∃ a2 b2, l = a2 ++ marker tg ++ b2 ∧ b = dropA b2 := by
  intro n
  induction n with
  | zero =>
    intro l a b hn heq
    have hl : l = [] := List.length_eq_zero.mp (Nat.le_zero.mp hn)
    subst hl
    rw [show dropA ([] : List Char) = [] from rfl] at heq
    exact absurd heq.symm (by simp [marker])
  | succ n ih =>
    intro l a b hn heq
    rcases l with _ | ⟨c, r⟩
    · rw [show dropA ([] : List Char) = [] from rfl] at heq
      exact absurd heq.symm (by simp [marker])
    · simp only [List.length_cons] at hn
      rw [dropA_cons] at heq
      by_cases hc : c = '\n'
      · rw [if_pos hc] at heq
        subst hc
        rcases a with _ | ⟨a0, a'⟩
        · rw [List.nil_append] at heq
          injection heq with h1 h2
          exact absurd h1 (by decide)
        · injection heq with h1 h2
          obtain ⟨a2, b2, hl, hb⟩ :=
            ih (r.dropWhile isHWS) a' b (le_trans (len_dW_le _ _) (by omega)) h2
          refine ⟨'\n' :: r.takeWhile isHWS ++ a2, b2, ?_, hb⟩
          conv_lhs => rw [← List.takeWhile_append_dropWhile (p := isHWS) (l := r), hl]
          simp [List.append_assoc]
      · rw [if_neg hc] at heq
        rcases a with _ | ⟨a0, a'⟩
        · rw [List.nil_append] at heq
          have heq2 : marker tg ++ b = dropA (c :: r) := by
            rw [dropA_cons, if_neg hc]
            exact heq.symm
          obtain ⟨b2, hl, hb⟩ := dropA_peel (n + 1) (marker tg) (c :: r) b
            (marker_no_ws tg htg) (by simp; omega) (marker_ne_nil tg) heq2
          exact ⟨[], b2, by simpa using hl, hb⟩
        · injection heq with h1 h2
          obtain ⟨a2, b2, hl, hb⟩ := ih r a' b (by omega) h2
          refine ⟨c :: a2, b2, ?_, hb⟩
          rw [hl]
          rfl

theorem c3_marker (tg : List Char) (htg : ∀ c ∈ tg, isPyWS c = false) :
    ∀ (n : ℕ) (l a b : List Char), l.length ≤ n →
      c3 l = a ++ marker tg ++ b →
      ∃ a2 b2, l = a2 ++ marker tg ++ b2 ∧ b = c3 b2 := by
  intro n
  induction n with
  | zero =>
    intro l a b hn heq
    have hl : l = [] := List.length_eq_zero.mp (Nat.le_zero.mp hn)
    subst hl
    rw [show c3 ([] : List Char) = [] from rfl] at heq
    exact absurd heq.symm (by simp [marker])
  | succ n ih =>
    intro l a b hn heq
    rcases l with _ | ⟨c, r⟩
    · rw [show c3 ([] : List Char) = [] from rfl] at heq
      exact absurd heq.symm (by simp [marker])
    · simp only [List.length_cons] at hn
      rw [c3_cons] at heq
      by_cases hc : c = '\n'
      · rw [if_pos hc] at heq
        subst hc
        obtain ⟨a2', ha, hX⟩ := split_after_pred (· = '\n')
          (List.replicate (min ((r.takeWhile (· = '\n')).length + 1) 2) '\n')
          (c3 (r.dropWhile (· = '\n'))) a b '/' (tg ++ ['['])
          (fun x hx => by simp [List.eq_of_mem_replicate hx])
          (by decide) heq
        obtain ⟨a3, b3, hl, hb⟩ :=
          ih (r.dropWhile (· = '\n')) a2' b (le_trans (len_dW_le _ _) (by omega)) hX
        refine ⟨'\n' :: r.takeWhile (· = '\n') ++ a3, b3, ?_, hb⟩
        conv_lhs => rw [← List.takeWhile_append_dropWhile (p := (· = '\n')) (l := r), hl]
        simp [List.append_assoc]
      · rw [if_neg hc] at heq
        rcases a with _ | ⟨a0, a'⟩
        · rw [List.nil_append] at heq
          have heq2 : marker tg ++ b = c3 (c :: r) := by
            rw [c3_cons, if_neg hc]
            exact heq.symm
          obtain ⟨b2, hl, hb⟩ := c3_peel (n + 1) (marker tg) (c :: r) b
            (marker_no_ws tg htg) (by simp; omega) (marker_ne_nil tg) heq2
          exact ⟨[], b2, by simpa using hl, hb⟩
        · injection heq with h1 h2
          obtain ⟨a2, b2, hl, hb⟩ := ih r a' b (by omega) h2
          refine ⟨c :: a2, b2, ?_, hb⟩
          rw [hl]
          rfl

theorem stripWS_marker (tg l a b : List Char)
    (heq : stripWS l = a ++ marker tg ++ b) :
    ∃ a2 b2, l = a2 ++ marker tg ++ b2 ∧ filterBr b2 = filterBr b := by
  obtain ⟨t1, t2, hl, h1, h2⟩ := stripWS_decomp l
  refine ⟨t1 ++ a, b ++ t2, ?_, ?_⟩
  · rw [hl, heq]
    simp [List.append_assoc]
  · rw [filterBr_append,
      filterBr_eq_nil t2 (fun c hc => isPyWS_not_br c (h2 c hc)), List.append_nil]

theorem MarkerInv_dropB (tg : List Char) (htg : ∀ c ∈ tg, isPyWS c = false)
    (P : List Char → Prop)
    (hP : ∀ b b2 : List Char, filterBr b = filterBr b2 → P b2 → P b)
    (l : List Char) (h : MarkerInv tg P l) : MarkerInv tg P (dropB l) := by
  intro a b heq
  obtain ⟨a2, b2, hl, hb⟩ := dropB_marker tg htg l.length l a b le_rfl heq
  have hfb : filterBr b = filterBr b2 := by
    rw [hb, filterBr_dropB b2.length b2 le_rfl]
  exact hP b b2 hfb (h a2 b2 hl)

theorem MarkerInv_dropA (tg : List Char) (htg : ∀ c ∈ tg, isPyWS c = false)
    (P : List Char → Prop)
    (hP : ∀ b b2 : List Char, filterBr b = filterBr b2 → P b2 → P b)
    (l : List Char) (h : MarkerInv tg P l) : MarkerInv tg P (dropA l) := by
  intro a b heq
  obtain ⟨a2, b2, hl, hb⟩ := dropA_marker tg htg l.length l a b le_rfl heq
  have hfb : filterBr b = filterBr b2 := by
    rw [hb, filterBr_dropA b2.length b2 le_rfl]
  exact hP b b2 hfb (h a2 b2 hl)

theorem MarkerInv_c3 (tg : List Char) (htg : ∀ c ∈ tg, isPyWS c = false)
    (P : List Char → Prop)
    (hP : ∀ b b2 : List Char, filterBr b = filterBr b2 → P b2 → P b)
    (l : List Char) (h : MarkerInv tg P l) : MarkerInv tg P (c3 l) := by
  intro a b heq
  obtain ⟨a2, b2, hl, hb⟩ := c3_marker tg htg l.length l a b le_rfl heq
  have hfb : filterBr b = filterBr b2 := by
    rw [hb, filterBr_c3 b2.length b2 le_rfl]
  exact hP b b2 hfb (h a2 b2 hl)

theorem MarkerInv_stripWS (tg : List Char) (P : List Char → Prop)
    (hP : ∀ b b2 : List Char, filterBr b = filterBr b2 → P b2 → P b)
    (l : List Char) (h : MarkerInv tg P l) : MarkerInv tg P (stripWS l) := by
  intro a b heq
  obtain ⟨a2, b2, hl, hfb⟩ := stripWS_marker tg l a b heq
  exact hP b b2 hfb.symm (h a2 b2 hl)

theorem noRBAfter_respects (b b2 : List Char) (hfb : filterBr b = filterBr b2)
    (h : noRBAfter b2) : noRBAfter b := by
  intro hmem
  apply h
  have h1 : ']' ∈ filterBr b := List.mem_filter.mpr ⟨hmem, by decide⟩
  rw [hfb] at h1
  exact (List.mem_filter.mp h1).1

theorem neverCloses_respects (b b2 : List Char) (hfb : filterBr b = filterBr b2)
    (h : neverCloses b2) : neverCloses b := by
  rw [neverCloses, ← noCloseZ_filterBr, hfb, noCloseZ_filterBr]
  exact h

/-! Infrastructure part 5: occurrence decomposition across a concatenation,
last-character algebra around the inserted newline, depth of a matched
span, and existence of a match at any marker followed by a closer. -/

theorem occ_split (X Y a w b : List Char) (h : X ++ Y = a ++ w ++ b) :
    (∃ b1, X = a ++ w ++ b1 ∧ b = b1 ++ Y) ∨
    (∃ a1, Y = a1 ++ w ++ b ∧ a = X ++ a1) ∨
    (∃ m1 m2, w = m1 ++ m2 ∧ m1 ≠ [] ∧ m2 ≠ [] ∧ X = a ++ m1 ∧ Y = m2 ++ b) := by
  rw [List.append_assoc] at h
  rcases List.append_eq_append_iff.mp h with ⟨t, ht1, ht2⟩ | ⟨t, ht1, ht2⟩
  · exact Or.inr (Or.inl ⟨t, by rw [ht2, List.append_assoc], ht1⟩)
  · rcases List.append_eq_append_iff.mp ht2 with ⟨s, hs1, hs2⟩ | ⟨s, hs1, hs2⟩
    · exact Or.inl ⟨s, by rw [ht1, hs1, List.append_assoc], hs2⟩
    · rcases t with _ | ⟨t0, t'⟩
      · refine Or.inr (Or.inl ⟨[], ?_, ?_⟩)
        · rw [List.nil_append] at hs1
          rw [List.nil_append, hs2, hs1]
        · rw [List.append_nil] at ht1
          rw [List.append_nil]
          exact ht1.symm
      · rcases s with _ | ⟨s0, s'⟩
        · refine Or.inl ⟨[], ?_, ?_⟩
          · rw [List.append_nil] at hs1
            rw [List.append_nil, ht1, hs1]
          · rw [List.nil_append] at hs2 ⊢
            exact hs2.symm
        · exact Or.inr (Or.inr ⟨t0 :: t', s0 :: s', hs1, by simp, by simp,
            by rw [ht1], hs2⟩)

theorem concat_last (x : List Char) (c : Char) : (x ++ [c]).getLast? = some c :=
  List.getLast?_concat _

theorem dropLast_concat2 (x : List Char) (c : Char) : (x ++ [c]).dropLast = x := by
  rw [List.dropLast_concat]

theorem append_singleton_inj (x y : List Char) (c d : Char)
    (h : x ++ [c] = y ++ [d]) : x = y ∧ c = d := by
  have h1 := congrArg List.getLast? h
  rw [concat_last, concat_last] at h1
  have h2 := congrArg List.dropLast h
  rw [dropLast_concat2, dropLast_concat2] at h2
  exact ⟨h2, Option.some.inj h1⟩

theorem marker_getLast (tg : List Char) : (marker tg).getLast? = some '[' := by
  show (('/' :: tg) ++ ['[']).getLast? = some '['
  exact concat_last ('/' :: tg) '['

theorem pre_nl_split (tg pre a b1 : List Char)
    (hX : pre ++ ['\n'] = a ++ marker tg ++ b1) :
    ∃ b1', b1 = b1' ++ ['\n'] ∧ pre = (a ++ marker tg) ++ b1' := by
  rcases List.eq_nil_or_concat b1 with hb1 | ⟨b1', x, hb1⟩
  · subst hb1
    exfalso
    have e1 := congrArg List.getLast? hX
    rw [concat_last, List.append_nil,
      getLast_append_ne a (marker tg) (marker_ne_nil tg), marker_getLast] at e1
    exact absurd (Option.some.inj e1) (by decide)
  · subst hb1
    have hX2 : pre ++ ['\n'] = ((a ++ marker tg) ++ b1') ++ [x] := by
      rw [hX]
      simp [List.concat_eq_append, List.append_assoc]
    obtain ⟨hpre, hx⟩ := append_singleton_inj pre ((a ++ marker tg) ++ b1') '\n' x hX2
    exact ⟨b1', by rw [← hx, List.concat_eq_append], hpre⟩

theorem straddle_contra (tg pre a m1 m2 : List Char)
    (htg : ∀ c ∈ tg, isPyWS c = false)
    (hw : marker tg = m1 ++ m2) (hm1 : m1 ≠ [])
    (hX : pre ++ ['\n'] = a ++ m1) : False := by
  rcases List.eq_nil_or_concat m1 with hnil | ⟨m1', y, hm⟩
  · exact hm1 hnil
  · subst hm
    have hX2 : pre ++ ['\n'] = (a ++ m1') ++ [y] := by
      rw [hX]
      simp [List.concat_eq_append, List.append_assoc]
    obtain ⟨-, hy⟩ := append_singleton_inj pre (a ++ m1') '\n' y hX2
    have hmem : y ∈ marker tg := by
      rw [hw]
      simp [List.concat_eq_append]
    have hws := marker_no_ws tg htg y hmem
    rw [← hy] at hws
    exact absurd hws (by decide)

theorem runD_append : ∀ (w v : List Char) (d : ℤ),
    runD (w ++ v) d = runD v (runD w d) := by
  intro w
  induction w with
  | nil => intro v d; rfl
  | cons c r ih =>
    intro v d
    rw [List.cons_append, runD, runD]
    by_cases h1 : c = '['
    · rw [if_pos h1, if_pos h1, ih]
    · rw [if_neg h1, if_neg h1]
      by_cases h2 : c = ']'
      · rw [if_pos h2, if_pos h2, ih]
      · rw [if_neg h2, if_neg h2, ih]

theorem runD_no_br (w : List Char) (hbr : ∀ c ∈ w, isBr c = false) (d : ℤ) :
    runD w d = d := by
  rw [← runD_filterBr, filterBr_eq_nil w hbr]
  rfl

theorem runD_marker (tg : List Char) (h2 : ']' ∉ tg) (h3 : '[' ∉ tg) (d : ℤ) :
    runD (marker tg) d = d + 1 := by
  show runD ('/' :: (tg ++ ['['])) d = d + 1
  rw [runD, if_neg (by decide), if_neg (by decide), runD_append,
    runD_no_br tg (fun c hc => by
      simp only [isBr, Bool.or_eq_false_iff, decide_eq_false_iff_not]
      exact ⟨fun h => h3 (h ▸ hc), fun h => h2 (h ▸ hc)⟩) d]
  rw [runD, if_pos rfl]
  rfl

theorem scanSplit_runD : ∀ (x : List Char) (d : ℕ), 1 ≤ d →
    ∀ (u rest : List Char), scanSplit x d = some (u, rest) →
      runD u (d : ℤ) = 0 := by
  intro x
  induction x with
  | nil => intro d hd u rest h; exact absurd h (by simp [scanSplit])
  | cons c r ih =>
    intro d hd u rest h
    rw [scanSplit] at h
    by_cases h1 : c = '['
    · rw [if_pos h1] at h
      rcases hs : scanSplit r (d + 1) with _ | ⟨u2, rest2⟩
      · rw [hs] at h; simp at h
      · rw [hs] at h
        simp only [Option.map_some', Option.some.injEq, Prod.mk.injEq] at h
        have hr := ih (d + 1) (by omega) u2 rest2 hs
        rw [← h.1, runD, if_pos rfl]
        rw [Nat.cast_add, Nat.cast_one] at hr
        exact hr
    · rw [if_neg h1] at h
      by_cases h2 : c = ']'
      · rw [if_pos h2] at h
        by_cases h3 : d = 1
        · rw [if_pos h3] at h
          simp only [Option.some.injEq, Prod.mk.injEq] at h
          rw [← h.1, runD, if_neg (by decide), if_pos rfl, h3]
          norm_num [runD]
        · rw [if_neg h3] at h
          rcases hs : scanSplit r (d - 1) with _ | ⟨u2, rest2⟩
          · rw [hs] at h; simp at h
          · rw [hs] at h
            simp only [Option.map_some', Option.some.injEq, Prod.mk.injEq] at h
            have hr := ih (d - 1) (by omega) u2 rest2 hs
            rw [Nat.cast_sub (by omega : 1 ≤ d), Nat.cast_one] at hr
            rw [← h.1, runD, if_neg (by decide), if_pos rfl]
            exact hr
      · rw [if_neg h2] at h
        rcases hs : scanSplit r d with _ | ⟨u2, rest2⟩
        · rw [hs] at h; simp at h
        · rw [hs] at h
          simp only [Option.map_some', Option.some.injEq, Prod.mk.injEq] at h
          have hr := ih d hd u2 rest2 hs
          rw [← h.1, runD, if_neg h1, if_neg h2]
          exact hr

theorem findSub_some_marker (tg : List Char) :
    ∀ (a b : List Char), ']' ∈ b → findSub tg (a ++ marker tg ++ b) ≠ none := by
  intro a
  induction a with
  | nil =>
    intro b hrb
    rw [List.nil_append]
    have hcons : marker tg ++ b = '/' :: (tg ++ ['['] ++ b) := by simp [marker]
    rw [hcons, findSub]
    rcases htm : tryMatch tg ('/' :: (tg ++ ['['] ++ b)) with _ | ⟨m2, r2⟩
    · exfalso
      apply tryMatch_marker_some tg b hrb
      rw [hcons]
      exact htm
    · simp
  | cons c a' ih =>
    intro b hrb
    rw [show (c :: a') ++ marker tg ++ b = c :: (a' ++ marker tg ++ b) from by simp]
    rw [findSub]
    rcases htm : tryMatch tg (c :: (a' ++ marker tg ++ b)) with _ | ⟨m2, r2⟩
    · rcases hf : findSub tg (a' ++ marker tg ++ b) with _ | p
      · exact absurd hf (ih b hrb)
      · simp
    · simp

theorem findLin_some_marker (tg : List Char) :
    ∀ (a b : List Char), scanSplit b 1 ≠ none →
      findLin tg (a ++ marker tg ++ b) ≠ none := by
  intro a
  induction a with
  | nil =>
    intro b hsc
    rw [List.nil_append]
    have hcons : marker tg ++ b = '/' :: (tg ++ ['['] ++ b) := by simp [marker]
    rw [hcons, findLin]
    have hp : (marker tg).isPrefixOf ('/' :: (tg ++ ['['] ++ b)) = true := by
      apply List.isPrefixOf_iff_prefix.mpr
      exact ⟨b, by simp [marker]⟩
    rw [if_pos hp]
    have hdrop : ('/' :: (tg ++ ['['] ++ b)).drop (marker tg).length = b := by
      rw [← hcons, List.drop_left]
    rw [hdrop]
    rcases hs : scanSplit b 1 with _ | ⟨u, r2⟩
    · exact absurd hs hsc
    · simp
  | cons c a' ih =>
    intro b hsc
    rw [show (c :: a') ++ marker tg ++ b = c :: (a' ++ marker tg ++ b) from by simp]
    rw [findLin]
    by_cases hp : (marker tg).isPrefixOf (c :: (a' ++ marker tg ++ b)) = true
    · rw [if_pos hp]
      rcases hs : scanSplit ((c :: (a' ++ marker tg ++ b)).drop (marker tg).length) 1
        with _ | ⟨u, r2⟩
      · rcases hf : findLin tg (a' ++ marker tg ++ b) with _ | p
        · exact absurd hf (ih b hsc)
        · simp
      · simp
    · rw [if_neg hp]
      rcases hf : findLin tg (a' ++ marker tg ++ b) with _ | p
      · exact absurd hf (ih b hsc)
      · simp

theorem findLin_none_NML (tg l : List Char) (h : findLin tg l = none) :
    MarkerInv tg neverCloses l := by
  intro a b heq
  rcases hs : scanSplit b 1 with _ | p
  · exact (scanSplit_none_iff b 1 le_rfl).mp hs
  · exfalso
    apply findLin_some_marker tg a b (by rw [hs]; simp)
    rw [← heq]
    exact h


/-! Infrastructure part 6: the two base marker invariants.  After the
regex substitution pass no marker is ever followed by a `]`; after the
linear span replacement every marker's suffix keeps positive depth. -/

theorem subTags_NMR (tg : List Char) (htg : ∀ c ∈ tg, isPyWS c = false) :
    ∀ (n : ℕ) (l : List Char), l.length ≤ n →
      MarkerInv tg noRBAfter (subTags tg l) := by
  intro n
  induction n with
  | zero =>
    intro l hn
    have hl : l = [] := List.length_eq_zero.mp (Nat.le_zero.mp hn)
    subst hl
    rw [subTags_none tg [] rfl]
    intro a b heq
    exact absurd heq.symm (by simp [marker])
  | succ n ih =>
    intro l hn
    rcases hfs : findSub tg l with _ | ⟨pre, mid, rest⟩
    · rw [subTags_none tg l hfs]
      intro a b heq hmem
      rw [heq] at hfs
      exact findSub_some_marker tg a b hmem hfs
    · have hsub := subTags_some tg l pre mid rest hfs
      rw [hsub]
      obtain ⟨hl, htm⟩ := findSub_struct tg l pre mid rest hfs
      have hrb_mid : ']' ∈ mid := by
        obtain ⟨u, v, hs, hmid, -, -⟩ := tryMatch_struct tg (mid ++ rest) mid rest htm
        obtain ⟨-, w, hw⟩ := splitRB_spec _ u v hs
        rw [hmid, hw]
        simp
      have hrlen := findSub_rest_length tg l pre mid rest hfs
      have hIH : MarkerInv tg noRBAfter (subTags tg rest) := ih rest (by omega)
      intro a b heq hmem
      have heq2 : (pre ++ ['\n']) ++ subTags tg rest = a ++ marker tg ++ b := by
        rw [← heq]
        simp
      rcases occ_split (pre ++ ['\n']) (subTags tg rest) a (marker tg) b heq2 with
        ⟨b1, hX, hb⟩ | ⟨a1, hY, ha⟩ | ⟨m1, m2, hw, hm1, hm2, hX, hY⟩
      · obtain ⟨b1', hb1, hpre⟩ := pre_nl_split tg pre a b1 hX
        have hnone := findSub_pre tg l pre mid rest hfs a (marker tg ++ b1')
          (by rw [hpre]; simp [List.append_assoc]) (by simp [marker])
        apply tryMatch_marker_some tg (b1' ++ mid ++ rest) (by simp [hrb_mid])
        rw [show marker tg ++ (b1' ++ mid ++ rest) = (marker tg ++ b1') ++ mid ++ rest
          from by simp [List.append_assoc]]
        exact hnone
      · exact hIH a1 b hY hmem
      · exact straddle_contra tg pre a m1 m2 htg hw hm1 hX

theorem Er_replaceSpans (tg : List Char) (h2 : ']' ∉ tg) (h3 : '[' ∉ tg) :
    ∀ (n : ℕ) (l : List Char), l.length ≤ n →
      Er (filterBr l) (filterBr (replaceSpans tg l)) := by
  intro n
  induction n with
  | zero =>
    intro l hn
    have hl : l = [] := List.length_eq_zero.mp (Nat.le_zero.mp hn)
    subst hl
    rw [replaceSpans_none tg [] rfl]
    exact Er_refl _
  | succ n ih =>
    intro l hn
    rcases hfl : findLin tg l with _ | ⟨pre, mid, rest⟩
    · rw [replaceSpans_none tg l hfl]
      exact Er_refl _
    · rw [replaceSpans_some tg l pre mid rest hfl]
      obtain ⟨u, hmid, hl2, hscan⟩ := findLin_scan tg l pre mid rest hfl
      have hrlen := findLin_rest_length tg l pre mid rest hfl
      have hrun : runD (filterBr (marker tg ++ u)) 0 = 0 := by
        rw [runD_filterBr, runD_append, runD_marker tg h2 h3 0]
        have hu := scanSplit_runD (u ++ rest) 1 le_rfl u rest hscan
        rw [Nat.cast_one] at hu
        rw [show (0 : ℤ) + 1 = 1 from by norm_num]
        exact hu
      have hEr : Er (filterBr (marker tg ++ u) ++ filterBr rest)
          (filterBr (replaceSpans tg rest)) :=
        Er.skip hrun (ih rest (by omega))
      rw [hl2]
      rw [show filterBr (pre ++ (marker tg ++ u) ++ rest)
          = filterBr pre ++ (filterBr (marker tg ++ u) ++ filterBr rest) from by
        rw [filterBr_append, filterBr_append, List.append_assoc]]
      rw [show filterBr (pre ++ '\n' :: replaceSpans tg rest)
          = filterBr pre ++ filterBr (replaceSpans tg rest) from by
        rw [filterBr_append, filterBr_cons, if_neg (by decide : ¬isBr '\n' = true)]]
      exact Er_append_left (filterBr pre) hEr

theorem replaceSpans_NML (tg : List Char) (htg : ∀ c ∈ tg, isPyWS c = false)
    (h2 : ']' ∉ tg) (h3 : '[' ∉ tg) :
    ∀ (n : ℕ) (l : List Char), l.length ≤ n →
      MarkerInv tg neverCloses (replaceSpans tg l) := by
  intro n
  induction n with
  | zero =>
    intro l hn
    have hl : l = [] := List.length_eq_zero.mp (Nat.le_zero.mp hn)
    subst hl
    rw [replaceSpans_none tg [] rfl]
    intro a b heq
    exact absurd heq.symm (by simp [marker])
  | succ n ih =>
    intro l hn
    rcases hfl : findLin tg l with _ | ⟨pre, mid, rest⟩
    · rw [replaceSpans_none tg l hfl]
      exact findLin_none_NML tg l hfl
    · rw [replaceSpans_some tg l pre mid rest hfl]
      obtain ⟨u, hmid, hl2, hscan⟩ := findLin_scan tg l pre mid rest hfl
      have hrlen := findLin_rest_length tg l pre mid rest hfl
      have hrun : runD (filterBr (marker tg ++ u)) 0 = 0 := by
        rw [runD_filterBr, runD_append, runD_marker tg h2 h3 0]
        have hu := scanSplit_runD (u ++ rest) 1 le_rfl u rest hscan
        rw [Nat.cast_one] at hu
        rw [show (0 : ℤ) + 1 = 1 from by norm_num]
        exact hu
      have hIH := ih rest (by omega)
      intro a b heq
      have heq2 : (pre ++ ['\n']) ++ replaceSpans tg rest = a ++ marker tg ++ b := by
        rw [← heq]
        simp
      rcases occ_split (pre ++ ['\n']) (replaceSpans tg rest) a (marker tg) b heq2 with
        ⟨b1, hX, hb⟩ | ⟨a1, hY, ha⟩ | ⟨m1, m2, hw, hm1, hm2, hX, hY⟩
      · obtain ⟨b1', hb1, hpre⟩ := pre_nl_split tg pre a b1 hX
        have hnone := findLin_pre tg l pre mid rest hfl a b1' hpre
        have hncz := (scanSplit_none_iff (b1' ++ mid ++ rest) 1 le_rfl).mp hnone
        rw [Nat.cast_one] at hncz
        show noCloseZ b 1 = true
        rw [hb, hb1, ← noCloseZ_filterBr]
        have hEr : Er (filterBr (b1' ++ mid ++ rest))
            (filterBr ((b1' ++ ['\n']) ++ replaceSpans tg rest)) := by
          rw [filterBr_append, filterBr_append, filterBr_append, filterBr_append,
            show filterBr ['\n'] = [] from rfl, List.append_nil, List.append_assoc]
          apply Er_append_left
          rw [hmid]
          exact Er.skip hrun (Er_replaceSpans tg h2 h3 rest.length rest le_rfl)
        apply Er_noCloseZ hEr 1
        rw [noCloseZ_filterBr]
        exact hncz
      · exact hIH a1 b hY
      · exact (straddle_contra tg pre a m1 m2 htg hw hm1 hX).elim


/-! Infrastructure part 7: the whitespace normal forms.  Each pass
establishes its normal form, the later passes preserve it, and each pass
is the identity on inputs already in its normal form. -/

theorem mem_of_getLast2 (l : List Char) (x : Char) (h : l.getLast? = some x) :
    x ∈ l := by
  rcases List.eq_nil_or_concat l with h0 | ⟨l', y, h0⟩
  · subst h0
    simp at h
  · subst h0
    rw [List.concat_eq_append] at h ⊢
    rw [concat_last] at h
    injection h with h
    subst h
    simp

theorem chain'_all {R : Char → Char → Prop} :
    ∀ l : List Char, (∀ a ∈ l, ∀ b ∈ l, R a b) → l.Chain' R := by
  intro l
  induction l with
  | nil => intro h; exact List.chain'_nil
  | cons c r ih =>
    intro h
    rw [List.chain'_cons']
    refine ⟨fun b hb => h c (by simp) b (List.mem_cons_of_mem _ (List.mem_of_mem_head? hb)), ?_⟩
    exact ih (fun a ha b hb => h a (List.mem_cons_of_mem _ ha) b (List.mem_cons_of_mem _ hb))

theorem noTriple_within (l l' : List Char) (h : noTriple l) (hinf : l' <:+: l) :
    noTriple l' := fun hx => h (hx.trans hinf)

theorem stripWS_isInfix (l : List Char) : stripWS l <:+: l := by
  obtain ⟨t1, t2, hl, -, -⟩ := stripWS_decomp l
  exact ⟨t1, t2, hl.symm⟩

theorem noHB_establish : ∀ (n : ℕ) (l : List Char), l.length ≤ n →
    noHB (dropB l) := by
  intro n
  induction n with
  | zero =>
    intro l hn
    have hl : l = [] := List.length_eq_zero.mp (Nat.le_zero.mp hn)
    subst hl
    exact List.chain'_nil
  | succ n ih =>
    intro l hn
    rcases l with _ | ⟨c, r⟩
    · exact List.chain'_nil
    · simp only [List.length_cons] at hn
      rw [dropB_cons]
      by_cases hc : isHWS c = true
      · rw [if_pos hc]
        by_cases hh : (r.dropWhile isHWS).head? = some '\n'
        · rw [if_pos hh]
          exact ih (r.dropWhile isHWS) (le_trans (len_dW_le _ _) (by omega))
        · rw [if_neg hh]
          rw [noHB, List.chain'_append]
          refine ⟨?_, ih (r.dropWhile isHWS) (le_trans (len_dW_le _ _) (by omega)), ?_⟩
          · apply chain'_all
            intro a ha b hb hab
            have hbw := List.mem_takeWhile_imp hb
            rw [hab.2] at hbw
            exact absurd hbw (by decide)
          · intro x hx y hy hab
            apply hh
            have hne : r.dropWhile isHWS ≠ [] := by
              intro h0
              rw [h0, show dropB ([] : List Char) = [] from rfl] at hy
              simp at hy
            obtain ⟨z0, z1, hz⟩ := List.exists_cons_of_ne_nil hne
            rw [hz] at hy ⊢
            have hz0 : isHWS z0 = false := head_dW isHWS r z0 (by rw [hz, List.head?_cons])
            rw [dropB_head (z0 :: z1) z0 rfl hz0] at hy
            have hy2 : z0 = y := Option.some.inj (Option.mem_def.mp hy)
            rw [List.head?_cons, hy2, hab.2]
      · rw [if_neg hc]
        rw [noHB, List.chain'_cons']
        exact ⟨fun b hb hab => absurd hab.1 (by simp [hc]), ih r (by omega)⟩

theorem noHA_establish : ∀ (n : ℕ) (l : List Char), l.length ≤ n →
    noHA (dropA l) := by
  intro n
  induction n with
  | zero =>
    intro l hn
    have hl : l = [] := List.length_eq_zero.mp (Nat.le_zero.mp hn)
    subst hl
    exact List.chain'_nil
  | succ n ih =>
    intro l hn
    rcases l with _ | ⟨c, r⟩
    · exact List.chain'_nil
    · simp only [List.length_cons] at hn
      rw [dropA_cons]
      by_cases hc : c = '\n'
      · rw [if_pos hc]
        rw [noHA, List.chain'_cons']
        refine ⟨?_, ih (r.dropWhile isHWS) (le_trans (len_dW_le _ _) (by omega))⟩
        intro b hb hab
        rw [dropA_head] at hb
        have := head_dW isHWS r b (Option.mem_def.mp hb)
        rw [hab.2] at this
        exact absurd this (by simp)
      · rw [if_neg hc]
        rw [noHA, List.chain'_cons']
        exact ⟨fun b hb hab => absurd hab.1 hc, ih r (by omega)⟩

theorem noTriple_establish : ∀ (n : ℕ) (l : List Char), l.length ≤ n →
    noTriple (c3 l) := by
  intro n
  induction n with
  | zero =>
    intro l hn
    have hl : l = [] := List.length_eq_zero.mp (Nat.le_zero.mp hn)
    subst hl
    rw [noTriple, show c3 ([] : List Char) = [] from rfl]
    simp
  | succ n ih =>
    intro l hn
    rcases l with _ | ⟨c, r⟩
    · rw [noTriple, show c3 ([] : List Char) = [] from rfl]
      simp
    · simp only [List.length_cons] at hn
      rw [c3_cons]
      by_cases hc : c = '\n'
      · rw [if_pos hc]
        intro hinf
        rcases hinf with ⟨s, t, hst⟩
        rw [List.append_assoc] at hst
        rcases List.append_eq_append_iff.mp hst with ⟨t1, h1, h2⟩ | ⟨t1, h1, h2⟩
        swap
        · exact ih (r.dropWhile (· = '\n')) (le_trans (len_dW_le _ _) (by omega))
            ⟨t1, t, by rw [h2, List.append_assoc]⟩
        · have ht1len : t1.length ≤ 2 := by
            have := congrArg List.length h1
            simp only [List.length_replicate, List.length_append] at this
            omega
          rcases List.append_eq_append_iff.mp h2 with ⟨s2, h3, h4⟩ | ⟨s2, h3, h4⟩
          · have := congrArg List.length h3
            simp only [List.length_append, List.length_cons, List.length_nil] at this
            omega
          · rcases s2 with _ | ⟨s0, s2'⟩
            · have := congrArg List.length h3
              simp only [List.length_append, List.length_cons, List.length_nil] at this
              omega
            · have hs0 : s0 = '\n' := by
                have hm : s0 ∈ (['\n', '\n', '\n'] : List Char) := by
                  rw [h3]
                  simp
                simpa using hm
              have hhead := congrArg List.head? h4
              rw [c3_head] at hhead
              rcases hz : (r.dropWhile (· = '\n')).head? with _ | z
              · rw [hz] at hhead
                simp at hhead
              · rw [hz] at hhead
                have hz2 := head_dW (· = '\n') r z hz
                have : z = s0 := by simpa using hhead
                rw [this, hs0] at hz2
                exact absurd hz2 (by simp)
      · rw [if_neg hc]
        intro hinf
        rcases hinf with ⟨s, t, hst⟩
        rcases s with _ | ⟨s0, s'⟩
        · rw [List.nil_append] at hst
          injection hst with h1 h2
          exact hc h1.symm
        · injection hst with h1 h2
          exact ih r (by omega) ⟨s', t, h2⟩


theorem noHB_dropA : ∀ (n : ℕ) (l : List Char), l.length ≤ n → noHB l →
    noHB (dropA l) := by
  intro n
  induction n with
  | zero =>
    intro l hn h
    have hl : l = [] := List.length_eq_zero.mp (Nat.le_zero.mp hn)
    subst hl
    exact List.chain'_nil
  | succ n ih =>
    intro l hn h
    rcases l with _ | ⟨c, r⟩
    · exact List.chain'_nil
    · simp only [List.length_cons] at hn
      rw [dropA_cons]
      by_cases hc : c = '\n'
      · rw [if_pos hc]
        rw [noHB, List.chain'_cons']
        refine ⟨fun b hb hab => absurd hab.1 (by decide), ?_⟩
        exact ih (r.dropWhile isHWS) (le_trans (len_dW_le _ _) (by omega))
          ((List.chain'_cons'.mp h).2.suffix (List.dropWhile_suffix isHWS))
      · rw [if_neg hc]
        rw [noHB, List.chain'_cons']
        obtain ⟨hhd, htl⟩ := List.chain'_cons'.mp h
        refine ⟨fun b hb => ?_, ih r (by omega) htl⟩
        rw [dropA_head] at hb
        exact hhd b hb

theorem noHB_c3 : ∀ (n : ℕ) (l : List Char), l.length ≤ n → noHB l →
    noHB (c3 l) := by
  intro n
  induction n with
  | zero =>
    intro l hn h
    have hl : l = [] := List.length_eq_zero.mp (Nat.le_zero.mp hn)
    subst hl
    exact List.chain'_nil
  | succ n ih =>
    intro l hn h
    rcases l with _ | ⟨c, r⟩
    · exact List.chain'_nil
    · simp only [List.length_cons] at hn
      rw [c3_cons]
      by_cases hc : c = '\n'
      · rw [if_pos hc]
        rw [noHB, List.chain'_append]
        refine ⟨?_, ?_, ?_⟩
        · exact chain'_all _ (fun a ha b hb hab => by
            rw [List.eq_of_mem_replicate ha] at hab
            exact absurd hab.1 (by decide))
        · exact ih (r.dropWhile (· = '\n')) (le_trans (len_dW_le _ _) (by omega))
            ((List.chain'_cons'.mp h).2.suffix (List.dropWhile_suffix _))
        · intro x hx y hy hab
          have hx2 : x = '\n' :=
            List.eq_of_mem_replicate (mem_of_getLast2 _ x (Option.mem_def.mp hx))
          rw [hx2] at hab
          exact absurd hab.1 (by decide)
      · rw [if_neg hc]
        rw [noHB, List.chain'_cons']
        obtain ⟨hhd, htl⟩ := List.chain'_cons'.mp h
        refine ⟨fun b hb => ?_, ih r (by omega) htl⟩
        rw [c3_head] at hb
        exact hhd b hb

theorem noHA_after_run : ∀ (r : List Char) (y : Char), noHA ('\n' :: r) →
    (r.dropWhile (· = '\n')).head? = some y → isHWS y = false := by
  intro r
  induction r with
  | nil => intro y h hy; simp at hy
  | cons c2 r2 ih =>
    intro y h hy
    by_cases hc2 : c2 = '\n'
    · rw [List.dropWhile_cons_of_pos (by simp [hc2])] at hy
      refine ih y ?_ hy
      subst hc2
      exact List.Chain'.tail h
    · rw [List.dropWhile_cons_of_neg (by simp [hc2])] at hy
      rw [List.head?_cons] at hy
      have hy2 : c2 = y := Option.some.inj hy
      have hpair := (List.chain'_cons'.mp h).1 c2 (by simp)
      subst hy2
      cases hb : isHWS c2 with
      | false => rfl
      | true => exact absurd ⟨rfl, hb⟩ hpair

theorem noHA_c3 : ∀ (n : ℕ) (l : List Char), l.length ≤ n → noHA l →
    noHA (c3 l) := by
  intro n
  induction n with
  | zero =>
    intro l hn h
    have hl : l = [] := List.length_eq_zero.mp (Nat.le_zero.mp hn)
    subst hl
    exact List.chain'_nil
  | succ n ih =>
    intro l hn h
    rcases l with _ | ⟨c, r⟩
    · exact List.chain'_nil
    · simp only [List.length_cons] at hn
      rw [c3_cons]
      by_cases hc : c = '\n'
      · rw [if_pos hc]
        subst hc
        rw [noHA, List.chain'_append]
        refine ⟨?_, ?_, ?_⟩
        · exact chain'_all _ (fun a ha b hb hab => by
            rw [List.eq_of_mem_replicate hb] at hab
            exact absurd hab.2 (by decide))
        · exact ih (r.dropWhile (· = '\n')) (le_trans (len_dW_le _ _) (by omega))
            ((List.chain'_cons'.mp h).2.suffix (List.dropWhile_suffix _))
        · intro x hx y hy hab
          rw [c3_head] at hy
          have hw := noHA_after_run r y h (Option.mem_def.mp hy)
          exact absurd hab.2 (by simp [hw])
      · rw [if_neg hc]
        rw [noHA, List.chain'_cons']
        obtain ⟨hhd, htl⟩ := List.chain'_cons'.mp h
        refine ⟨fun b hb => ?_, ih r (by omega) htl⟩
        rw [c3_head] at hb
        exact hhd b hb

theorem noHB_run : ∀ (r : List Char) (c : Char), noHB (c :: r) → isHWS c = true →
    ¬(r.dropWhile isHWS).head? = some '\n' := by
  intro r
  induction r with
  | nil => intro c h hc; simp
  | cons c2 r2 ih =>
    intro c h hc
    by_cases hc2 : isHWS c2 = true
    · rw [List.dropWhile_cons_of_pos hc2]
      exact ih c2 (List.Chain'.tail h) hc2
    · rw [List.dropWhile_cons_of_neg (by simp [hc2])]
      intro hy
      rw [List.head?_cons] at hy
      have hy2 : c2 = '\n' := Option.some.inj hy
      exact (List.chain'_cons'.mp h).1 c2 (by simp) ⟨hc, hy2⟩

theorem dropB_id : ∀ (n : ℕ) (l : List Char), l.length ≤ n → noHB l →
    dropB l = l := by
  intro n
  induction n with
  | zero =>
    intro l hn h
    have hl : l = [] := List.length_eq_zero.mp (Nat.le_zero.mp hn)
    subst hl
    rfl
  | succ n ih =>
    intro l hn h
    rcases l with _ | ⟨c, r⟩
    · rfl
    · simp only [List.length_cons] at hn
      rw [dropB_cons]
      by_cases hc : isHWS c = true
      · rw [if_pos hc, if_neg (noHB_run r c h hc),
          ih (r.dropWhile isHWS) (le_trans (len_dW_le _ _) (by omega))
            ((List.Chain'.tail h).suffix (List.dropWhile_suffix isHWS)),
          List.takeWhile_cons_of_pos hc, List.cons_append,
          List.takeWhile_append_dropWhile]
      · rw [if_neg hc, ih r (by omega) (List.Chain'.tail h)]

theorem dropA_id : ∀ (n : ℕ) (l : List Char), l.length ≤ n → noHA l →
    dropA l = l := by
  intro n
  induction n with
  | zero =>
    intro l hn h
    have hl : l = [] := List.length_eq_zero.mp (Nat.le_zero.mp hn)
    subst hl
    rfl
  | succ n ih =>
    intro l hn h
    rcases l with _ | ⟨c, r⟩
    · rfl
    · simp only [List.length_cons] at hn
      rw [dropA_cons]
      by_cases hc : c = '\n'
      · subst hc
        have hdw : r.dropWhile isHWS = r := by
          rcases r with _ | ⟨r0, r1⟩
          · rfl
          · have hpair := (List.chain'_cons'.mp h).1 r0 (by simp)
            cases hb : isHWS r0 with
            | false => exact List.dropWhile_cons_of_neg (by simp [hb])
            | true => exact absurd ⟨rfl, hb⟩ hpair
        rw [if_pos rfl, hdw, ih r (by omega) (List.Chain'.tail h)]
      · rw [if_neg hc, ih r (by omega) (List.Chain'.tail h)]

theorem c3_id : ∀ (n : ℕ) (l : List Char), l.length ≤ n → noTriple l →
    c3 l = l := by
  intro n
  induction n with
  | zero =>
    intro l hn h
    have hl : l = [] := List.length_eq_zero.mp (Nat.le_zero.mp hn)
    subst hl
    rfl
  | succ n ih =>
    intro l hn h
    rcases l with _ | ⟨c, r⟩
    · rfl
    · simp only [List.length_cons] at hn
      rw [c3_cons]
      by_cases hc : c = '\n'
      · subst hc
        have hrun : (r.takeWhile (· = '\n')).length ≤ 1 := by
          by_contra hlen
          push_neg at hlen
          rcases htw : r.takeWhile (· = '\n') with _ | ⟨x1, tw1⟩
          · rw [htw] at hlen
            simp at hlen
          · rcases htw2 : tw1 with _ | ⟨x2, tw2⟩
            · rw [htw, htw2] at hlen
              simp at hlen
            · have hx1 : x1 = '\n' := by
                have hm : x1 ∈ r.takeWhile (· = '\n') := by
                  rw [htw]
                  exact List.mem_cons_self _ _
                simpa using List.mem_takeWhile_imp hm
              have hx2 : x2 = '\n' := by
                have hm : x2 ∈ r.takeWhile (· = '\n') := by
                  rw [htw, htw2]
                  simp
                simpa using List.mem_takeWhile_imp hm
              apply h
              refine ⟨[], tw2 ++ r.dropWhile (· = '\n'), ?_⟩
              rw [List.nil_append]
              conv_rhs => rw [show r = r.takeWhile (· = '\n') ++ r.dropWhile (· = '\n')
                from (List.takeWhile_append_dropWhile _ _).symm, htw, htw2]
              rw [hx1, hx2]
              simp
        have hmin : min ((r.takeWhile (· = '\n')).length + 1) 2
            = (r.takeWhile (· = '\n')).length + 1 := by omega
        rw [if_pos rfl, hmin, List.replicate_succ,
          show List.replicate (r.takeWhile (· = '\n')).length '\n' = r.takeWhile (· = '\n')
            from (List.eq_replicate_of_mem
              (fun b hb => by simpa using List.mem_takeWhile_imp hb)).symm,
          ih (r.dropWhile (· = '\n')) (le_trans (len_dW_le _ _) (by omega))
            (noTriple_within _ _ h
              (((List.dropWhile_suffix _).trans (List.suffix_cons '\n' r)).isInfix)),
          List.cons_append, List.takeWhile_append_dropWhile]
      · rw [if_neg hc, ih r (by omega)
          (noTriple_within _ _ h (List.suffix_cons c r).isInfix)]


/-! Infrastructure part 8: assembling the cleaner properties. -/

theorem NMR_findR_none (tg y : List Char) (h : MarkerInv tg noRBAfter y) :
    findR tg y = none := by
  rcases hfr : findR tg y with _ | ⟨c, rest⟩
  · rfl
  · exfalso
    obtain ⟨pre, w, hst⟩ := findR_struct tg y c rest hfr
    have hinv := h pre (w ++ ']' :: rest) (by rw [hst]; simp [List.append_assoc])
    exact hinv (by simp)

theorem NMR_findSub_none (tg y : List Char) (h : MarkerInv tg noRBAfter y) :
    findSub tg y = none := by
  rcases hfs : findSub tg y with _ | ⟨pre, mid, rest⟩
  · rfl
  · exfalso
    obtain ⟨hl, htm⟩ := findSub_struct tg y pre mid rest hfs
    obtain ⟨u, v, hs, hmid, hrest, hmr⟩ := tryMatch_struct tg (mid ++ rest) mid rest htm
    obtain ⟨-, w, hw⟩ := splitRB_spec _ u v hs
    have heq : y = (pre ++ (mid ++ rest).takeWhile isPyWS) ++ marker tg
        ++ (u ++ v.takeWhile isPyWS ++ rest) := by
      conv_lhs => rw [hl, hmid]
      simp [List.append_assoc]
    exact h _ _ heq (by rw [hw]; simp)

theorem NML_findLin_none (tg y : List Char) (h : MarkerInv tg neverCloses y) :
    findLin tg y = none := by
  rcases hfl : findLin tg y with _ | ⟨pre, mid, rest⟩
  · rfl
  · exfalso
    obtain ⟨u, hmid, hl, hscan⟩ := findLin_scan tg y pre mid rest hfl
    have heq : y = pre ++ marker tg ++ (u ++ rest) := by
      rw [hl]
      simp [List.append_assoc]
    have hinv := h pre (u ++ rest) heq
    have hnone := (scanSplit_none_iff (u ++ rest) 1 le_rfl).mpr
      (by rw [Nat.cast_one]; exact hinv)
    rw [hscan] at hnone
    simp at hnone

theorem clean_R_NMR (tg l : List Char) (htg : ∀ c ∈ tg, isPyWS c = false) :
    MarkerInv tg noRBAfter (clean_thought_tags tg l) := by
  rw [clean_thought_tags]
  apply MarkerInv_stripWS tg _ noRBAfter_respects
  apply MarkerInv_c3 tg htg _ noRBAfter_respects
  apply MarkerInv_dropA tg htg _ noRBAfter_respects
  apply MarkerInv_dropB tg htg _ noRBAfter_respects
  exact subTags_NMR tg htg l.length l le_rfl

theorem clean_L_NML (tg l : List Char) (htg : ∀ c ∈ tg, isPyWS c = false)
    (h2 : ']' ∉ tg) (h3 : '[' ∉ tg) :
    MarkerInv tg neverCloses (clean_thought_tags_linear tg l) := by
  rw [clean_thought_tags_linear]
  rcases hfl : findLin tg l with _ | ⟨pre, mid, rest⟩
  · show MarkerInv tg neverCloses (stripWS (c3 l))
    apply MarkerInv_stripWS tg _ neverCloses_respects
    apply MarkerInv_c3 tg htg _ neverCloses_respects
    exact findLin_none_NML tg l hfl
  · show MarkerInv tg neverCloses (stripWS (c3 (dropA (dropB (replaceSpans tg l)))))
    apply MarkerInv_stripWS tg _ neverCloses_respects
    apply MarkerInv_c3 tg htg _ neverCloses_respects
    apply MarkerInv_dropA tg htg _ neverCloses_respects
    apply MarkerInv_dropB tg htg _ neverCloses_respects
    exact replaceSpans_NML tg htg h2 h3 l.length l le_rfl

theorem clean_R_norm (tg l : List Char) :
    noHB (clean_thought_tags tg l) ∧ noHA (clean_thought_tags tg l) ∧
    noTriple (clean_thought_tags tg l) ∧ strippedP (clean_thought_tags tg l) := by
  rw [clean_thought_tags]
  refine ⟨?_, ?_, ?_, stripWS_stripped _⟩
  · exact List.Chain'.infix
      (noHB_c3 _ _ le_rfl (noHB_dropA _ _ le_rfl (noHB_establish _ _ le_rfl)))
      (stripWS_isInfix _)
  · exact List.Chain'.infix
      (noHA_c3 _ _ le_rfl (noHA_establish _ _ le_rfl))
      (stripWS_isInfix _)
  · exact noTriple_within _ _ (noTriple_establish _ _ le_rfl) (stripWS_isInfix _)

theorem clean_L_norm (tg l : List Char) :
    noTriple (clean_thought_tags_linear tg l) ∧
    strippedP (clean_thought_tags_linear tg l) := by
  rw [clean_thought_tags_linear]
  rcases hfl : findLin tg l with _ | p
  · exact ⟨noTriple_within _ _ (noTriple_establish _ _ le_rfl) (stripWS_isInfix _),
      stripWS_stripped _⟩
  · exact ⟨noTriple_within _ _ (noTriple_establish _ _ le_rfl) (stripWS_isInfix _),
      stripWS_stripped _⟩

theorem parse_of_findR_none (tg x : List Char) (h : findR tg x = none) :
    parse_thought_tags tg x = [] := by
  rw [parse_thought_tags, contentsR_eq, h]
  rfl

theorem parse_of_findLin_none (tg x : List Char) (h : findLin tg x = none) :
    parse_thought_tags_linear tg x = [] := by
  rw [parse_thought_tags_linear, contentsL_eq, h]
  rfl

theorem clean_R_again (tg y : List Char) (hsub : findSub tg y = none)
    (hB : noHB y) (hA : noHA y) (hT : noTriple y) (hS : strippedP y) :
    clean_thought_tags tg y = y := by
  rw [clean_thought_tags, subTags_none tg y hsub, dropB_id _ _ le_rfl hB,
    dropA_id _ _ le_rfl hA, c3_id _ _ le_rfl hT, stripWS_id _ hS]

theorem clean_L_again (tg y : List Char) (hfl : findLin tg y = none)
    (hT : noTriple y) (hS : strippedP y) :
    clean_thought_tags_linear tg y = y := by
  rw [clean_thought_tags_linear, hfl]
  show stripWS (c3 y) = y
  rw [c3_id _ _ le_rfl hT, stripWS_id _ hS]

/-- Claim C8: for every input and every whitespace-free, bracket-free tag
name, both cleaners are idempotent and the matching parser finds nothing in
a cleaned string: `clean_thought_tags` (the regex cleaner) and
`clean_thought_tags_linear` (the bracket-balanced cleaner) satisfy
`clean (clean x) = clean x`, and `parse_thought_tags (clean x)` and
`parse_thought_tags_linear (clean_linear x)` are the empty mapping. -/
theorem claim_C8 (tg l : List Char)
    (htg : ∀ c ∈ tg, isPyWS c = false) (h2 : ']' ∉ tg) (h3 : '[' ∉ tg) :
    clean_thought_tags tg (clean_thought_tags tg l) = clean_thought_tags tg l ∧
    parse_thought_tags tg (clean_thought_tags tg l) = [] ∧
    clean_thought_tags_linear tg (clean_thought_tags_linear tg l)
      = clean_thought_tags_linear tg l ∧
    parse_thought_tags_linear tg (clean_thought_tags_linear tg l) = [] := by
  have hNMR := clean_R_NMR tg l htg
  have hNML := clean_L_NML tg l htg h2 h3
  obtain ⟨hB, hA, hT, hS⟩ := clean_R_norm tg l
  obtain ⟨hTL, hSL⟩ := clean_L_norm tg l
  exact ⟨clean_R_again tg _ (NMR_findSub_none tg _ hNMR) hB hA hT hS,
    parse_of_findR_none tg _ (NMR_findR_none tg _ hNMR),
    clean_L_again tg _ (NML_findLin_none tg _ hNML) hTL hSL,
    parse_of_findLin_none tg _ (NML_findLin_none tg _ hNML)⟩

/-- Claim C8, witness at the default tag name and a concrete tagged text. -/
theorem claim_C8_witness :
    clean_thought_tags "thought".data
        (clean_thought_tags "thought".data " a /thought[x] b ".data)
      = clean_thought_tags "thought".data " a /thought[x] b ".data ∧
    parse_thought_tags "thought".data
        (clean_thought_tags "thought".data " a /thought[x] b ".data) = [] ∧
    clean_thought_tags_linear "thought".data
        (clean_thought_tags_linear "thought".data " a /thought[x] b ".data)
      = clean_thought_tags_linear "thought".data " a /thought[x] b ".data ∧
    parse_thought_tags_linear "thought".data
        (clean_thought_tags_linear "thought".data " a /thought[x] b ".data) = [] :=
  claim_C8 "thought".data " a /thought[x] b ".data (by decide) (by decide) (by decide)

end TW
